import Mathlib

/-!
Verification of the specification-processing pipeline of `timeloopfe`
(`src/timeloopfe/common/processor.py`) against its natural-language spec.

The Python code manipulates a graph of objects distinguished by memory
identity (`id(n)`); we embed it with an explicit heap: objects live at
natural-number identities, and `Value.ref i` models a Python reference to
the object with identity `i`.  Atomic immutable scalars (ints, strings,
...) are modelled identity-free, which is observationally equivalent:
`copy.deepcopy` returns the very same object for them, and their
identities never collide with those of mutable objects, so membership of
a scalar's id in `seen_ids` has no observable effect.

The `Node` class itself lives in `timeloopfe/common/nodes.py`, which is
not part of the sources; everything we need from it (an ordered mapping
from field names to values, the `parent_node` / `spec` back-references,
and the behaviour of `copy.deepcopy` on it) is modelled from the spec,
as marked on the individual definitions.
-/

namespace TLFE

/-- A Python value held in a field: an atomic immutable scalar, or a
reference to a heap object with identity `i`. -/
inductive Value where
  | scalar (k : Int)
  | ref (i : Nat)
deriving DecidableEq, Repr

/-- A heap object: a `Node` (ordered field map, `parent_node`
back-reference, and whether its `spec` back-reference is set), a plain
(non-Node) sequence, or an arbitrary non-Node object such as a processor
instance (`box`).

Modelled from the spec: `Node` (nodes.py is not in the sources) is "an
ordered mapping from field name to value" with `parent_node` "a
non-owning back-reference to the Node that contains this Node, or none"
and `spec` "a non-owning back-reference to the owning Specification". -/
inductive Obj where
  | node (fields : List (String × Value)) (parent : Option Nat) (specSet : Bool)
  | seq (elems : List Value)
  | box (tag : Nat)
deriving DecidableEq, Repr

/-- The heap: association list from identity to object.  Allocation
appends a fresh identity (`nextId`), so identities are never reused —
this models the `visited` retention list of `refs2copies_fast` keeping
every visited object alive so that `id` values stay distinguishable. -/
abbrev HeapL := List (Nat × Obj)

/-- Look up the object at identity `i`. -/
def lookup (h : HeapL) (i : Nat) : Option Obj :=
  (h.find? (fun p => p.1 = i)).map (fun p => p.2)

/-- Is the value a reference to a `Node` object? (`isinstance(n, Node)`) -/
def isNodeVal (h : HeapL) (v : Value) : Bool :=
  match v with
  | .scalar _ => false
  | .ref i =>
    match lookup h i with
    | some (.node _ _ _) => true
    | _ => false

/-- Rewrite the object stored at identity `i` with `g` (identity map
elsewhere). -/
def mapAt (h : HeapL) (i : Nat) (g : Obj → Obj) : HeapL :=
  h.map (fun q => if q.1 = i then (i, g q.2) else q)

/-- `n.parent_node = p` on a node object (no-op on non-nodes). -/
def parentSetFn (p : Option Nat) : Obj → Obj
  | .node fs _ b => .node fs p b
  | o => o

/-- `n.spec = spec` on a node object (no-op on non-nodes). -/
def specSetFn : Obj → Obj
  | .node fs q _ => .node fs q true
  | o => o

/-- `n[key] = v` on a node object: replace the value at an existing
key (keys are never created by the traversal; no-op on non-nodes). -/
def fieldSetFn (key : String) (v : Value) : Obj → Obj
  | .node fs q b => .node (fs.map (fun f => if f.1 = key then (key, v) else f)) q b
  | o => o

/-- Set the `parent_node` attribute of the node at `i`. -/
def setParent (h : HeapL) (i : Nat) (p : Option Nat) : HeapL :=
  mapAt h i (parentSetFn p)

/-- Set `parent_node` of the object referred to by a value. -/
def setParentVal (h : HeapL) (v : Value) (p : Option Nat) : HeapL :=
  match v with
  | .scalar _ => h
  | .ref i => setParent h i p

/-- Record that the `spec` back-reference of the node referred to by
`v` has been assigned (`n[i].spec = spec`). -/
def setSpecFlag (h : HeapL) (v : Value) : HeapL :=
  match v with
  | .scalar _ => h
  | .ref i => mapAt h i specSetFn

/-- Write field `key` of the node at `i` (`n[i] = v`). -/
def setField (h : HeapL) (i : Nat) (key : String) (v : Value) : HeapL :=
  mapAt h i (fieldSetFn key v)

/-- Read field `key` of the node at `i`. -/
def getField (h : HeapL) (i : Nat) (key : String) : Option Value :=
  match lookup h i with
  | some (.node fs _ _) => (fs.find? (fun f => f.1 = key)).map (fun f => f.2)
  | _ => none

/-- Identities directly referenced by a list of values. -/
def refsOfVals : List Value → List Nat
  | [] => []
  | .scalar _ :: vs => refsOfVals vs
  | .ref i :: vs => i :: refsOfVals vs

/-- Identities directly referenced by an object (node fields or sequence
elements; `parent_node` and `spec` are non-owning and are not followed
by the structural deep copy, per the spec). -/
def refsOfObj : Obj → List Nat
  | .node fs _ _ => refsOfVals (fs.map (fun f => f.2))
  | .seq es => refsOfVals es
  | .box _ => []

/-- One expansion step of the reachable-identity computation. -/
def reachStep (h : HeapL) (s : List Nat) : List Nat :=
  (s ++ s.flatMap (fun i => match lookup h i with
                            | some o => refsOfObj o
                            | none => [])).dedup

/-- Identities reachable from `roots` through owning (field / element)
references.  Iterating the expansion `h.length` times reaches the
closure on any well-formed heap. -/
def reachSet (h : HeapL) (roots : List Nat) : List Nat :=
  (reachStep h)^[h.length] roots.dedup

/-- Remap a value along the copy map: references into the copied region
go to the corresponding fresh identity. -/
def remapVal (reach : List Nat) (base : Nat) : Value → Value
  | .scalar k => .scalar k
  | .ref i => if i ∈ reach then .ref (base + reach.indexOf i) else .ref i

/-- Remap an object along the copy map.  A copied node's `parent_node`
is remapped when the parent was itself copied and dropped otherwise
(`parent_node` is a non-owning navigation link, not structure). -/
def remapObj (reach : List Nat) (base : Nat) : Obj → Obj
  | .node fs p b =>
    .node (fs.map (fun f => (f.1, remapVal reach base f.2)))
      (match p with
       | some q => if q ∈ reach then some (base + reach.indexOf q) else none
       | none => none) b
  | .seq es => .seq (es.map (remapVal reach base))
  | .box t => .box t

/-- Traversal state: the heap, the next fresh identity, the `seen_ids`
set and the `visited` retention list of `refs2copies_fast`. -/
structure St where
  heap : HeapL
  nextId : Nat
  seen : List Nat
  visited : List Value
deriving DecidableEq, Repr

/-- Place a list of objects on the heap at consecutive identities
starting from `base`. -/
def allocList (base : Nat) : List Obj → HeapL
  | [] => []
  | o :: os => (base, o) :: allocList (base + 1) os

/-- Modelled from the spec: `copy.deepcopy` on a value (nodes.py, which
would define `Node`'s copy behaviour, is not in the sources).  Per the
spec a copy is "a deep structural copy of `n` (fields and nested Nodes
recursively duplicated, independent from the original)"; internal
sharing and cycles inside the copied region are preserved the way
`copy.deepcopy`'s memo dictionary preserves them, and atomic immutable
scalars are returned unchanged.  The identity `i` in the copied region
is re-allocated at the fresh identity `base + (reachSet …).indexOf i`. -/
def deepcopyVal (st : St) (v : Value) : Value × St :=
  match v with
  | .scalar k => (.scalar k, st)
  | .ref a =>
    let reach := reachSet st.heap [a]
    let base := st.nextId
    let objs := reach.map (fun i => remapObj reach base ((lookup st.heap i).getD (.box 0)))
    (.ref (base + reach.indexOf a),
     { st with heap := st.heap ++ allocList base objs, nextId := base + reach.length })

/-- `id(n) in seen_ids` (scalars are identity-free, see module comment). -/
def idSeen (v : Value) (seen : List Nat) : Bool :=
  match v with
  | .scalar _ => false
  | .ref i => i ∈ seen

/-- `seen_ids.add(id(n))`. -/
def idAdd (v : Value) (seen : List Nat) : List Nat :=
  match v with
  | .scalar _ => seen
  | .ref i => i :: seen

/-- The `for i, x in n.items()` loop body of `refs2copies_fast`
(lines 141–148): `n[i] = self.refs2copies_fast(spec, x, ...)`, then if
the new `n[i]` is a Node, `n[i].parent_node = n; n[i].spec = spec`. -/
def refs2copiesFields (recv : St → Value → Option (Value × St)) (nid : Nat) :
    St → List (String × Value) → Option St
  | st, [] => some st
  | st, (key, x) :: rest =>
    match recv st x with
    | none => none
    | some (v, st') =>
      let h1 := setField st'.heap nid key v
      let h2 := if isNodeVal h1 v then setSpecFlag (setParentVal h1 v (some nid)) v else h1
      refs2copiesFields recv nid { st' with heap := h2 } rest

/-- `References2CopiesProcessor.refs2copies_fast` (processor.py lines
126–150), fuel-indexed: `none` means the Python recursion would have
descended beyond `fuel` nested calls.  Step by step:
`visited.append(n)`; if `n` is a Node, `n.parent_node = None`; if
`id(n)` is in `seen_ids`, `n = copy.deepcopy(n)`; `seen_ids.add(id(n))`;
if `n` is not a Node return `n`; otherwise run the field loop and
finally `n.parent_node = None`, returning `n`. -/
def refs2copies_fast : Nat → St → Value → Option (Value × St)
  | 0, _, _ => none
  | fuel+1, st0, n =>
    let st1 : St := { st0 with visited := st0.visited ++ [n] }
    let st2 : St := if isNodeVal st1.heap n then { st1 with heap := setParentVal st1.heap n none } else st1
    let nst : Value × St := if idSeen n st2.seen then deepcopyVal st2 n else (n, st2)
    let st4 : St := { nst.2 with seen := idAdd nst.1 nst.2.seen }
    match nst.1 with
    | .scalar k => some (.scalar k, st4)
    | .ref i =>
      match lookup st4.heap i with
      | some (.node fs _ _) =>
        match refs2copiesFields (refs2copies_fast fuel) i st4 fs with
        | none => none
        | some st5 => some (.ref i, { st5 with heap := setParent st5.heap i none })
      | _ => some (.ref i, st4)

/-- A specification: its heap of objects, the next fresh identity, and
the identity of the root `Specification` node (which holds the
`processors` list as one of its fields). -/
structure SpecPack where
  heap : HeapL
  nextId : Nat
  rootId : Nat
deriving DecidableEq, Repr

/-- `References2CopiesProcessor.process` (processor.py lines 117–124):
save `spec.processors`, replace it by a freshly allocated empty list so
processors are excluded from the traversal, run `refs2copies_fast` from
the spec root with fresh `seen_ids` / `visited`, and restore the saved
`processors` value.  `none` when the `processors` field is absent
(`spec.processors` would raise) or the fuel is exhausted. -/
def process (fuel : Nat) (sp : SpecPack) : Option SpecPack :=
  match getField sp.heap sp.rootId "processors" with
  | none => none
  | some ps =>
    let e := sp.nextId
    let h1 := setField (sp.heap ++ [(e, Obj.seq [])]) sp.rootId "processors" (.ref e)
    match refs2copies_fast fuel ⟨h1, e+1, [], []⟩ (.ref sp.rootId) with
    | none => none
    | some (_, st') =>
      some ⟨setField st'.heap sp.rootId "processors" ps, st'.nextId, sp.rootId⟩

/-! ## Processor ordering and attribute registration (`Processor` base class) -/

/-- An element of `spec._processors_run`: either a processor *instance*
(characterised by the names of its class and all ancestor classes, so
that `isinstance` can be decided), or a class object itself. -/
inductive PElem where
  | inst (ancestors : List String)
  | cls (cname : String)
deriving DecidableEq, Repr

/-- `isinstance(processor, type)`: is the element itself a class object? -/
def PElem.isCls : PElem → Bool
  | .inst _ => false
  | .cls _ => true

/-- `isinstance(processor, processor_type)` for an element, where the
queried type is given by its class name: true when the name is among the
instance's ancestors.  A class object is an instance of a processor type
only if that type is a metaclass, which processor classes are not. -/
def PElem.isInstOf : PElem → String → Bool
  | .inst anc, t => t ∈ anc
  | .cls _, _ => false

/-- `Processor.get_index` (processor.py lines 35–44): scan
`spec._processors_run`; at each element first test
`isinstance(processor, type)` (is the element a class object), then
`isinstance(processor, processor_type)`, then
`processor == processor_type` — which, under Python's default equality,
is always false for an instance compared against a class, and is
unreachable for a class element (the first test already returned). -/
def get_index_from (t : String) : Nat → List PElem → Int
  | _, [] => -1
  | i, e :: rest =>
    if e.isCls then Int.ofNat i
    else if e.isInstOf t then Int.ofNat i
    else get_index_from t (i + 1) rest

/-- `get_index` starting the `enumerate` counter at 0. -/
def get_index (t : String) (l : List PElem) : Int :=
  get_index_from t 0 l

/-- An exception raised by processor helpers. -/
inductive PyErr where
  | typeError (msg : String)
  | processorError (msg : String)
deriving DecidableEq, Repr

/-- The message of the `ProcessorError` raised by `must_run_after`
(processor.py lines 59–63). -/
def mustRunAfterMsg (other self : String) : String :=
  other ++ " must run before " ++ self ++ ". " ++
  "Please add " ++ other ++ " to the list of processors " ++
  "before " ++ self ++ " in the spec."

/-- `Processor.must_run_after` (processor.py lines 46–63): compute
`other_idx` and `my_idx` with `get_index` and raise a `ProcessorError`
when `other_idx > my_idx or (other_idx == -1 and not ok_if_not_found)`;
`some e` models the raised exception, `none` a normal return. -/
def must_run_after (selfCls other : String) (run : List PElem)
    (ok_if_not_found : Bool) : Option PyErr :=
  if get_index other run > get_index selfCls run ∨
     (get_index other run = -1 ∧ ok_if_not_found = false) then
    some (.processorError (mustRunAfterMsg other selfCls))
  else none

/-- The target argument of `Processor.add_attr`: a class instance (not a
type), or a type that is / is not a subclass of `Node`. -/
inductive PyTarget where
  | obj
  | typ (isNodeSubclass : Bool) (cname : String)
deriving DecidableEq, Repr

/-- The per-specification schema and ownership state touched by
`add_attr`: per-type declared attribute names, and the
`spec._processor_attributes` registry mapping a type's stable name to
the attributes added for it together with the responsible processor. -/
structure SpecSchemas where
  schemas : List (String × List String)
  processor_attributes : List (String × List (String × String))
deriving DecidableEq, Repr

/-- Insert `v` into the list stored under `k`, creating the entry when
absent (`dict.setdefault` followed by an insertion). -/
def upsert {α : Type} (m : List (String × List α)) (k : String) (v : α) :
    List (String × List α) :=
  if m.any (fun p => p.1 = k) then
    m.map (fun p => if p.1 = k then (k, p.2 ++ [v]) else p)
  else m ++ [(k, [v])]

/-- `Processor.add_attr` (processor.py lines 65–81): raise a `TypeError`
if the target is not itself a type, or is a type that is not a `Node`
subclass; only then call `target.add_attr(...)`.  The pair returns the
(possibly mutated) state together with the raised exception, if any: on
the error paths the state is returned untouched because the `raise`
happens before any mutation.

The success branch is modelled from the spec (the called
`Node.add_attr` lives in nodes.py, which is not in the sources): "On
success, inserts `name` into `target_type`'s schema … and records
`(target_type, name) → owner` in `ownership_registry`". -/
def add_attr (selfName : String) (target : PyTarget) (attrName : String)
    (st : SpecSchemas) : SpecSchemas × Option PyErr :=
  match target with
  | .obj =>
    (st, some (.typeError "Can not add attribute to a class instance, only to a class. "))
  | .typ ns cn =>
    if ns = false then
      (st, some (.typeError "Can only add attributes to Node subclasses "))
    else
      ({ schemas := upsert st.schemas cn attrName,
         processor_attributes := upsert st.processor_attributes cn (attrName, selfName) },
       none)

/-! ## Claim-side definitions for `get_index` / `must_run_after` -/

/-- Turn an optional index into the `-1`-defaulted integer convention
of `get_index`. -/
def idxOrNeg : Option Nat → Int
  | none => -1
  | some k => Int.ofNat k

/-- Claim C3's reading of `must_run_after`: an error is raised if and
only if the other processor is positioned at or after the calling
processor's own position (both being positioned), or the other is
absent and `ok_if_not_found` is false. -/
def mustRunAfterClaimIff : Prop :=
  ∀ (s o : String) (run : List PElem) (ok : Bool),
    (must_run_after s o run ok).isSome = true ↔
      ((0 ≤ get_index o run ∧ 0 ≤ get_index s run ∧
        get_index s run ≤ get_index o run) ∨
       (get_index o run = -1 ∧ ok = false))

/-- Claim C10's second half: whenever some element of the list is a
class object, `get_index` returns the index of the first such class
element, for every queried type. -/
def getIndexClassClaim : Prop :=
  ∀ (t : String) (l : List PElem),
    (∃ e ∈ l, e.isCls = true) →
    get_index t l = idxOrNeg (l.findIdx? PElem.isCls)

/-- `get_index_from` is the first index, counting from `i`, of an
element that is a class object or an instance of the queried type. -/
theorem get_index_from_eq (t : String) (l : List PElem) (i : Nat) :
    get_index_from t i l =
      idxOrNeg (l.findIdx? (fun e => e.isCls || e.isInstOf t) i) := by
  induction l generalizing i with
  | nil => rfl
  | cons e rest ih =>
    by_cases hc : e.isCls = true
    · simp [get_index_from, hc, idxOrNeg]
    · by_cases hi : e.isInstOf t = true
      · simp [get_index_from, hc, hi, idxOrNeg]
      · simp [get_index_from, hc, hi, ih]

/-- `findIdx?` only depends on the predicate's values on the list. -/
theorem findIdx?_congr_mem {α : Type} {l : List α} {p q : α → Bool}
    (h : ∀ x ∈ l, p x = q x) (i : Nat) : l.findIdx? p i = l.findIdx? q i := by
  induction l generalizing i with
  | nil => rfl
  | cons e rest ih =>
    have he := h e (by simp)
    simp only [List.findIdx?_cons, he]
    rw [ih (fun x hx => h x (by simp [hx]))]

/-! ## Claims C3, C9, C10 (ordering), C7 (attribute registration) -/

/-- C3, counterexample: the claim's "raises if and only if `other`'s
processor is positioned *at* or after the calling processor's own
position" is false on the code: with `_processors_run = [P]` and `P`
calling `must_run_after(P, ok_if_not_found=False)`, the other processor
is positioned exactly at the caller's position (index 0), yet the code
compares with a strict `other_idx > my_idx` and raises nothing. -/
theorem mustRunAfter_atEq_cex : ¬ mustRunAfterClaimIff := by
  intro hc
  exact absurd (hc "P" "P" [.inst ["P"]] false) (by decide)

/-- C3, amended: `must_run_after` raises a `ProcessorError` if and only
if `other`'s index is *strictly* greater than the caller's index in
`spec._processors_run`, or `other` is absent (index `-1`) and
`ok_if_not_found` is false; in particular for processors run in order
`[Q, P]`, `P` calling `must_run_after(Q)` raises nothing, while in
order `[P, Q]` it raises a `ProcessorError` whose message names both
`Q`'s and `P`'s class names. -/
theorem mustRunAfter_strict_order (p q : String) (hpq : p ≠ q) :
    (∀ (s o : String) (run : List PElem) (ok : Bool),
      (must_run_after s o run ok).isSome = true ↔
        (get_index s run < get_index o run ∨
         (get_index o run = -1 ∧ ok = false))) ∧
    must_run_after p q [.inst [q], .inst [p]] false = none ∧
    must_run_after p q [.inst [p], .inst [q]] false =
      some (.processorError (mustRunAfterMsg q p)) := by
  refine ⟨fun s o run ok => ?_, ?_, ?_⟩
  · rw [must_run_after]
    split
    · simpa using ‹_›
    · rename_i hcond
      push_neg at hcond
      simpa using hcond
  · have hq : get_index q [PElem.inst [q], PElem.inst [p]] = 0 := by
      simp [get_index, get_index_from, PElem.isCls, PElem.isInstOf]
    have hp : get_index p [PElem.inst [q], PElem.inst [p]] = 1 := by
      simp [get_index, get_index_from, PElem.isCls, PElem.isInstOf, hpq]
    rw [must_run_after, hq, hp]
    simp
  · have hq : get_index q [PElem.inst [p], PElem.inst [q]] = 1 := by
      simp [get_index, get_index_from, PElem.isCls, PElem.isInstOf,
        (Ne.symm hpq)]
    have hp : get_index p [PElem.inst [p], PElem.inst [q]] = 0 := by
      simp [get_index, get_index_from, PElem.isCls, PElem.isInstOf]
    rw [must_run_after, hq, hp]
    simp

/-- Witness for C3's amended theorem at `P = "P"`, `Q = "Q"`. -/
theorem mustRunAfter_strict_order_witness :
    (∀ (s o : String) (run : List PElem) (ok : Bool),
      (must_run_after s o run ok).isSome = true ↔
        (get_index s run < get_index o run ∨
         (get_index o run = -1 ∧ ok = false))) ∧
    must_run_after "P" "Q" [.inst ["Q"], .inst ["P"]] false = none ∧
    must_run_after "P" "Q" [.inst ["P"], .inst ["Q"]] false =
      some (.processorError (mustRunAfterMsg "Q" "P")) :=
  mustRunAfter_strict_order "P" "Q" (by decide)

/-- C9: when the caller's own class has no match in
`spec._processors_run` (`my_idx = -1`) while `other` is present at some
index, `must_run_after` raises a `ProcessorError` regardless of
`ok_if_not_found`, because any found index exceeds `-1`. -/
theorem mustRunAfter_self_not_found (s o : String) (run : List PElem)
    (ok : Bool) (hs : get_index s run = -1) (ho : 0 ≤ get_index o run) :
    must_run_after s o run ok =
      some (.processorError (mustRunAfterMsg o s)) := by
  rw [must_run_after, hs, if_pos (Or.inl (by omega))]

/-- Witness for C9: `A` absent, `B` present at index 0, `ok = true`. -/
theorem mustRunAfter_self_not_found_witness :
    get_index "A" [PElem.inst ["B"]] = -1 ∧
    0 ≤ get_index "B" [PElem.inst ["B"]] ∧
    must_run_after "A" "B" [PElem.inst ["B"]] true =
      some (.processorError (mustRunAfterMsg "B" "A")) :=
  ⟨by decide, by decide,
   mustRunAfter_self_not_found "A" "B" [PElem.inst ["B"]] true
     (by decide) (by decide)⟩

/-- C10, counterexample: it is not the case that a class object in the
list makes `get_index` return the first class element's index for
*every* queried type: in `[Q_instance, SomeClass]` querying `Q` returns
index 0 (the matching instance comes first), not index 1 of the class
element. -/
theorem getIndexClass_cex : ¬ getIndexClassClaim := by
  intro hc
  exact absurd (hc "Q" [.inst ["Q"], .cls "X"]) (by decide)

/-- C10, amended: `get_index t` returns the first index whose element is
a class object *or* an instance of `t` (`-1` when none exists); in
particular, when every element is a processor instance it is the least
index holding an instance of `t`, and a class object masks every *later*
element for every queried type. -/
theorem getIndex_characterization (t : String) (l : List PElem) :
    get_index t l =
      idxOrNeg (l.findIdx? (fun e => e.isCls || e.isInstOf t)) ∧
    ((∀ e ∈ l, e.isCls = false) →
      get_index t l = idxOrNeg (l.findIdx? (fun e => e.isInstOf t))) := by
  constructor
  · simpa [get_index] using get_index_from_eq t l 0
  · intro h
    rw [get_index, get_index_from_eq,
      findIdx?_congr_mem (q := fun e => e.isInstOf t)
        (fun x hx => by simp [h x hx])]

/-- Witness for C10's amended theorem on a concrete mixed list. -/
theorem getIndex_characterization_witness :
    (get_index "Q" [PElem.inst ["P"], PElem.inst ["Q"]] =
      idxOrNeg (([PElem.inst ["P"], PElem.inst ["Q"]]).findIdx?
        (fun e => e.isCls || e.isInstOf "Q")) ∧
    ((∀ e ∈ [PElem.inst ["P"], PElem.inst ["Q"]], e.isCls = false) →
      get_index "Q" [PElem.inst ["P"], PElem.inst ["Q"]] =
        idxOrNeg (([PElem.inst ["P"], PElem.inst ["Q"]]).findIdx?
          (fun e => e.isInstOf "Q")))) :=
  getIndex_characterization "Q" [PElem.inst ["P"], PElem.inst ["Q"]]

/-- Is the target itself a type (`isinstance(target, type)`)? -/
def PyTarget.isType : PyTarget → Bool
  | .obj => false
  | .typ _ _ => true

/-- Is the target a `Node` subtype (`issubclass(target, Node)`)? -/
def PyTarget.isNodeSub : PyTarget → Bool
  | .obj => false
  | .typ b _ => b

/-- C7: `add_attr` raises a `TypeError`-class error whenever its target
is not itself a type, or is a type that is not a `Node` subtype, and in
those cases returns the schema/registry state untouched (the `raise`
happens before any mutation). -/
theorem addAttr_type_guard (selfName : String) (target : PyTarget)
    (attrName : String) (st : SpecSchemas)
    (h : target.isType = false ∨ target.isNodeSub = false) :
    ∃ m, add_attr selfName target attrName st = (st, some (.typeError m)) := by
  match target with
  | .obj => exact ⟨_, rfl⟩
  | .typ ns cn =>
    have hns : ns = false := by
      rcases h with h | h
      · simp [PyTarget.isType] at h
      · simpa [PyTarget.isNodeSub] using h
    exact ⟨_, by rw [add_attr, if_pos hns]⟩

/-- Witness for C7 with a class-instance target and a non-Node type. -/
theorem addAttr_type_guard_witness :
    ((PyTarget.obj.isType = false ∨ PyTarget.obj.isNodeSub = false) ∧
      ∃ m, add_attr "p" PyTarget.obj "x" ⟨[], []⟩ =
        (⟨[], []⟩, some (.typeError m))) ∧
    (((PyTarget.typ false "Foo").isType = false ∨
      (PyTarget.typ false "Foo").isNodeSub = false) ∧
      ∃ m, add_attr "p" (PyTarget.typ false "Foo") "x" ⟨[], []⟩ =
        (⟨[], []⟩, some (.typeError m))) :=
  ⟨⟨Or.inl rfl, addAttr_type_guard "p" PyTarget.obj "x" ⟨[], []⟩ (Or.inl rfl)⟩,
   ⟨Or.inr rfl, addAttr_type_guard "p" (PyTarget.typ false "Foo") "x" ⟨[], []⟩
     (Or.inr rfl)⟩⟩

/-! ## Claims C1 and C4: concrete runs of the reference resolver -/

/-- The C1 scenario: the specification root `R` (identity 0) has fields
`processors` (a plain list holding one processor object), `a` and `b`,
where `a` and `b` hold the *same* Node `N` (identity 1) with field
`{v: 1}`. -/
def c1Heap : HeapL :=
  [(0, .node [("processors", .ref 2), ("a", .ref 1), ("b", .ref 1)] none false),
   (1, .node [("v", .scalar 1)] none false),
   (2, .seq [.ref 5]),
   (5, .box 7)]

def c1Spec : SpecPack := ⟨c1Heap, 6, 0⟩

def c1Out : SpecPack := (process 10 c1Spec).getD ⟨[], 0, 0⟩

/-- C1: evaluation of `References2CopiesProcessor.process` on the
claim's own concrete scenario (root `R` with `a` and `b` aliasing one
Node `N = {v: 1}`).  Most of the claim holds: the first location `a`
keeps the original object (identity 1), `b` receives a fresh
independent deep copy (identity 7), the two are distinct identities
that are structurally equal (`v = 1` in both), and `R.b.parent_node`
is `R`.  But the claim's `R.a.parent_node == R` fails: the second
encounter of `N` executes `n.parent_node = None` on the original
before copying, and that parent link is never re-established, so the
code leaves `R.a.parent_node = None`. -/
theorem refs2copies_alias_split_run :
    (process 10 c1Spec).isSome = true ∧
    getField c1Out.heap 0 "a" = some (.ref 1) ∧
    getField c1Out.heap 0 "b" = some (.ref 7) ∧
    (7 : Nat) ≠ 1 ∧
    lookup c1Out.heap 1 = some (.node [("v", .scalar 1)] none true) ∧
    lookup c1Out.heap 7 = some (.node [("v", .scalar 1)] (some 0) true) := by
  decide

/-- The C4 scenario: root fields `a` and `b` both hold the *same* plain
(non-Node) sequence `[7]` at identity 1. -/
def c4Heap : HeapL :=
  [(0, .node [("processors", .ref 2), ("a", .ref 1), ("b", .ref 1)] none false),
   (1, .seq [.scalar 7]),
   (2, .seq [])]

def c4Spec : SpecPack := ⟨c4Heap, 3, 0⟩

def c4Out : SpecPack := (process 10 c4Spec).getD ⟨[], 0, 0⟩

/-- C4, counterexample: `refs2copies_fast` does *not* return an aliased
non-Node value unchanged.  With fields `a` and `b` holding the same
plain sequence (identity 1), the second encounter finds the identity in
`seen_ids` and `copy.deepcopy`s it, so `b` ends up holding a fresh
sequence (identity 4) instead of the original — aliasing among mutable
non-Node values *is* resolved. -/
theorem refs2copies_nonNode_alias_cex :
    getField c4Heap 0 "b" = some (.ref 1) ∧
    (process 10 c4Spec).isSome = true ∧
    getField c4Out.heap 0 "a" = some (.ref 1) ∧
    getField c4Out.heap 0 "b" = some (.ref 4) ∧
    Value.ref 4 ≠ Value.ref 1 ∧
    lookup c4Out.heap 4 = some (.seq [.scalar 7]) := by
  decide

/-! ## Heap well-formedness and deep-copy lemmas -/

/-- Every allocated identity is below the allocation counter.  Python
guarantees this by construction: `id` values of live objects are
distinct, and the `visited` list keeps all of them alive. -/
def HeapWF (h : HeapL) (n : Nat) : Prop := ∀ p ∈ h, p.1 < n

instance (h : HeapL) (n : Nat) : Decidable (HeapWF h n) :=
  List.decidableBAll _ h

theorem lookup_append (h1 h2 : HeapL) (i : Nat) :
    lookup (h1 ++ h2) i = (lookup h1 i).or (lookup h2 i) := by
  rw [lookup, lookup, lookup, List.find?_append]
  cases h1.find? (fun p => p.1 = i) <;> simp

theorem lookup_eq_none_of_ge {h : HeapL} {n : Nat} (hwf : HeapWF h n)
    {j : Nat} (hj : n ≤ j) : lookup h j = none := by
  rw [lookup, List.find?_eq_none.2, Option.map_none']
  intro p hp
  simp only [decide_eq_true_eq]
  exact fun e => absurd (e ▸ hwf p hp) (by omega)

theorem lookup_cons (p : Nat × Obj) (h : HeapL) (i : Nat) :
    lookup (p :: h) i = if p.1 = i then some p.2 else lookup h i := by
  simp only [lookup, List.find?_cons]
  by_cases he : p.1 = i
  · simp [he]
  · simp [he]

theorem lookup_allocList (os : List Obj) (base k : Nat) (hk : k < os.length) :
    lookup (allocList base os) (base + k) = os[k]? := by
  induction os generalizing base k with
  | nil => simp at hk
  | cons o os ih =>
    match k with
    | 0 => simp [allocList, lookup_cons]
    | k + 1 =>
      rw [show base + (k + 1) = (base + 1) + k by omega, allocList, lookup_cons,
        if_neg (by omega), ih (base + 1) k (by simpa using hk)]
      simp

theorem allocList_mem_bounds (os : List Obj) (base : Nat) :
    ∀ p ∈ allocList base os, base ≤ p.1 ∧ p.1 < base + os.length := by
  induction os generalizing base with
  | nil => simp [allocList]
  | cons o os ih =>
    intro p hp
    simp only [allocList, List.mem_cons] at hp
    rcases hp with rfl | hp
    · simp
    · have := ih (base + 1) p hp
      simp only [List.length_cons]
      omega

theorem lookup_allocList_none {os : List Obj} {base j : Nat} (hj : j < base) :
    lookup (allocList base os) j = none := by
  rw [lookup, List.find?_eq_none.2, Option.map_none']
  intro p hp
  simp only [decide_eq_true_eq]
  intro e
  have := allocList_mem_bounds os base p hp
  omega

theorem reachSet_nodup (h : HeapL) (roots : List Nat) :
    (reachSet h roots).Nodup := by
  rw [reachSet]
  induction h.length with
  | zero => exact roots.nodup_dedup
  | succ n ih =>
    rw [Function.iterate_succ_apply']
    exact List.nodup_dedup _

theorem subset_reachStep (h : HeapL) (s : List Nat) : s ⊆ reachStep h s :=
  fun _ hx => List.mem_dedup.2 (List.mem_append_left _ hx)

theorem mem_reachSet_self (h : HeapL) (roots : List Nat) {a : Nat}
    (ha : a ∈ roots) : a ∈ reachSet h roots := by
  rw [reachSet]
  induction h.length with
  | zero => exact List.mem_dedup.2 ha
  | succ n ih =>
    rw [Function.iterate_succ_apply']
    exact subset_reachStep _ _ ih

/-- Characterisation of `copy.deepcopy` on a reference under a
well-formed heap: the result is the fresh identity assigned to `a`, the
heap is extended (existing identities untouched), the copied root is
the remapped original object, and well-formedness is preserved. -/
theorem deepcopy_ref (st : St) (a : Nat) (hwf : HeapWF st.heap st.nextId) :
    (deepcopyVal st (.ref a)).1 =
      .ref (st.nextId + (reachSet st.heap [a]).indexOf a) ∧
    st.nextId ≤ st.nextId + (reachSet st.heap [a]).indexOf a ∧
    (∀ i, i < st.nextId →
      lookup (deepcopyVal st (.ref a)).2.heap i = lookup st.heap i) ∧
    lookup (deepcopyVal st (.ref a)).2.heap
        (st.nextId + (reachSet st.heap [a]).indexOf a) =
      some (remapObj (reachSet st.heap [a]) st.nextId
        ((lookup st.heap a).getD (.box 0))) ∧
    (deepcopyVal st (.ref a)).2.nextId =
      st.nextId + (reachSet st.heap [a]).length ∧
    (deepcopyVal st (.ref a)).2.seen = st.seen ∧
    (deepcopyVal st (.ref a)).2.visited = st.visited ∧
    HeapWF (deepcopyVal st (.ref a)).2.heap (deepcopyVal st (.ref a)).2.nextId := by
  have hmem : a ∈ reachSet st.heap [a] :=
    mem_reachSet_self _ _ (by simp)
  have hidx : (reachSet st.heap [a]).indexOf a < (reachSet st.heap [a]).length :=
    List.indexOf_lt_length.2 hmem
  refine ⟨rfl, by omega, ?_, ?_, rfl, rfl, rfl, ?_⟩
  · intro i hi
    show lookup (st.heap ++ _) i = _
    rw [lookup_append]
    cases hl : lookup st.heap i with
    | some o => rfl
    | none =>
      rw [Option.none_or, lookup_allocList_none hi]
  · show lookup (st.heap ++ _) _ = _
    rw [lookup_append, lookup_eq_none_of_ge hwf (by omega), Option.none_or,
      lookup_allocList _ _ _ (by simpa using hidx)]
    rw [List.getElem?_map]
    rw [List.getElem?_eq_getElem hidx, List.getElem_indexOf hidx]
    rfl
  · intro p hp
    rcases List.mem_append.1 hp with hp | hp
    · have := hwf p hp
      show p.1 < st.nextId + (reachSet st.heap [a]).length
      omega
    · have := allocList_mem_bounds _ _ p hp
      show p.1 < st.nextId + (reachSet st.heap [a]).length
      simp only [List.length_map] at this
      omega

/-- `isinstance(·, Node)` on an object. -/
def isNodeObj : Obj → Bool
  | .node _ _ _ => true
  | _ => false

/-- C4, amended: `refs2copies_fast` returns a non-Node value unchanged
when its identity has not been seen yet (and always for atomic
scalars); but a non-Node object whose identity is already in
`seen_ids` is replaced by a fresh deep copy at a new identity — so
aliasing among mutable non-Node values *is* resolved at second and
later encounters. -/
theorem refs2copies_nonNode (fuel : Nat) (st : St) (i : Nat) (o : Obj)
    (hwf : HeapWF st.heap st.nextId)
    (ho : lookup st.heap i = some o) (hnn : isNodeObj o = false) :
    (∀ k : Int, ∃ st', refs2copies_fast (fuel+1) st (.scalar k) =
      some (.scalar k, st')) ∧
    (i ∉ st.seen → ∃ st', refs2copies_fast (fuel+1) st (.ref i) =
      some (.ref i, st')) ∧
    (i ∈ st.seen → ∃ j st', refs2copies_fast (fuel+1) st (.ref i) =
      some (.ref j, st') ∧ st.nextId ≤ j) := by
  refine ⟨fun k => ⟨_, rfl⟩, ?_, ?_⟩
  · intro hm
    cases o with
    | node fs p b => simp [isNodeObj] at hnn
    | seq es =>
      refine ⟨⟨st.heap, st.nextId, i :: st.seen, st.visited ++ [Value.ref i]⟩, ?_⟩
      simp only [refs2copies_fast, isNodeVal, ho, idSeen, hm, decide_False,
        Bool.false_eq_true, if_false, idAdd]
    | box t =>
      refine ⟨⟨st.heap, st.nextId, i :: st.seen, st.visited ++ [Value.ref i]⟩, ?_⟩
      simp only [refs2copies_fast, isNodeVal, ho, idSeen, hm, decide_False,
        Bool.false_eq_true, if_false, idAdd]
  · intro hm
    have hd := deepcopy_ref { st with visited := st.visited ++ [Value.ref i] } i hwf
    obtain ⟨hd1, hd2, hdfr, hdlk, hdn, hds, hdv, hdwf⟩ := hd
    refine ⟨st.nextId + (reachSet st.heap [i]).indexOf i,
      { (deepcopyVal { st with visited := st.visited ++ [Value.ref i] }
          (.ref i)).2 with
        seen := (st.nextId + (reachSet st.heap [i]).indexOf i) ::
          (deepcopyVal { st with visited := st.visited ++ [Value.ref i] }
            (.ref i)).2.seen }, ?_, by omega⟩
    cases o with
    | node fs p b => simp [isNodeObj] at hnn
    | seq es =>
      simp only [refs2copies_fast, isNodeVal, ho, Bool.false_eq_true, if_false,
        idSeen, hm, decide_True, if_true, idAdd, hd1, hdlk, remapObj,
        Option.getD_some]
    | box t =>
      simp only [refs2copies_fast, isNodeVal, ho, Bool.false_eq_true, if_false,
        idSeen, hm, decide_True, if_true, idAdd, hd1, hdlk, remapObj,
        Option.getD_some]

/-- A one-object state for exercising `refs2copies_nonNode`: a plain
sequence at identity 1 whose identity is already in `seen_ids`. -/
def nonNodeWitSt : St := ⟨[(1, .seq [.scalar 7])], 2, [1], []⟩

/-- Witness for C4's amended theorem: at the concrete state the scalar
case, the unseen case (vacuous here) and the seen case all evaluate. -/
theorem refs2copies_nonNode_witness :
    HeapWF nonNodeWitSt.heap nonNodeWitSt.nextId ∧
    lookup nonNodeWitSt.heap 1 = some (.seq [.scalar 7]) ∧
    isNodeObj (.seq [.scalar 7]) = false ∧
    ((∀ k : Int, ∃ st', refs2copies_fast 3 nonNodeWitSt (.scalar k) =
        some (.scalar k, st')) ∧
     ((1 : Nat) ∉ nonNodeWitSt.seen → ∃ st',
        refs2copies_fast 3 nonNodeWitSt (.ref 1) = some (.ref 1, st')) ∧
     ((1 : Nat) ∈ nonNodeWitSt.seen → ∃ j st',
        refs2copies_fast 3 nonNodeWitSt (.ref 1) = some (.ref j, st') ∧
        nonNodeWitSt.nextId ≤ j)) :=
  ⟨by decide, by decide, by decide,
   refs2copies_nonNode 2 nonNodeWitSt 1 (.seq [.scalar 7])
     (by decide) (by decide) (by decide)⟩

/-! ## Heap-update lemmas and divergence on cyclic input (C2) -/

theorem lookup_mapAt (h : HeapL) (i : Nat) (g : Obj → Obj) (j : Nat) :
    lookup (mapAt h i g) j =
      if i = j then (lookup h j).map g else lookup h j := by
  induction h with
  | nil => simp [mapAt, lookup]
  | cons q t ih =>
    have hcons : mapAt (q :: t) i g =
        (if q.1 = i then (i, g q.2) else q) :: mapAt t i g := rfl
    rw [hcons, lookup_cons, lookup_cons, ih]
    by_cases hqi : q.1 = i
    · by_cases hij : i = j
      · subst hij
        simp [hqi]
      · simp [hqi, hij]
    · by_cases hij : i = j
      · subst hij
        simp [hqi]
      · simp [hqi, hij]

theorem HeapWF_mapAt {h : HeapL} {n : Nat} (hwf : HeapWF h n)
    (i : Nat) (g : Obj → Obj) : HeapWF (mapAt h i g) n := by
  intro p hp
  rcases List.mem_map.1 hp with ⟨q, hq, he⟩
  have hqn := hwf q hq
  by_cases hx : q.1 = i
  · rw [if_pos hx] at he
    rw [← he]
    simpa using hx ▸ hqn
  · rw [if_neg hx] at he
    rw [← he]
    exact hqn

theorem HeapWF_append {h1 h2 : HeapL} {n : Nat} (hw1 : HeapWF h1 n)
    (hw2 : HeapWF h2 n) : HeapWF (h1 ++ h2) n := by
  intro p hp
  rcases List.mem_append.1 hp with hp | hp
  · exact hw1 p hp
  · exact hw2 p hp

theorem HeapWF_mono {h : HeapL} {n m : Nat} (hw : HeapWF h n) (hnm : n ≤ m) :
    HeapWF h m := fun p hp => lt_of_lt_of_le (hw p hp) hnm

/-- On a heap where `a` is a one-field self-loop, the reachable set of
`a` is `{a}`. -/
theorem reachStep_selfLoop {h : HeapL} {a : Nat} {f : String}
    {p : Option Nat} {b : Bool}
    (ha : lookup h a = some (.node [(f, .ref a)] p b)) :
    reachStep h [a] = [a] := by
  simp [reachStep, ha, refsOfObj, refsOfVals]

theorem reachSet_selfLoop {h : HeapL} {a : Nat} {f : String}
    {p : Option Nat} {b : Bool}
    (ha : lookup h a = some (.node [(f, .ref a)] p b)) :
    reachSet h [a] = [a] := by
  rw [reachSet, List.dedup_cons_of_not_mem (by simp), List.dedup_nil,
    Function.iterate_fixed (reachStep_selfLoop ha)]

/-- `copy.deepcopy` of a one-field self-loop node reproduces the cycle
at the single fresh identity: the copy's field refers to the copy
itself. -/
theorem deepcopy_selfLoop (st : St) (a : Nat) (f : String) (b : Bool)
    (ha : lookup st.heap a = some (.node [(f, .ref a)] none b)) :
    deepcopyVal st (.ref a) =
      (.ref st.nextId,
       { st with
         heap := st.heap ++ [(st.nextId, .node [(f, .ref st.nextId)] none b)],
         nextId := st.nextId + 1 }) := by
  simp only [deepcopyVal]
  rw [reachSet_selfLoop ha]
  simp [allocList, remapObj, remapVal, ha]

/-- C2, the divergence engine: a visit of a one-field self-loop node
never returns, whatever the fuel.  If the identity is already in
`seen_ids`, `copy.deepcopy` reproduces the cycle at a fresh identity
that is *not* in `seen_ids`, and the recursion into the copy's field
meets the copy itself, now seen — so each level of recursion
manufactures a new copy and recurses again, forever.  If it is not yet
seen, the recursion into its own field reaches the already-seen state
after one step. -/
theorem refs2copies_selfLoop_diverges (fuel : Nat) :
    ∀ (st : St) (a : Nat) (p : Option Nat) (f : String) (b : Bool),
    lookup st.heap a = some (.node [(f, .ref a)] p b) →
    HeapWF st.heap st.nextId →
    refs2copies_fast fuel st (.ref a) = none := by
  induction fuel with
  | zero => intro st a p f b _ _; rfl
  | succ fuel ih =>
    intro st a p f b ha hwf
    have hstep : lookup (setParent st.heap a none) a =
        some (.node [(f, .ref a)] none b) := by
      rw [setParent, lookup_mapAt, if_pos rfl, ha]
      rfl
    have hwf2 : HeapWF (setParent st.heap a none) st.nextId :=
      HeapWF_mapAt hwf a _
    by_cases hm : a ∈ st.seen
    · -- alias path: deepcopy the self-loop, recurse into the copy
      have hd := deepcopy_selfLoop
        { st with heap := setParent st.heap a none,
                  visited := st.visited ++ [Value.ref a] } a f b hstep
      have hlk2 : lookup ((setParent st.heap a none) ++
          [(st.nextId, Obj.node [(f, .ref st.nextId)] none b)]) st.nextId =
          some (.node [(f, .ref st.nextId)] none b) := by
        rw [lookup_append, lookup_eq_none_of_ge hwf2 (le_refl _),
          Option.none_or, lookup_cons, if_pos rfl]
      have hwf3 : HeapWF ((setParent st.heap a none) ++
          [(st.nextId, Obj.node [(f, .ref st.nextId)] none b)])
          (st.nextId + 1) := by
        refine HeapWF_append (HeapWF_mono hwf2 (by omega)) ?_
        intro q hq
        rw [List.mem_singleton] at hq
        subst hq
        exact Nat.lt_succ_self _
      have hrec := ih ⟨(setParent st.heap a none) ++
          [(st.nextId, Obj.node [(f, .ref st.nextId)] none b)],
          st.nextId + 1, st.nextId :: st.seen, st.visited ++ [Value.ref a]⟩
          st.nextId none f b hlk2 hwf3
      simp only [refs2copies_fast, isNodeVal, ha, setParentVal, idSeen, hm,
        decide_True, decide_False, if_true, if_false, Bool.false_eq_true,
        hd, idAdd, hlk2, refs2copiesFields, hrec]
    · -- first encounter: no copy; the field recursion hits the seen state
      have hlk4 : lookup (setParent st.heap a none) a =
          some (.node [(f, .ref a)] none b) := hstep
      have hrec := ih ⟨setParent st.heap a none, st.nextId,
          a :: st.seen, st.visited ++ [Value.ref a]⟩ a none f b hlk4 hwf2
      simp only [refs2copies_fast, isNodeVal, ha, setParentVal, idSeen, hm,
        decide_True, decide_False, if_true, if_false, Bool.false_eq_true,
        idAdd, hlk4, refs2copiesFields, hrec]

/-- One-step visit of an unseen non-Node object: appended to `visited`,
identity added to `seen_ids`, returned unchanged. -/
theorem refs2copies_visit_nonNode_unseen (fuel : Nat) (st : St) (i : Nat)
    (o : Obj) (ho : lookup st.heap i = some o) (hnn : isNodeObj o = false)
    (hm : i ∉ st.seen) :
    refs2copies_fast (fuel+1) st (.ref i) =
      some (.ref i, ⟨st.heap, st.nextId, i :: st.seen, st.visited ++ [.ref i]⟩) := by
  cases o with
  | node fs p b => simp [isNodeObj] at hnn
  | seq es =>
    simp only [refs2copies_fast, isNodeVal, ho, idSeen, hm, decide_False,
      Bool.false_eq_true, if_false, idAdd]
  | box t =>
    simp only [refs2copies_fast, isNodeVal, ho, idSeen, hm, decide_False,
      Bool.false_eq_true, if_false, idAdd]

/-- One-step visit of an unseen node: parent detached, identity seen,
then the field loop runs and the parent is detached again. -/
theorem refs2copies_visit_node_unseen (fuel : Nat) (st : St) (a : Nat)
    (fs : List (String × Value)) (p : Option Nat) (b : Bool)
    (ha : lookup st.heap a = some (.node fs p b)) (hm : a ∉ st.seen) :
    refs2copies_fast (fuel+1) st (.ref a) =
      (match refs2copiesFields (refs2copies_fast fuel) a
          ⟨setParent st.heap a none, st.nextId, a :: st.seen,
           st.visited ++ [.ref a]⟩ fs with
       | none => none
       | some st5 => some (.ref a, { st5 with heap := setParent st5.heap a none })) := by
  have hstep : lookup (setParent st.heap a none) a = some (.node fs none b) := by
    rw [setParent, lookup_mapAt, if_pos rfl, ha]
    rfl
  simp only [refs2copies_fast, isNodeVal, ha, setParentVal, idSeen, hm,
    decide_False, decide_True, Bool.false_eq_true, if_false, if_true, idAdd,
    hstep]

/-- The field loop fails as soon as one field's visit fails. -/
theorem refs2copiesFields_none (recv : St → Value → Option (Value × St))
    (nid : Nat) (st : St) (k : String) (x : Value)
    (rest : List (String × Value)) (h : recv st x = none) :
    refs2copiesFields recv nid st ((k, x) :: rest) = none := by
  simp [refs2copiesFields, h]

/-- The field loop on a field whose visit returned a non-Node value:
write the field and continue (no re-parenting). -/
theorem refs2copiesFields_cons_nonNode (recv : St → Value → Option (Value × St))
    (nid : Nat) (st : St) (k : String) (x : Value)
    (rest : List (String × Value)) (v : Value) (st' : St)
    (h : recv st x = some (v, st'))
    (hnn : isNodeVal (setField st'.heap nid k v) v = false) :
    refs2copiesFields recv nid st ((k, x) :: rest) =
      refs2copiesFields recv nid
        { st' with heap := setField st'.heap nid k v } rest := by
  simp [refs2copiesFields, h, hnn]

/-- The C2 scenario: the spec root (identity 0) has a field `x` holding
node 1, whose own field `f` holds node 1 itself — a true cycle. -/
def c2Heap : HeapL :=
  [(0, .node [("processors", .ref 2), ("x", .ref 1)] none false),
   (1, .node [("f", .ref 1)] none false),
   (2, .seq [])]

def c2Spec : SpecPack := ⟨c2Heap, 3, 0⟩

/-- The traversal state right after `process` swapped the `processors`
list for a fresh empty one. -/
def c2St0 : St :=
  ⟨setField (c2Heap ++ [(3, Obj.seq [])]) 0 "processors" (.ref 3), 4, [], []⟩

/-- The heap of `c2St0`, evaluated. -/
def c2h1 : HeapL :=
  [(0, .node [("processors", .ref 3), ("x", .ref 1)] none false),
   (1, .node [("f", .ref 1)] none false),
   (2, .seq []),
   (3, .seq [])]

/-- The traversal of the C2 scenario exhausts every fuel bound: it
first visits the (empty) processors placeholder, then descends into the
self-loop at node 1 and diverges. -/
theorem refs2copies_c2_no_fuel (fuel : Nat) :
    refs2copies_fast fuel c2St0 (.ref 0) = none := by
  match fuel with
  | 0 => rfl
  | 1 => decide
  | n + 2 =>
    rw [refs2copies_visit_node_unseen (n+1) c2St0 0
      [("processors", .ref 3), ("x", .ref 1)] none false (by decide) (by decide)]
    show (match refs2copiesFields (refs2copies_fast (n+1)) 0
        ⟨c2h1, 4, [0], [Value.ref 0]⟩
        [("processors", Value.ref 3), ("x", Value.ref 1)] with
      | none => none
      | some st5 =>
        some (Value.ref 0, { st5 with heap := setParent st5.heap 0 none })) = none
    rw [refs2copiesFields_cons_nonNode (refs2copies_fast (n+1)) 0
      ⟨c2h1, 4, [0], [Value.ref 0]⟩ "processors" (Value.ref 3)
      [("x", Value.ref 1)] (Value.ref 3)
      ⟨c2h1, 4, [3, 0], [Value.ref 0, Value.ref 3]⟩
      (refs2copies_visit_nonNode_unseen n ⟨c2h1, 4, [0], [Value.ref 0]⟩ 3
        (Obj.seq []) (by decide) (by decide) (by decide))
      (by decide)]
    show (match refs2copiesFields (refs2copies_fast (n+1)) 0
        ⟨c2h1, 4, [3, 0], [Value.ref 0, Value.ref 3]⟩ [("x", Value.ref 1)] with
      | none => none
      | some st5 =>
        some (Value.ref 0, { st5 with heap := setParent st5.heap 0 none })) = none
    rw [refs2copiesFields_none (refs2copies_fast (n+1)) 0
      ⟨c2h1, 4, [3, 0], [Value.ref 0, Value.ref 3]⟩ "x" (Value.ref 1) []
      (refs2copies_selfLoop_diverges (n+1)
        ⟨c2h1, 4, [3, 0], [Value.ref 0, Value.ref 3]⟩ 1 none "f" false
        (by decide) (by decide))]

/-- `process` terminates on a specification when some recursion-depth
budget suffices for the traversal. -/
def processTerminates (sp : SpecPack) : Prop :=
  ∃ fuel, (process fuel sp).isSome = true

/-- No fuel bound lets `process` finish on the cyclic C2 input. -/
theorem process_c2_no_fuel (fuel : Nat) : process fuel c2Spec = none := by
  have ht := refs2copies_c2_no_fuel fuel
  show (match refs2copies_fast fuel c2St0 (.ref 0) with
        | none => none
        | some (_, st') =>
          some (SpecPack.mk (setField st'.heap 0 "processors" (Value.ref 2))
            st'.nextId 0)) = none
  rw [ht]

/-- C2, counterexample: on a tree containing a Node that holds itself
directly in a field, `References2CopiesProcessor.process` does *not*
terminate — the Python recursion exceeds every depth bound. -/
theorem process_cycle_cex : ¬ processTerminates c2Spec := by
  rintro ⟨fuel, hf⟩
  rw [process_c2_no_fuel fuel] at hf
  simp at hf

/-- A tree whose root transitively contains itself *through a plain
(non-Node) sequence*: the root's field `s` holds the sequence at 2,
whose element refers back to the root. -/
def c2SeqHeap : HeapL :=
  [(0, .node [("processors", .ref 1), ("s", .ref 2)] none false),
   (1, .seq []),
   (2, .seq [.ref 0])]

def c2SeqSpec : SpecPack := ⟨c2SeqHeap, 3, 0⟩

/-- C2, amended: a visit of a Node holding itself directly in a field
diverges — the copy made at the second encounter of the identity
reproduces the self-loop at a fresh identity, which is then encountered
again, producing yet another copy, forever; consequently `process` on
the cyclic C2 specification runs out of every fuel bound.  The
divergence needs the cycle to run through Node fields: a tree that
contains itself only through a plain non-Node container (`c2SeqSpec`,
where the root's field `s` is a sequence holding the root) terminates,
because `refs2copies_fast` returns non-Node values without descending
into their elements. -/
theorem cycle_divergence :
    (∀ (fuel : Nat) (st : St) (a : Nat) (p : Option Nat) (f : String)
        (b : Bool),
      lookup st.heap a = some (.node [(f, .ref a)] p b) →
      HeapWF st.heap st.nextId →
      refs2copies_fast fuel st (.ref a) = none) ∧
    (∀ fuel, process fuel c2Spec = none) ∧
    (getField c2SeqSpec.heap 0 "s" = some (.ref 2) ∧
      lookup c2SeqSpec.heap 2 = some (.seq [.ref 0]) ∧
      (process 4 c2SeqSpec).isSome = true) :=
  ⟨fun fuel => refs2copies_selfLoop_diverges fuel, process_c2_no_fuel,
    by decide⟩

/-- Witness for C2's amended theorem on the concrete self-loop state. -/
theorem cycle_divergence_witness :
    (lookup (St.mk c2h1 4 [3, 0] [Value.ref 0, Value.ref 3]).heap 1 =
        some (.node [("f", .ref 1)] none false) ∧
      HeapWF (St.mk c2h1 4 [3, 0] [Value.ref 0, Value.ref 3]).heap
        (St.mk c2h1 4 [3, 0] [Value.ref 0, Value.ref 3]).nextId ∧
      refs2copies_fast 5 (St.mk c2h1 4 [3, 0] [Value.ref 0, Value.ref 3])
        (.ref 1) = none) ∧
    process 7 c2Spec = none ∧
    (process 4 c2SeqSpec).isSome = true :=
  ⟨⟨by decide, by decide,
    cycle_divergence.1 5 (St.mk c2h1 4 [3, 0] [Value.ref 0, Value.ref 3]) 1
      none "f" false (by decide) (by decide)⟩,
   cycle_divergence.2.1 7, cycle_divergence.2.2.2.2⟩

/-! ## Frame preservation and C8 (processors list restored) -/

/-- Non-Node objects are preserved exactly; nodes keep their identity,
kind and field keys (values, parent and spec flag may change). -/
def framePres (h h' : HeapL) : Prop :=
  ∀ i o, lookup h i = some o →
    (match o with
     | .node fs _ _ => ∃ fs' p' b', lookup h' i = some (.node fs' p' b') ∧
         fs'.map Prod.fst = fs.map Prod.fst
     | o => lookup h' i = some o)

theorem framePres_refl (h : HeapL) : framePres h h := by
  intro i o ho
  match o with
  | .node fs p b => exact ⟨fs, p, b, ho, rfl⟩
  | .seq es => exact ho
  | .box t => exact ho

theorem framePres_trans {h1 h2 h3 : HeapL} (hab : framePres h1 h2)
    (hbc : framePres h2 h3) : framePres h1 h3 := by
  intro i o ho
  match o with
  | .node fs p b =>
    obtain ⟨fs', p', b', hl, hk⟩ := hab i (.node fs p b) ho
    obtain ⟨fs'', p'', b'', hl', hk'⟩ := hbc i (.node fs' p' b') hl
    exact ⟨fs'', p'', b'', hl', hk'.trans hk⟩
  | .seq es => exact hbc i (.seq es) (hab i (.seq es) ho)
  | .box t => exact hbc i (.box t) (hab i (.box t) ho)

theorem framePres_append (h e : HeapL) : framePres h (h ++ e) := by
  intro i o ho
  have : lookup (h ++ e) i = some o := by
    rw [lookup_append, ho]
    rfl
  match o with
  | .node fs p b => exact ⟨fs, p, b, this, rfl⟩
  | .seq es => exact this
  | .box t => exact this

theorem framePres_mapAt (h : HeapL) (j : Nat) (g : Obj → Obj)
    (hg : ∀ fs p b, ∃ fs' p' b', g (.node fs p b) = .node fs' p' b' ∧
      fs'.map Prod.fst = fs.map Prod.fst)
    (hng : ∀ o, isNodeObj o = false → g o = o) :
    framePres h (mapAt h j g) := by
  intro i o ho
  have hl := lookup_mapAt h j g i
  by_cases hji : j = i
  · rw [if_pos hji, ho] at hl
    match o with
    | .node fs p b =>
      obtain ⟨fs', p', b', he, hk⟩ := hg fs p b
      exact ⟨fs', p', b', by rw [hl, Option.map_some', he], hk⟩
    | .seq es => rw [hl, Option.map_some', hng (.seq es) rfl]
    | .box t => rw [hl, Option.map_some', hng (.box t) rfl]
  · rw [if_neg hji, ho] at hl
    match o with
    | .node fs p b => exact ⟨fs, p, b, hl, rfl⟩
    | .seq es => exact hl
    | .box t => exact hl

theorem framePres_setParent (h : HeapL) (i : Nat) (p : Option Nat) :
    framePres h (setParent h i p) :=
  framePres_mapAt h i _ (fun fs q b => ⟨fs, p, b, rfl, rfl⟩)
    (fun o ho => by cases o <;> simp_all [parentSetFn, isNodeObj])

theorem framePres_setParentVal (h : HeapL) (v : Value) (p : Option Nat) :
    framePres h (setParentVal h v p) := by
  cases v with
  | scalar k => exact framePres_refl h
  | ref i => exact framePres_setParent h i p

theorem framePres_setSpecFlag (h : HeapL) (v : Value) :
    framePres h (setSpecFlag h v) := by
  cases v with
  | scalar k => exact framePres_refl h
  | ref i =>
    exact framePres_mapAt h i _ (fun fs q b => ⟨fs, q, true, rfl, rfl⟩)
      (fun o ho => by cases o <;> simp_all [specSetFn, isNodeObj])

theorem framePres_setField (h : HeapL) (i : Nat) (k : String) (v : Value) :
    framePres h (setField h i k v) := by
  refine framePres_mapAt h i _ (fun fs q b => ⟨_, q, b, rfl, ?_⟩)
    (fun o ho => by cases o <;> simp_all [fieldSetFn, isNodeObj])
  rw [List.map_map]
  refine List.map_congr_left (fun f hf => ?_)
  by_cases hk : f.1 = k
  · simp [hk]
  · simp [hk]

/-- Composite post-condition of one traversal step: frame preservation,
monotone allocation, and well-formedness preservation. -/
def stepOKS (st st' : St) : Prop :=
  framePres st.heap st'.heap ∧ st.nextId ≤ st'.nextId ∧
  (HeapWF st.heap st.nextId → HeapWF st'.heap st'.nextId)

theorem stepOKS_refl (st : St) : stepOKS st st :=
  ⟨framePres_refl _, le_refl _, id⟩

theorem stepOKS_trans {s1 s2 s3 : St} (a : stepOKS s1 s2) (b : stepOKS s2 s3) :
    stepOKS s1 s3 :=
  ⟨framePres_trans a.1 b.1, a.2.1.trans b.2.1, fun hw => b.2.2 (a.2.2 hw)⟩

theorem stepOKS_heap {st : St} (h' : HeapL)
    (hfp : framePres st.heap h') (hwf : HeapWF st.heap st.nextId → HeapWF h' st.nextId)
    (se : List Nat) (vi : List Value) :
    stepOKS st ⟨h', st.nextId, se, vi⟩ :=
  ⟨hfp, le_refl _, hwf⟩

theorem HeapWF_setParent {h : HeapL} {n : Nat} (hw : HeapWF h n) (i : Nat)
    (p : Option Nat) : HeapWF (setParent h i p) n := HeapWF_mapAt hw i _

theorem HeapWF_setParentVal {h : HeapL} {n : Nat} (hw : HeapWF h n) (v : Value)
    (p : Option Nat) : HeapWF (setParentVal h v p) n := by
  cases v with
  | scalar k => exact hw
  | ref i => exact HeapWF_mapAt hw i _

theorem HeapWF_setSpecFlag {h : HeapL} {n : Nat} (hw : HeapWF h n) (v : Value) :
    HeapWF (setSpecFlag h v) n := by
  cases v with
  | scalar k => exact hw
  | ref i => exact HeapWF_mapAt hw i _

theorem HeapWF_setField {h : HeapL} {n : Nat} (hw : HeapWF h n) (i : Nat)
    (k : String) (v : Value) : HeapWF (setField h i k v) n := HeapWF_mapAt hw i _

/-- `deepcopyVal` satisfies the step post-condition. -/
theorem deepcopy_stepOK (st : St) (v : Value) :
    stepOKS st (deepcopyVal st v).2 := by
  cases v with
  | scalar k => exact stepOKS_refl st
  | ref a =>
    refine ⟨framePres_append _ _, by simp [deepcopyVal], fun hw => ?_⟩
    exact (deepcopy_ref st a hw).2.2.2.2.2.2.2

/-- The field loop satisfies the step post-condition when the visit
function does. -/
theorem fields_stepOK (recv : St → Value → Option (Value × St))
    (hrec : ∀ st v res, recv st v = some res → stepOKS st res.2) (nid : Nat) :
    ∀ (fs : List (String × Value)) (st st' : St),
      refs2copiesFields recv nid st fs = some st' → stepOKS st st' := by
  intro fs
  induction fs with
  | nil =>
    intro st st' heq
    rw [show refs2copiesFields recv nid st [] = some st from rfl] at heq
    cases heq
    exact stepOKS_refl st
  | cons kx rest ih =>
    intro st st' heq
    obtain ⟨k, x⟩ := kx
    rw [show refs2copiesFields recv nid st ((k, x) :: rest) =
      (match recv st x with
       | none => none
       | some (v, stA) =>
         refs2copiesFields recv nid
           { stA with heap :=
              if isNodeVal (setField stA.heap nid k v) v then
                setSpecFlag (setParentVal (setField stA.heap nid k v) v (some nid)) v
              else setField stA.heap nid k v } rest) from rfl] at heq
    cases hr : recv st x with
    | none => rw [hr] at heq; cases heq
    | some res =>
      obtain ⟨v, stA⟩ := res
      rw [hr] at heq
      have h1 := hrec st x (v, stA) hr
      have h2 : stepOKS stA
          { stA with heap :=
            if isNodeVal (setField stA.heap nid k v) v then
              setSpecFlag (setParentVal (setField stA.heap nid k v) v (some nid)) v
            else setField stA.heap nid k v } := by
        by_cases hb : isNodeVal (setField stA.heap nid k v) v = true
        · rw [if_pos hb]
          refine stepOKS_heap _ ?_ (fun hw => ?_) _ _
          · exact framePres_trans (framePres_setField _ _ _ _)
              (framePres_trans (framePres_setParentVal _ _ _)
                (framePres_setSpecFlag _ _))
          · exact HeapWF_setSpecFlag (HeapWF_setParentVal (HeapWF_setField hw _ _ _) _ _) _
        · rw [if_neg hb]
          exact stepOKS_heap _ (framePres_setField _ _ _ _)
            (fun hw => HeapWF_setField hw _ _ _) _ _
      exact stepOKS_trans h1 (stepOKS_trans h2 (ih _ _ heq))

/-- Every successful traversal step preserves the frame: non-Node
objects are untouched, node identities keep their kind and field keys,
allocation only moves forward, and well-formedness is preserved. -/
theorem refs2copies_stepOK : ∀ (fuel : Nat) (st : St) (v : Value)
    (res : Value × St), refs2copies_fast fuel st v = some res →
    stepOKS st res.2 := by
  intro fuel
  induction fuel with
  | zero =>
    intro st v res heq
    exact absurd heq (by simp [refs2copies_fast])
  | succ fuel ih =>
    intro st v res heq
    cases v with
    | scalar k =>
      rw [show refs2copies_fast (fuel+1) st (.scalar k) =
        some (.scalar k, { st with visited := st.visited ++ [Value.scalar k] })
        from rfl] at heq
      cases heq
      exact ⟨framePres_refl _, le_refl _, id⟩
    | ref i =>
      simp only [refs2copies_fast] at heq
      by_cases hn : isNodeVal st.heap (.ref i) = true
      all_goals
        simp only [hn, Bool.false_eq_true, if_true, if_false, idSeen,
          idAdd, setParentVal] at heq
      -- in both worlds name the post-entry state and its step
      case pos =>
        by_cases hm : i ∈ st.seen
        all_goals simp only [hm, decide_True, decide_False,
          Bool.false_eq_true, if_true, if_false, idAdd] at heq
        case pos =>
          cases hD : deepcopyVal ⟨setParent st.heap i none, st.nextId,
              st.seen, st.visited ++ [Value.ref i]⟩ (.ref i) with
          | mk v1 stC =>
            rw [hD] at heq
            have hstep0 : stepOKS st ⟨setParent st.heap i none, st.nextId,
                st.seen, st.visited ++ [Value.ref i]⟩ :=
              ⟨framePres_setParent _ _ _, le_refl _,
               fun hw => HeapWF_setParent hw _ _⟩
            have hstepC : stepOKS st stC := by
              refine stepOKS_trans hstep0 ?_
              have := deepcopy_stepOK ⟨setParent st.heap i none, st.nextId,
                st.seen, st.visited ++ [Value.ref i]⟩ (.ref i)
              rwa [hD] at this
            cases v1 with
            | scalar k =>
              simp only at heq
              cases heq
              exact hstepC
            | ref c =>
              simp only at heq
              cases hlk : lookup stC.heap c with
              | none =>
                simp only [hlk] at heq
                cases heq
                exact hstepC
              | some o =>
                simp only [hlk] at heq
                cases o with
                | node fs p b =>
                  cases hloop : refs2copiesFields (refs2copies_fast fuel) c
                      ⟨stC.heap, stC.nextId, c :: stC.seen, stC.visited⟩ fs with
                  | none =>
                    simp only [hloop] at heq
                    exact Option.noConfusion heq
                  | some st5 =>
                    simp only [hloop] at heq
                    cases heq
                    refine stepOKS_trans hstepC (stepOKS_trans ?_
                      (stepOKS_trans (fields_stepOK _ (fun s v r hq => ih s v r hq) c fs _ _ hloop) ?_))
                    · exact ⟨framePres_refl _, le_refl _, id⟩
                    · exact ⟨framePres_setParent _ _ _, le_refl _,
                        fun hw => HeapWF_setParent hw _ _⟩
                | seq es =>
                  cases heq
                  exact hstepC
                | box t =>
                  cases heq
                  exact hstepC
        case neg =>
          -- node, unseen: no copy
          cases hlk : lookup (setParent st.heap i none) i with
          | none =>
            simp only [hlk] at heq
            cases heq
            exact ⟨framePres_setParent _ _ _, le_refl _,
              fun hw => HeapWF_setParent hw _ _⟩
          | some o =>
            simp only [hlk] at heq
            cases o with
            | node fs p b =>
              cases hloop : refs2copiesFields (refs2copies_fast fuel) i
                  ⟨setParent st.heap i none, st.nextId, i :: st.seen,
                   st.visited ++ [Value.ref i]⟩ fs with
              | none =>
                    simp only [hloop] at heq
                    exact Option.noConfusion heq
              | some st5 =>
                simp only [hloop] at heq
                cases heq
                refine stepOKS_trans ?_ (stepOKS_trans
                  (fields_stepOK _ (fun s v r hq => ih s v r hq) i fs _ _ hloop) ?_)
                · exact ⟨framePres_setParent _ _ _, le_refl _,
                    fun hw => HeapWF_setParent hw _ _⟩
                · exact ⟨framePres_setParent _ _ _, le_refl _,
                    fun hw => HeapWF_setParent hw _ _⟩
            | seq es =>
              cases heq
              exact ⟨framePres_setParent _ _ _, le_refl _,
                fun hw => HeapWF_setParent hw _ _⟩
            | box t =>
              cases heq
              exact ⟨framePres_setParent _ _ _, le_refl _,
                fun hw => HeapWF_setParent hw _ _⟩
      case neg =>
        by_cases hm : i ∈ st.seen
        all_goals simp only [hm, decide_True, decide_False,
          Bool.false_eq_true, if_true, if_false, idAdd] at heq
        case pos =>
          cases hD : deepcopyVal ⟨st.heap, st.nextId,
              st.seen, st.visited ++ [Value.ref i]⟩ (.ref i) with
          | mk v1 stC =>
            rw [hD] at heq
            have hstepC : stepOKS st stC := by
              have := deepcopy_stepOK ⟨st.heap, st.nextId,
                st.seen, st.visited ++ [Value.ref i]⟩ (.ref i)
              rwa [hD] at this
            cases v1 with
            | scalar k =>
              simp only at heq
              cases heq
              exact hstepC
            | ref c =>
              simp only at heq
              cases hlk : lookup stC.heap c with
              | none =>
                simp only [hlk] at heq
                cases heq
                exact hstepC
              | some o =>
                simp only [hlk] at heq
                cases o with
                | node fs p b =>
                  cases hloop : refs2copiesFields (refs2copies_fast fuel) c
                      ⟨stC.heap, stC.nextId, c :: stC.seen, stC.visited⟩ fs with
                  | none =>
                    simp only [hloop] at heq
                    exact Option.noConfusion heq
                  | some st5 =>
                    simp only [hloop] at heq
                    cases heq
                    refine stepOKS_trans hstepC (stepOKS_trans ?_
                      (stepOKS_trans (fields_stepOK _ (fun s v r hq => ih s v r hq) c fs _ _ hloop) ?_))
                    · exact ⟨framePres_refl _, le_refl _, id⟩
                    · exact ⟨framePres_setParent _ _ _, le_refl _,
                        fun hw => HeapWF_setParent hw _ _⟩
                | seq es =>
                  cases heq
                  exact hstepC
                | box t =>
                  cases heq
                  exact hstepC
        case neg =>
          cases hlk : lookup st.heap i with
          | none =>
            simp only [hlk] at heq
            cases heq
            exact ⟨framePres_refl _, le_refl _, id⟩
          | some o =>
            simp only [hlk] at heq
            cases o with
            | node fs p b =>
              cases hloop : refs2copiesFields (refs2copies_fast fuel) i
                  ⟨st.heap, st.nextId, i :: st.seen,
                   st.visited ++ [Value.ref i]⟩ fs with
              | none =>
                    simp only [hloop] at heq
                    exact Option.noConfusion heq
              | some st5 =>
                simp only [hloop] at heq
                cases heq
                refine stepOKS_trans ?_ (stepOKS_trans
                  (fields_stepOK _ (fun s v r hq => ih s v r hq) i fs _ _ hloop) ?_)
                · exact ⟨framePres_refl _, le_refl _, id⟩
                · exact ⟨framePres_setParent _ _ _, le_refl _,
                    fun hw => HeapWF_setParent hw _ _⟩
            | seq es =>
              cases heq
              exact ⟨framePres_refl _, le_refl _, id⟩
            | box t =>
              cases heq
              exact ⟨framePres_refl _, le_refl _, id⟩

theorem getField_some_key {h : HeapL} {i : Nat} {k : String} {v : Value}
    (hg : getField h i k = some v) :
    ∃ fs p b, lookup h i = some (.node fs p b) ∧ k ∈ fs.map Prod.fst := by
  rw [getField] at hg
  cases hl : lookup h i with
  | none => rw [hl] at hg; exact Option.noConfusion hg
  | some o =>
    rw [hl] at hg
    cases o with
    | node fs p b =>
      simp only at hg
      cases hf : fs.find? (fun f => f.1 = k) with
      | none => rw [hf] at hg; exact Option.noConfusion hg
      | some f =>
        have hmem := List.mem_of_find?_eq_some hf
        have hpred := List.find?_some hf
        simp only [decide_eq_true_eq] at hpred
        exact ⟨fs, p, b, rfl, hpred ▸ List.mem_map_of_mem Prod.fst hmem⟩
    | seq es => exact Option.noConfusion hg
    | box t => exact Option.noConfusion hg

theorem find?_fieldSet (fs : List (String × Value)) (k : String) (v : Value)
    (hk : k ∈ fs.map Prod.fst) :
    (fs.map (fun f => if f.1 = k then (k, v) else f)).find?
      (fun f => f.1 = k) = some (k, v) := by
  induction fs with
  | nil => simp at hk
  | cons f rest ih =>
    by_cases hf : f.1 = k
    · simp [hf]
    · have hk' : k ∈ rest.map Prod.fst := by
        simp only [List.map_cons, List.mem_cons] at hk
        rcases hk with hk | hk
        · exact absurd hk.symm hf
        · exact hk
      simp only [List.map_cons, List.find?_cons, hf, decide_False, if_false]
      exact ih hk'

theorem getField_setField_self {h : HeapL} {i : Nat} {fs : List (String × Value)}
    {p : Option Nat} {b : Bool} (hl : lookup h i = some (.node fs p b))
    {k : String} (hk : k ∈ fs.map Prod.fst) (v : Value) :
    getField (setField h i k v) i k = some v := by
  rw [getField, setField, lookup_mapAt, if_pos rfl, hl, Option.map_some']
  simp only [fieldSetFn]
  rw [find?_fieldSet fs k v hk]
  rfl

/-- C8: `process` restores the saved `processors` value onto the spec
afterwards, and no non-Node object (the processors list and the
processor instances in it included) is modified or re-allocated by the
run: every non-Node identity still holds exactly the same object. -/
theorem process_restores_processors (fuel : Nat) (sp out : SpecPack)
    (ps : Value) (hps : getField sp.heap sp.rootId "processors" = some ps)
    (hrun : process fuel sp = some out) :
    getField out.heap sp.rootId "processors" = some ps ∧
    (∀ i o, lookup sp.heap i = some o → isNodeObj o = false →
      lookup out.heap i = some o) := by
  obtain ⟨fs, p, b, hroot, hkey⟩ := getField_some_key hps
  simp only [process, hps] at hrun
  cases hr : refs2copies_fast fuel
      ⟨setField (sp.heap ++ [(sp.nextId, Obj.seq [])]) sp.rootId "processors"
        (.ref sp.nextId), sp.nextId + 1, [], []⟩ (.ref sp.rootId) with
  | none => rw [hr] at hrun; exact Option.noConfusion hrun
  | some res =>
    obtain ⟨v, st'⟩ := res
    rw [hr] at hrun
    simp only at hrun
    injection hrun with hout
    subst hout
    have hfp0 : framePres sp.heap
        (setField (sp.heap ++ [(sp.nextId, Obj.seq [])]) sp.rootId "processors"
          (.ref sp.nextId)) :=
      framePres_trans (framePres_append _ _) (framePres_setField _ _ _ _)
    have hfp1 : framePres sp.heap st'.heap :=
      framePres_trans hfp0 (refs2copies_stepOK fuel _ _ _ hr).1
    obtain ⟨fs2, p2, b2, hroot2, hkeys2⟩ := hfp1 sp.rootId (.node fs p b) hroot
    have hfp2 : framePres sp.heap (setField st'.heap sp.rootId "processors" ps) :=
      framePres_trans hfp1 (framePres_setField _ _ _ _)
    refine ⟨?_, ?_⟩
    · exact getField_setField_self hroot2 (by rw [hkeys2]; exact hkey) ps
    · intro i o hlo hnn
      have hpres := hfp2 i o hlo
      cases o with
      | node fs3 p3 b3 => simp [isNodeObj] at hnn
      | seq es => exact hpres
      | box t => exact hpres

/-- Witness for C8 on the concrete C1 specification (its `processors`
field holds the plain list at identity 2 containing the processor
object at identity 5). -/
theorem process_restores_processors_witness :
    getField c1Spec.heap c1Spec.rootId "processors" = some (.ref 2) ∧
    process 10 c1Spec = some c1Out ∧
    (getField c1Out.heap c1Spec.rootId "processors" = some (.ref 2) ∧
     (∀ i o, lookup c1Spec.heap i = some o → isNodeObj o = false →
       lookup c1Out.heap i = some o)) :=
  ⟨by decide, by decide,
   process_restores_processors 10 c1Spec c1Out (.ref 2) (by decide) (by decide)⟩

/-- Encounter-list mirror of the traversal: the identities
`refs2copies_fast` would test against `seen_ids`, in traversal order,
assuming no identity is met twice; `none` when the fuel does not cover
the recursion depth. -/
def encList (rec : Value → Option (List Nat)) :
    List (String × Value) → Option (List Nat)
  | [] => some []
  | (_, x) :: rest =>
    match rec x, encList rec rest with
    | some l, some r => some (l ++ r)
    | _, _ => none

def encTrav : Nat → HeapL → Value → Option (List Nat)
  | 0, _, _ => none
  | fuel+1, h, v =>
    match v with
    | .scalar _ => some []
    | .ref i =>
      match lookup h i with
      | some (.node fs _ _) => (encList (encTrav fuel h) fs).map (fun l => i :: l)
      | _ => some [i]

/-- Checker for the spec's parent invariant along the traversal: every
Node held in a field has `parent_node` naming its container and its
`spec` back-reference set. -/
def parOKFields (rec : Value → Option Bool) (h : HeapL) (nid : Nat) :
    List (String × Value) → Option Bool
  | [] => some true
  | (_, x) :: rest =>
    let ok1 : Bool :=
      match x with
      | .scalar _ => true
      | .ref c =>
        match lookup h c with
        | some (.node _ pc bc) => decide (pc = some nid) && bc
        | _ => true
    match rec x, parOKFields rec h nid rest with
    | some b1, some b2 => some (ok1 && b1 && b2)
    | _, _ => none

def parOK : Nat → HeapL → Value → Option Bool
  | 0, _, _ => none
  | fuel+1, h, v =>
    match v with
    | .scalar _ => some true
    | .ref i =>
      match lookup h i with
      | some (.node fs _ _) => parOKFields (parOK fuel h) h i fs
      | _ => some true

/-- Field keys of every node are duplicate-free (Python dicts cannot
hold a key twice). -/
def FieldKeysNodup (h : HeapL) : Prop :=
  ∀ i fs p b, lookup h i = some (.node fs p b) → (fs.map Prod.fst).Nodup

/-- Heap keys are duplicate-free. -/
def KeysNodup (h : HeapL) : Prop := (h.map Prod.fst).Nodup

theorem keys_mapAt (h : HeapL) (i : Nat) (g : Obj → Obj) :
    (mapAt h i g).map Prod.fst = h.map Prod.fst := by
  rw [mapAt, List.map_map]
  refine List.map_congr_left (fun q _ => ?_)
  by_cases hq : q.1 = i
  · simp [hq]
  · simp [hq]

theorem KeysNodup_mapAt {h : HeapL} (hk : KeysNodup h) (i : Nat)
    (g : Obj → Obj) : KeysNodup (mapAt h i g) := by
  rw [KeysNodup, keys_mapAt]
  exact hk

theorem mapAt_mapAt (h : HeapL) (i : Nat) (g1 g2 : Obj → Obj) :
    mapAt (mapAt h i g1) i g2 = mapAt h i (fun o => g2 (g1 o)) := by
  rw [mapAt, mapAt, mapAt, List.map_map]
  refine List.map_congr_left (fun q _ => ?_)
  by_cases hq : q.1 = i
  · simp [hq]
  · simp [hq]

theorem mapAt_noKey {h : HeapL} {i : Nat} (hni : i ∉ h.map Prod.fst)
    (g : Obj → Obj) : mapAt h i g = h := by
  rw [mapAt]
  have hge : ∀ q ∈ h, (if q.1 = i then (i, g q.2) else q) = q := by
    intro q hq
    have hqm : q.1 ∈ h.map Prod.fst := List.mem_map_of_mem Prod.fst hq
    rw [if_neg (fun e : q.1 = i => hni (e ▸ hqm))]
  rw [List.map_congr_left hge]
  simp

theorem mapAt_self {h : HeapL} (hk : KeysNodup h) {i : Nat} {o : Obj}
    (hl : lookup h i = some o) {g : Obj → Obj} (hg : g o = o) :
    mapAt h i g = h := by
  induction h with
  | nil => rfl
  | cons q t ih =>
    have hk' : KeysNodup t := by
      rw [KeysNodup, List.map_cons] at hk
      exact hk.of_cons
    rw [lookup_cons] at hl
    show (if q.1 = i then (i, g q.2) else q) :: mapAt t i g = q :: t
    by_cases hq : q.1 = i
    · rw [if_pos hq] at hl
      cases hl
      have hni : i ∉ t.map Prod.fst := by
        rw [KeysNodup, List.map_cons, List.nodup_cons] at hk
        exact hq ▸ hk.1
      rw [if_pos hq, hg, mapAt_noKey hni, ← hq]
    · rw [if_neg hq] at hl
      rw [if_neg hq, ih hk' hl]

theorem fieldSetFn_self {fs : List (String × Value)}
    (hnd : (fs.map Prod.fst).Nodup) {k : String} {v : Value}
    (hmem : (k, v) ∈ fs) (p : Option Nat) (b : Bool) :
    fieldSetFn k v (.node fs p b) = .node fs p b := by
  simp only [fieldSetFn]
  congr 1
  have hge : ∀ f ∈ fs, (if f.1 = k then (k, v) else f) = f := by
    intro f hf
    by_cases hfk : f.1 = k
    · rw [if_pos hfk]
      exact (List.inj_on_of_nodup_map hnd hf hmem hfk).symm
    · rw [if_neg hfk]
  rw [List.map_congr_left hge]
  simp

theorem setField_self {h : HeapL} (hk : KeysNodup h) (hfk : FieldKeysNodup h)
    {i : Nat} {fs : List (String × Value)} {p : Option Nat} {b : Bool}
    (hl : lookup h i = some (.node fs p b)) {key : String} {v : Value}
    (hmem : (key, v) ∈ fs) : setField h i key v = h :=
  mapAt_self hk hl (fieldSetFn_self (hfk i fs p b hl) hmem p b)

theorem setParent_self {h : HeapL} (hk : KeysNodup h) {c : Nat}
    {fs : List (String × Value)} {pc : Option Nat} {b : Bool}
    (hl : lookup h c = some (.node fs pc b)) : setParent h c pc = h :=
  mapAt_self hk hl rfl

theorem setSpecFlag_self {h : HeapL} (hk : KeysNodup h) {c : Nat}
    {fs : List (String × Value)} {pc : Option Nat}
    (hl : lookup h c = some (.node fs pc true)) :
    setSpecFlag h (.ref c) = h :=
  mapAt_self hk hl rfl

theorem encList_congr (rec rec' : Value → Option (List Nat)) (P : Nat → Prop)
    (hrec : ∀ v l, rec v = some l → (∀ x ∈ l, P x) → rec' v = some l) :
    ∀ (fs : List (String × Value)) (l : List Nat),
      encList rec fs = some l → (∀ x ∈ l, P x) → encList rec' fs = some l := by
  intro fs
  induction fs with
  | nil => intro l he _; exact he
  | cons kx rest ih =>
    intro l he hP
    obtain ⟨k, x⟩ := kx
    simp only [encList] at he ⊢
    cases h1 : rec x with
    | none => rw [h1] at he; exact Option.noConfusion he
    | some lx =>
      cases h2 : encList rec rest with
      | none => rw [h1, h2] at he; exact Option.noConfusion he
      | some lr =>
        rw [h1, h2] at he
        cases he
        rw [hrec x lx h1 (fun y hy => hP y (List.mem_append_left _ hy)),
          ih lr h2 (fun y hy => hP y (List.mem_append_right _ hy))]

/-- The traversal's encounter list only depends on the heap at the
encountered identities. -/
theorem encTrav_congr : ∀ (fuel : Nat) (h h' : HeapL) (v : Value)
    (l : List Nat), encTrav fuel h v = some l →
    (∀ x ∈ l, lookup h' x = lookup h x) → encTrav fuel h' v = some l := by
  intro fuel
  induction fuel with
  | zero => intro h h' v l he; exact absurd he (by simp [encTrav])
  | succ fuel ih =>
    intro h h' v l he hag
    cases v with
    | scalar k => simpa [encTrav] using he
    | ref i =>
      simp only [encTrav] at he ⊢
      cases hl : lookup h i with
      | none =>
        simp only [hl] at he
        cases he
        rw [hag i (by simp)]
        simp [hl]
      | some o =>
        simp only [hl] at he
        cases o with
        | node fs p b =>
          cases hel : encList (encTrav fuel h) fs with
          | none =>
            simp only [hel, Option.map_none'] at he
            exact Option.noConfusion he
          | some l' =>
            simp only [hel, Option.map_some'] at he
            cases he
            rw [hag i (by simp)]
            have hel' : encList (encTrav fuel h') fs = some l' :=
              encList_congr (encTrav fuel h) (encTrav fuel h')
                (fun x => lookup h' x = lookup h x)
                (fun v l hv hPl => ih h h' v l hv hPl) fs l' hel
                (fun y hy => hag y (by simp [hy]))
            simp [hl, hel']
        | seq es =>
          simp only [hl] at he
          cases he
          rw [hag i (by simp)]
          simp [hl]
        | box t =>
          simp only [hl] at he
          cases he
          rw [hag i (by simp)]
          simp [hl]

/-- The encounter list of a reference starts with (contains) it. -/
theorem enc_head_mem {fuel : Nat} {h : HeapL} {c : Nat} {l : List Nat}
    (he : encTrav fuel h (.ref c) = some l) : c ∈ l := by
  match fuel with
  | 0 => exact absurd he (by simp [encTrav])
  | fuel + 1 =>
    simp only [encTrav] at he
    cases hl : lookup h c with
    | none =>
      simp only [hl] at he
      cases he
      simp
    | some o =>
      simp only [hl] at he
      cases o with
      | node fs p b =>
        cases hel : encList (encTrav fuel h) fs with
        | none =>
          simp only [hel, Option.map_none'] at he
          exact Option.noConfusion he
        | some l' =>
          simp only [hel, Option.map_some'] at he
          cases he
          simp
      | seq es => cases he; simp
      | box t => cases he; simp

theorem parOKFields_congr (fuel : Nat) (h h' : HeapL)
    (hih : ∀ (v : Value) (l : List Nat), encTrav fuel h v = some l →
      (∀ x ∈ l, lookup h' x = lookup h x) → parOK fuel h' v = parOK fuel h v)
    (nid : Nat) :
    ∀ (fs : List (String × Value)) (l : List Nat),
      encList (encTrav fuel h) fs = some l →
      (∀ x ∈ l, lookup h' x = lookup h x) →
      parOKFields (parOK fuel h') h' nid fs =
        parOKFields (parOK fuel h) h nid fs := by
  intro fs
  induction fs with
  | nil => intro l _ _; rfl
  | cons kx rest ih =>
    intro l he hag
    obtain ⟨k, x⟩ := kx
    simp only [encList] at he
    cases h1 : encTrav fuel h x with
    | none =>
      simp only [h1] at he
      exact Option.noConfusion he
    | some lx =>
      cases h2 : encList (encTrav fuel h) rest with
      | none =>
        simp only [h1, h2] at he
        exact Option.noConfusion he
      | some lr =>
        simp only [h1, h2] at he
        cases he
        have hagx : ∀ y ∈ lx, lookup h' y = lookup h y :=
          fun y hy => hag y (List.mem_append_left _ hy)
        have hagr : ∀ y ∈ lr, lookup h' y = lookup h y :=
          fun y hy => hag y (List.mem_append_right _ hy)
        cases x with
        | scalar k2 =>
          simp only [parOKFields, hih _ lx h1 hagx, ih lr h2 hagr]
        | ref c =>
          have hc : lookup h' c = lookup h c := hagx c (enc_head_mem h1)
          simp only [parOKFields, hih _ lx h1 hagx, ih lr h2 hagr, hc]

/-- The parent-invariant checker only depends on the heap at the
encountered identities. -/
theorem parOK_congr : ∀ (fuel : Nat) (h h' : HeapL) (v : Value)
    (l : List Nat), encTrav fuel h v = some l →
    (∀ x ∈ l, lookup h' x = lookup h x) →
    parOK fuel h' v = parOK fuel h v := by
  intro fuel
  induction fuel with
  | zero => intro h h' v l he; exact absurd he (by simp [encTrav])
  | succ fuel ih =>
    intro h h' v l he hag
    cases v with
    | scalar k => rfl
    | ref i =>
      simp only [encTrav] at he
      simp only [parOK]
      cases hl : lookup h i with
      | none =>
        simp only [hl] at he
        cases he
        rw [hag i (by simp)]
        simp [hl]
      | some o =>
        simp only [hl] at he
        cases o with
        | node fs p b =>
          cases hel : encList (encTrav fuel h) fs with
          | none =>
            simp only [hel, Option.map_none'] at he
            exact Option.noConfusion he
          | some l' =>
            simp only [hel, Option.map_some'] at he
            cases he
            rw [hag i (by simp)]
            simp only [hl]
            exact parOKFields_congr fuel h h' (fun v l hv ha => ih h h' v l hv ha)
              i fs l' hel (fun y hy => hag y (by simp [hy]))
        | seq es =>
          simp only [hl] at he
          cases he
          rw [hag i (by simp)]
          simp [hl]
        | box t =>
          simp only [hl] at he
          cases he
          rw [hag i (by simp)]
          simp [hl]

theorem mapAt_congrFn {h : HeapL} {i : Nat} {g1 g2 : Obj → Obj}
    (hg : ∀ o, g1 o = g2 o) : mapAt h i g1 = mapAt h i g2 := by
  rw [mapAt, mapAt]
  refine List.map_congr_left (fun q _ => ?_)
  rw [hg]

theorem setParent_setParent (h : HeapL) (c : Nat) (p1 p2 : Option Nat) :
    setParent (setParent h c p1) c p2 = setParent h c p2 := by
  rw [setParent, setParent, setParent, mapAt_mapAt]
  refine mapAt_congrFn (fun o => ?_)
  cases o <;> rfl

theorem FieldKeysNodup_parent {h : HeapL} (hf : FieldKeysNodup h) (i : Nat)
    (p : Option Nat) : FieldKeysNodup (mapAt h i (parentSetFn p)) := by
  intro j fs q b hl
  rw [lookup_mapAt] at hl
  by_cases hij : i = j
  · rw [if_pos hij] at hl
    cases ho : lookup h j with
    | none => rw [ho] at hl; exact Option.noConfusion hl
    | some o =>
      rw [ho, Option.map_some'] at hl
      cases o with
      | node fs0 p0 b0 =>
        simp only [parentSetFn, Option.some.injEq, Obj.node.injEq] at hl
        obtain ⟨h1, _, _⟩ := hl
        exact h1 ▸ hf j fs0 p0 b0 ho
      | seq es => simp [parentSetFn] at hl
      | box t => simp [parentSetFn] at hl
  · rw [if_neg hij] at hl
    exact hf j fs q b hl

/-- One-step visit of an unseen value that is not a Node (plain object
or dangling identity): returned unchanged. -/
theorem refs2copies_visit_any_nonNode_unseen (fuel : Nat) (st : St) (i : Nat)
    (hnn : isNodeVal st.heap (.ref i) = false) (hm : i ∉ st.seen) :
    refs2copies_fast (fuel+1) st (.ref i) =
      some (.ref i, ⟨st.heap, st.nextId, i :: st.seen, st.visited ++ [.ref i]⟩) := by
  cases hlk : lookup st.heap i with
  | none =>
    simp only [refs2copies_fast, isNodeVal, hlk, Bool.false_eq_true, if_false,
      idSeen, hm, decide_False, idAdd]
  | some o =>
    cases o with
    | node fs p b => rw [isNodeVal, hlk] at hnn; exact Bool.noConfusion hnn
    | seq es => exact refs2copies_visit_nonNode_unseen fuel st i _ hlk rfl hm
    | box t => exact refs2copies_visit_nonNode_unseen fuel st i _ hlk rfl hm

/-- The heap as the traversal leaves it on a no-aliasing input: only
the parent link of the visited root node is cleared. -/
def parentClearRoot (h : HeapL) (v : Value) : HeapL :=
  match v with
  | .ref a => if isNodeVal h (.ref a) then setParent h a none else h
  | _ => h

theorem fieldsLoop_noAlias (fuel : Nat)
    (ihmain : ∀ (st : St) (v : Value) (l : List Nat),
      KeysNodup st.heap → FieldKeysNodup st.heap →
      encTrav fuel st.heap v = some l → l.Nodup →
      (∀ x ∈ l, x ∉ st.seen) →
      parOK fuel st.heap v = some true →
      ∃ se vi, refs2copies_fast fuel st v =
        some (v, ⟨parentClearRoot st.heap v, st.nextId, se, vi⟩) ∧
        (∀ x, x ∈ se ↔ x ∈ st.seen ∨ x ∈ l)) :
    ∀ (fs : List (String × Value)) (st : St) (nid : Nat) (l : List Nat)
      (fsAll : List (String × Value)) (pn : Option Nat) (bn : Bool),
      KeysNodup st.heap → FieldKeysNodup st.heap →
      encList (encTrav fuel st.heap) fs = some l → l.Nodup →
      (∀ x ∈ l, x ∉ st.seen) →
      parOKFields (parOK fuel st.heap) st.heap nid fs = some true →
      nid ∈ st.seen →
      lookup st.heap nid = some (.node fsAll pn bn) →
      (∀ f ∈ fs, f ∈ fsAll) →
      ∃ se vi, refs2copiesFields (refs2copies_fast fuel) nid st fs =
        some ⟨st.heap, st.nextId, se, vi⟩ ∧
        (∀ x, x ∈ se ↔ x ∈ st.seen ∨ x ∈ l) := by
  intro fs
  induction fs with
  | nil =>
    intro st nid l fsAll pn bn _ _ he _ _ _ _ _ _
    simp only [encList] at he
    cases he
    exact ⟨st.seen, st.visited, rfl, fun x => by simp⟩
  | cons kx rest ih =>
    intro st nid l fsAll pn bn hkeys hfkeys he hnd hdis hpar hnids hnid hsub
    obtain ⟨key, x⟩ := kx
    simp only [encList] at he
    cases h1 : encTrav fuel st.heap x with
    | none =>
      simp only [h1] at he
      exact Option.noConfusion he
    | some lx =>
      cases h2 : encList (encTrav fuel st.heap) rest with
      | none =>
        simp only [h1, h2] at he
        exact Option.noConfusion he
      | some lr =>
        simp only [h1, h2] at he
        cases he
        simp only [parOKFields] at hpar
        cases hp1 : parOK fuel st.heap x with
        | none =>
          simp only [hp1] at hpar
          exact Option.noConfusion hpar
        | some b1 =>
          cases hp2 : parOKFields (parOK fuel st.heap) st.heap nid rest with
          | none =>
            simp only [hp1, hp2] at hpar
            exact Option.noConfusion hpar
          | some b2 =>
            simp only [hp1, hp2, Option.some.injEq, Bool.and_eq_true] at hpar
            obtain ⟨⟨hok1, hb1⟩, hb2⟩ := hpar
            have hdisx : ∀ y ∈ lx, y ∉ st.seen :=
              fun y hy => hdis y (List.mem_append_left _ hy)
            have hndx : lx.Nodup := (List.nodup_append.1 hnd).1
            obtain ⟨se1, vi1, hrun1, hse1⟩ := ihmain st x lx hkeys hfkeys h1
              hndx hdisx (by rw [hp1, hb1])
            -- the child's root identity differs from `nid`
            have hrootne : ∀ a : Nat, x = .ref a → a ≠ nid := by
              intro a hxa han
              apply hdisx a (enc_head_mem (hxa ▸ h1))
              rw [han]
              exact hnids
            -- the child's heap still holds `nid` unchanged
            have haux : lookup (parentClearRoot st.heap x) nid =
                some (.node fsAll pn bn) := by
              cases x with
              | scalar k2 => exact hnid
              | ref a =>
                simp only [parentClearRoot]
                by_cases hb : isNodeVal st.heap (.ref a) = true
                · rw [if_pos hb, setParent, lookup_mapAt,
                    if_neg (hrootne a rfl), hnid]
                · rw [if_neg hb]
                  exact hnid
            have hkeysA : KeysNodup (parentClearRoot st.heap x) := by
              cases x with
              | scalar k2 => exact hkeys
              | ref a =>
                simp only [parentClearRoot]
                by_cases hb : isNodeVal st.heap (.ref a) = true
                · rw [if_pos hb]
                  exact KeysNodup_mapAt hkeys a _
                · rw [if_neg hb]
                  exact hkeys
            have hfkeysA : FieldKeysNodup (parentClearRoot st.heap x) := by
              cases x with
              | scalar k2 => exact hfkeys
              | ref a =>
                simp only [parentClearRoot]
                by_cases hb : isNodeVal st.heap (.ref a) = true
                · rw [if_pos hb]
                  exact FieldKeysNodup_parent hfkeys a none
                · rw [if_neg hb]
                  exact hfkeys
            have hsf : setField (parentClearRoot st.heap x) nid key x =
                parentClearRoot st.heap x :=
              setField_self hkeysA hfkeysA haux (hsub (key, x) (by simp))
            have hh2 : (if isNodeVal
                  (setField (parentClearRoot st.heap x) nid key x) x then
                setSpecFlag (setParentVal
                  (setField (parentClearRoot st.heap x) nid key x) x (some nid)) x
              else setField (parentClearRoot st.heap x) nid key x) =
                st.heap := by
              rw [hsf]
              cases x with
              | scalar k2 =>
                simp only [isNodeVal, Bool.false_eq_true, if_false,
                  parentClearRoot]
              | ref c =>
                by_cases hb : isNodeVal st.heap (.ref c) = true
                · -- original node child: parent cleared then restored
                  obtain ⟨fsc, pc, bc, hlc⟩ :
                      ∃ fsc pc bc, lookup st.heap c =
                        some (.node fsc pc bc) := by
                    rw [isNodeVal] at hb
                    cases hlc : lookup st.heap c with
                    | none => rw [hlc] at hb; exact Bool.noConfusion hb
                    | some o =>
                      cases o with
                      | node fsc pc bc => exact ⟨fsc, pc, bc, rfl⟩
                      | seq es => rw [hlc] at hb; exact Bool.noConfusion hb
                      | box t => rw [hlc] at hb; exact Bool.noConfusion hb
                  have hpcbc : pc = some nid ∧ bc = true := by
                    simp only [hlc, Bool.and_eq_true, decide_eq_true_eq] at hok1
                    exact hok1
                  simp only [parentClearRoot, hb, if_true]
                  have hnode2 : isNodeVal (setParent st.heap c none)
                      (.ref c) = true := by
                    rw [isNodeVal, setParent, lookup_mapAt, if_pos rfl, hlc]
                    rfl
                  rw [if_pos hnode2, setParentVal, setParent_setParent]
                  have hsp : setParent st.heap c (some nid) = st.heap := by
                    rw [← hpcbc.1]
                    exact setParent_self hkeys hlc
                  rw [hsp]
                  exact setSpecFlag_self hkeys (hpcbc.2 ▸ hlc)
                · simp only [parentClearRoot, hb, Bool.false_eq_true, if_false]
            -- recurse on the remaining fields
            have hdisr : ∀ y ∈ lr, y ∉ se1 := by
              intro y hy hse
              rcases (hse1 y).1 hse with hys | hyl
              · exact hdis y (List.mem_append_right _ hy) hys
              · exact (List.disjoint_of_nodup_append hnd) hyl hy
            obtain ⟨se2, vi2, hrun2, hse2⟩ := ih
              ⟨st.heap, st.nextId, se1, vi1⟩ nid lr fsAll pn bn hkeys hfkeys
              h2 (List.nodup_append.1 hnd).2.1 hdisr (by rw [hp2, hb2])
              ((hse1 nid).2 (Or.inl hnids)) hnid
              (fun f hf => hsub f (by simp [hf]))
            refine ⟨se2, vi2, ?_, ?_⟩
            · show (match refs2copies_fast fuel st x with
                | none => none
                | some (v, st') =>
                  refs2copiesFields (refs2copies_fast fuel) nid
                    { st' with heap :=
                      if isNodeVal (setField st'.heap nid key v) v then
                        setSpecFlag (setParentVal
                          (setField st'.heap nid key v) v (some nid)) v
                      else setField st'.heap nid key v } rest) =
                some ⟨st.heap, st.nextId, se2, vi2⟩
              rw [hrun1]
              show refs2copiesFields (refs2copies_fast fuel) nid
                { heap := _, nextId := st.nextId, seen := se1,
                  visited := vi1 } rest = _
              rw [hh2]
              exact hrun2
            · intro y
              rw [hse2 y]
              constructor
              · intro hc
                rcases hc with hc | hc
                · rcases (hse1 y).1 hc with hc | hc
                  · exact Or.inl hc
                  · exact Or.inr (List.mem_append_left _ hc)
                · exact Or.inr (List.mem_append_right _ hc)
              · intro hc
                rcases hc with hc | hc
                · exact Or.inl ((hse1 y).2 (Or.inl hc))
                · rcases List.mem_append.1 hc with hc | hc
                  · exact Or.inl ((hse1 y).2 (Or.inr hc))
                  · exact Or.inr hc

/-- The traversal on a no-aliasing, parent-correct input is a no-op:
it returns the value unchanged, allocates nothing, and leaves the heap
unchanged except for clearing the visited root's parent link. -/
theorem refs2copies_noAlias : ∀ (fuel : Nat) (st : St) (v : Value)
    (l : List Nat),
    KeysNodup st.heap → FieldKeysNodup st.heap →
    encTrav fuel st.heap v = some l → l.Nodup →
    (∀ x ∈ l, x ∉ st.seen) →
    parOK fuel st.heap v = some true →
    ∃ se vi, refs2copies_fast fuel st v =
      some (v, ⟨parentClearRoot st.heap v, st.nextId, se, vi⟩) ∧
      (∀ x, x ∈ se ↔ x ∈ st.seen ∨ x ∈ l) := by
  intro fuel
  induction fuel with
  | zero =>
    intro st v l _ _ he
    exact absurd he (by simp [encTrav])
  | succ fuel ih =>
    intro st v l hkeys hfkeys he hnd hdis hpar
    cases v with
    | scalar k =>
      simp only [encTrav] at he
      cases he
      exact ⟨st.seen, st.visited ++ [Value.scalar k], rfl, fun x => by simp⟩
    | ref i =>
      simp only [encTrav] at he
      cases hl : lookup st.heap i with
      | none =>
        simp only [hl] at he
        cases he
        have hnn : isNodeVal st.heap (.ref i) = false := by rw [isNodeVal, hl]
        have hm : i ∉ st.seen := hdis i (by simp)
        refine ⟨i :: st.seen, st.visited ++ [Value.ref i], ?_, fun x => by simp [Or.comm]⟩
        rw [refs2copies_visit_any_nonNode_unseen fuel st i hnn hm]
        simp [parentClearRoot, hnn]
      | some o =>
        cases o with
        | seq es =>
          simp only [hl] at he
          cases he
          have hnn : isNodeVal st.heap (.ref i) = false := by rw [isNodeVal, hl]
          have hm : i ∉ st.seen := hdis i (by simp)
          refine ⟨i :: st.seen, st.visited ++ [Value.ref i], ?_, fun x => by simp [Or.comm]⟩
          rw [refs2copies_visit_any_nonNode_unseen fuel st i hnn hm]
          simp [parentClearRoot, hnn]
        | box t =>
          simp only [hl] at he
          cases he
          have hnn : isNodeVal st.heap (.ref i) = false := by rw [isNodeVal, hl]
          have hm : i ∉ st.seen := hdis i (by simp)
          refine ⟨i :: st.seen, st.visited ++ [Value.ref i], ?_, fun x => by simp [Or.comm]⟩
          rw [refs2copies_visit_any_nonNode_unseen fuel st i hnn hm]
          simp [parentClearRoot, hnn]
        | node fs p b =>
          cases hel : encList (encTrav fuel st.heap) fs with
          | none =>
            simp only [hl, hel, Option.map_none'] at he
            exact Option.noConfusion he
          | some l' =>
            simp only [hl, hel, Option.map_some'] at he
            cases he
            simp only [parOK, hl] at hpar
            have hm : i ∉ st.seen := hdis i (by simp)
            have hndl : l'.Nodup := (List.nodup_cons.1 hnd).2
            have hinotl : i ∉ l' := (List.nodup_cons.1 hnd).1
            have hag : ∀ x ∈ l',
                lookup (setParent st.heap i none) x = lookup st.heap x := by
              intro x hx
              rw [setParent, lookup_mapAt,
                if_neg (fun e : i = x => hinotl (e ▸ hx))]
            have hkeys4 : KeysNodup (setParent st.heap i none) :=
              KeysNodup_mapAt hkeys i _
            have hfkeys4 : FieldKeysNodup (setParent st.heap i none) :=
              FieldKeysNodup_parent hfkeys i none
            have hel4 : encList (encTrav fuel (setParent st.heap i none)) fs =
                some l' :=
              encList_congr (encTrav fuel st.heap)
                (encTrav fuel (setParent st.heap i none))
                (fun x => lookup (setParent st.heap i none) x = lookup st.heap x)
                (fun w lw hw hp => encTrav_congr fuel st.heap _ w lw hw hp)
                fs l' hel hag
            have hpar4 : parOKFields (parOK fuel (setParent st.heap i none))
                (setParent st.heap i none) i fs = some true := by
              rw [parOKFields_congr fuel st.heap (setParent st.heap i none)
                (fun w lw hw ha => parOK_congr fuel st.heap _ w lw hw ha)
                i fs l' hel hag]
              exact hpar
            have hdis4 : ∀ x ∈ l', x ∉ i :: st.seen := by
              intro x hx hmem
              rcases List.mem_cons.1 hmem with hx2 | hx2
              · exact hinotl (hx2 ▸ hx)
              · exact hdis x (by simp [hx]) hx2
            have hlook4 : lookup (setParent st.heap i none) i =
                some (.node fs none b) := by
              rw [setParent, lookup_mapAt, if_pos rfl, hl]
              rfl
            obtain ⟨se, vi, hrun, hse⟩ := fieldsLoop_noAlias fuel ih fs
              ⟨setParent st.heap i none, st.nextId, i :: st.seen,
               st.visited ++ [.ref i]⟩ i l' fs none b hkeys4 hfkeys4 hel4
              hndl hdis4 hpar4 (by simp) hlook4 (fun f hf => hf)
            refine ⟨se, vi, ?_, ?_⟩
            · rw [refs2copies_visit_node_unseen fuel st i fs p b hl hm]
              rw [hrun]
              have hfin : setParent (setParent st.heap i none) i none =
                  parentClearRoot st.heap (.ref i) := by
                rw [setParent_setParent]
                simp [parentClearRoot, isNodeVal, hl]
              simp only [hfin]
            · intro y
              rw [hse y]
              constructor
              · intro hc
                rcases hc with hc | hc
                · rcases List.mem_cons.1 hc with hc | hc
                  · exact Or.inr (by simp [hc])
                  · exact Or.inl hc
                · exact Or.inr (by simp [hc])
              · intro hc
                rcases hc with hc | hc
                · exact Or.inl (by simp [hc])
                · rcases List.mem_cons.1 hc with hc | hc
                  · exact Or.inl (by simp [hc])
                  · exact Or.inr hc

theorem encList_append (rec : Value → Option (List Nat))
    (xs ys : List (String × Value)) :
    encList rec (xs ++ ys) =
      (match encList rec xs, encList rec ys with
       | some a, some b => some (a ++ b)
       | _, _ => none) := by
  induction xs with
  | nil =>
    simp only [List.nil_append, encList]
    cases encList rec ys <;> rfl
  | cons kx rest ih =>
    obtain ⟨k, x⟩ := kx
    simp only [List.cons_append, encList]
    cases hr : rec x <;> cases h1 : encList rec rest <;>
      cases h2 : encList rec ys <;> simp [ih, h1, h2, List.append_assoc]

theorem parOKFields_append_true_of (rec : Value → Option Bool) (h : HeapL)
    (nid : Nat) (ys : List (String × Value)) :
    ∀ xs : List (String × Value),
      parOKFields rec h nid (xs ++ ys) = some true →
      parOKFields rec h nid xs = some true ∧
      parOKFields rec h nid ys = some true := by
  intro xs
  induction xs with
  | nil => exact fun hy => ⟨rfl, hy⟩
  | cons kx rest ih =>
    obtain ⟨k, x⟩ := kx
    intro hy
    simp only [List.cons_append, parOKFields, List.append_eq] at hy ⊢
    cases hr : rec x with
    | none => rw [hr] at hy; exact Option.noConfusion hy
    | some b1 =>
      rw [hr] at hy
      cases h2 : parOKFields rec h nid (rest ++ ys) with
      | none => rw [h2] at hy; exact Option.noConfusion hy
      | some b2 =>
        rw [h2] at hy
        simp only [Option.some.injEq, Bool.and_eq_true] at hy
        obtain ⟨⟨hok, hb1⟩, hb2⟩ := hy
        obtain ⟨hx, hys⟩ := ih (h2.trans (by rw [hb2]))
        rw [hx]
        refine ⟨?_, hys⟩
        simp [hok, hb1]

theorem parOKFields_append_true_mk (rec : Value → Option Bool) (h : HeapL)
    (nid : Nat) (ys : List (String × Value)) :
    ∀ xs : List (String × Value),
      parOKFields rec h nid xs = some true →
      parOKFields rec h nid ys = some true →
      parOKFields rec h nid (xs ++ ys) = some true := by
  intro xs
  induction xs with
  | nil => exact fun _ hy => hy
  | cons kx rest ih =>
    obtain ⟨k, x⟩ := kx
    intro hx hy
    simp only [List.cons_append, parOKFields, List.append_eq] at hx ⊢
    cases hr : rec x with
    | none => rw [hr] at hx; exact Option.noConfusion hx
    | some b1 =>
      rw [hr] at hx
      cases h2 : parOKFields rec h nid rest with
      | none => rw [h2] at hx; exact Option.noConfusion hx
      | some b2 =>
        rw [h2] at hx
        simp only [Option.some.injEq, Bool.and_eq_true] at hx
        obtain ⟨⟨hok, hb1⟩, hb2⟩ := hx
        rw [ih (h2.trans (by rw [hb2])) hy]
        simp [hok, hb1]

theorem find?_split {fs : List (String × Value)} {key : String}
    {fv : String × Value}
    (hf : fs.find? (fun f => f.1 = key) = some fv) :
    ∃ pre post, fs = pre ++ fv :: post ∧ ∀ g ∈ pre, g.1 ≠ key := by
  induction fs with
  | nil => exact Option.noConfusion hf
  | cons f rest ih =>
    rw [List.find?_cons] at hf
    by_cases hfk : f.1 = key
    · simp only [hfk, decide_True] at hf
      cases hf
      exact ⟨[], rest, rfl, by simp⟩
    · simp only [hfk, decide_False] at hf
      obtain ⟨pre, post, hsplit, hpre⟩ := ih hf
      refine ⟨f :: pre, post, by rw [hsplit]; rfl, ?_⟩
      intro g hg
      rcases List.mem_cons.1 hg with hg | hg
      · exact hg ▸ hfk
      · exact hpre g hg

theorem map_update_split {pre post : List (String × Value)} {key : String}
    (w v : Value) (hpre : ∀ g ∈ pre, g.1 ≠ key)
    (hpost : ∀ g ∈ post, g.1 ≠ key) :
    (pre ++ (key, w) :: post).map
        (fun f => if f.1 = key then (key, v) else f) =
      pre ++ (key, v) :: post := by
  rw [List.map_append, List.map_cons]
  have h1 : pre.map (fun f => if f.1 = key then (key, v) else f) = pre := by
    have : ∀ g ∈ pre, (if g.1 = key then (key, v) else g) = g := by
      intro g hg
      rw [if_neg (hpre g hg)]
    rw [List.map_congr_left this]
    simp
  have h2 : post.map (fun f => if f.1 = key then (key, v) else f) = post := by
    have : ∀ g ∈ post, (if g.1 = key then (key, v) else g) = g := by
      intro g hg
      rw [if_neg (hpost g hg)]
    rw [List.map_congr_left this]
    simp
  rw [h1, h2, if_pos rfl]

theorem fieldSet_keys (fs : List (String × Value)) (key : String) (v : Value) :
    (fs.map (fun f => if f.1 = key then (key, v) else f)).map Prod.fst =
      fs.map Prod.fst := by
  rw [List.map_map]
  refine List.map_congr_left (fun f _ => ?_)
  by_cases hk : f.1 = key
  · simp [hk]
  · simp [hk]

theorem FieldKeysNodup_setField {h : HeapL} (hf : FieldKeysNodup h)
    (i : Nat) (key : String) (v : Value) :
    FieldKeysNodup (setField h i key v) := by
  intro j fs q b hl
  rw [setField, lookup_mapAt] at hl
  by_cases hij : i = j
  · rw [if_pos hij] at hl
    cases ho : lookup h j with
    | none => rw [ho] at hl; exact Option.noConfusion hl
    | some o =>
      rw [ho, Option.map_some'] at hl
      cases o with
      | node fs0 p0 b0 =>
        simp only [fieldSetFn, Option.some.injEq, Obj.node.injEq] at hl
        obtain ⟨h1, _, _⟩ := hl
        rw [← h1, fieldSet_keys]
        exact hf j fs0 p0 b0 ho
      | seq es => simp [fieldSetFn] at hl
      | box t => simp [fieldSetFn] at hl
  · rw [if_neg hij] at hl
    exact hf j fs q b hl

theorem FieldKeysNodup_append_nonNode {h : HeapL} (hf : FieldKeysNodup h)
    (e : Nat) (o : Obj) (hnn : isNodeObj o = false) :
    FieldKeysNodup (h ++ [(e, o)]) := by
  intro j fs q b hl
  rw [lookup_append] at hl
  cases ho : lookup h j with
  | some o2 =>
    rw [ho] at hl
    cases hl
    exact hf j fs q b ho
  | none =>
    rw [ho, Option.none_or, lookup_cons] at hl
    by_cases hej : e = j
    · rw [if_pos hej] at hl
      cases hl
      simp [isNodeObj] at hnn
    · rw [if_neg hej] at hl
      exact Option.noConfusion hl

theorem KeysNodup_append_single {h : HeapL} {n : Nat} (hk : KeysNodup h)
    (hwf : HeapWF h n) (o : Obj) : KeysNodup (h ++ [(n, o)]) := by
  rw [KeysNodup, List.map_append]
  rw [List.nodup_append]
  refine ⟨hk, by simp, ?_⟩
  intro x hx hx2
  simp only [List.map_cons, List.map_nil, List.mem_singleton] at hx2
  rcases List.mem_map.1 hx with ⟨p, hp, hpe⟩
  have := hwf p hp
  omega

theorem lookup_append_single_ne {h : HeapL} {e : Nat} {o : Obj} {x : Nat}
    (hx : x ≠ e) : lookup (h ++ [(e, o)]) x = lookup h x := by
  rw [lookup_append]
  cases hl : lookup h x with
  | some o2 => rfl
  | none =>
    rw [Option.none_or, lookup_cons, if_neg (fun he : e = x => hx he.symm)]
    rfl

theorem lookup_append_single_self {h : HeapL} {n : Nat} (hwf : HeapWF h n)
    (o : Obj) : lookup (h ++ [(n, o)]) n = some o := by
  rw [lookup_append, lookup_eq_none_of_ge hwf (le_refl n), Option.none_or,
    lookup_cons, if_pos rfl]

theorem lookup_lt_of_wf {h : HeapL} {n : Nat} (hwf : HeapWF h n) {i : Nat}
    {o : Obj} (hl : lookup h i = some o) : i < n := by
  rw [lookup] at hl
  cases hf : h.find? (fun p => p.1 = i) with
  | none => rw [hf] at hl; exact Option.noConfusion hl
  | some q =>
    have hmem := List.mem_of_find?_eq_some hf
    have hpred := List.find?_some hf
    simp only [decide_eq_true_eq] at hpred
    exact hpred ▸ hwf q hmem

/-- The working heap built by `process` before the traversal: a fresh
empty placeholder list at `sp.nextId` stands in for `spec.processors`. -/
def procH1 (sp : SpecPack) : HeapL :=
  setField (sp.heap ++ [(sp.nextId, Obj.seq [])]) sp.rootId "processors"
    (.ref sp.nextId)

/-- Check that an object's field keys are duplicate-free (decidably,
for concrete heaps). -/
def objFieldsNodup : Obj → Bool
  | .node fs _ _ => decide ((fs.map Prod.fst).Nodup)
  | _ => true

theorem FieldKeysNodup_of_all {h : HeapL}
    (hall : ∀ q ∈ h, objFieldsNodup q.2 = true) : FieldKeysNodup h := by
  intro i fs p b hl
  rw [lookup] at hl
  cases hf : h.find? (fun q => q.1 = i) with
  | none => rw [hf] at hl; exact Option.noConfusion hl
  | some q =>
    rw [hf, Option.map_some', Option.some.injEq] at hl
    have hq := hall q (List.mem_of_find?_eq_some hf)
    rw [hl] at hq
    simp only [objFieldsNodup, decide_eq_true_eq] at hq
    exact hq

/-- Core no-aliasing run lemma: on a specification whose tree contains
no aliased Node identity (the traversal meets every identity at most
once), whose parent links and `spec` back-references already satisfy
the invariant, and whose root is detached, `process` succeeds, its
output heap is exactly the working heap with the root parent cleared
and `processors` restored, and every pre-existing object is untouched.
The only residue is the empty placeholder list allocated for the
`processors` swap at the fresh identity `sp.nextId`. -/
theorem process_noAlias_core (fuel : Nat) (sp : SpecPack) (l : List Nat)
    (fs : List (String × Value)) (br : Bool) (p : Nat)
    (hwf : HeapWF sp.heap sp.nextId)
    (hkeys : KeysNodup sp.heap)
    (hfkeys : FieldKeysNodup sp.heap)
    (hroot : lookup sp.heap sp.rootId = some (.node fs none br))
    (he : encTrav fuel sp.heap (.ref sp.rootId) = some l)
    (hnd : l.Nodup)
    (hbound : ∀ x ∈ l, x < sp.nextId)
    (hpar : parOK fuel sp.heap (.ref sp.rootId) = some true)
    (hps : getField sp.heap sp.rootId "processors" = some (.ref p))
    (hpnn : isNodeVal sp.heap (.ref p) = false) :
    ∃ out, process fuel sp = some out ∧
      out.rootId = sp.rootId ∧
      out.nextId = sp.nextId + 1 ∧
      out.heap = setField (setParent (procH1 sp) sp.rootId none)
        sp.rootId "processors" (Value.ref p) ∧
      p ∈ l ∧
      ∀ i, i < sp.nextId → lookup out.heap i = lookup sp.heap i := by
  match fuel with
  | 0 => exact absurd he (by simp [encTrav])
  | f + 1 =>
    -- decompose the root's encounter list
    simp only [encTrav, hroot] at he
    cases hel : encList (encTrav f sp.heap) fs with
    | none =>
      rw [hel, Option.map_none'] at he
      exact Option.noConfusion he
    | some lRest =>
      rw [hel, Option.map_some'] at he
      cases he
      -- locate the processors entry
      have hfind : fs.find? (fun g => g.1 = "processors") =
          some ("processors", .ref p) := by
        simp only [getField, hroot] at hps
        cases hf : fs.find? (fun g => g.1 = "processors") with
        | none =>
          simp only [hf, Option.map_none'] at hps
          exact Option.noConfusion hps
        | some fv =>
          simp only [hf, Option.map_some', Option.some.injEq] at hps
          have hpred := List.find?_some hf
          simp only [decide_eq_true_eq] at hpred
          rw [show ("processors", Value.ref p) = (fv.1, fv.2) by
            rw [hpred, hps]]
      obtain ⟨pre, post, hsplit, hpre⟩ := find?_split hfind
      have hfsnd : (fs.map Prod.fst).Nodup :=
        hfkeys sp.rootId fs none br hroot
      have hpost : ∀ g ∈ post, g.1 ≠ "processors" := by
        intro g hg he2
        rw [hsplit, List.map_append, List.map_cons] at hfsnd
        have h2 := (List.nodup_append.1 hfsnd).2.1
        rw [List.nodup_cons] at h2
        have hgm : g.1 ∈ post.map Prod.fst := List.mem_map_of_mem Prod.fst hg
        exact h2.1 (he2 ▸ hgm)
      -- decompose the encounter list along the split
      rw [hsplit] at hel
      rw [encList_append] at hel
      cases hA : encList (encTrav f sp.heap) pre with
      | none => rw [hA] at hel; exact Option.noConfusion hel
      | some A =>
        rw [hA] at hel
        cases hPB : encList (encTrav f sp.heap)
            (("processors", Value.ref p) :: post) with
        | none => rw [hPB] at hel; exact Option.noConfusion hel
        | some PB =>
          rw [hPB] at hel
          simp only [Option.some.injEq] at hel
          simp only [encList] at hPB
          cases hP : encTrav f sp.heap (.ref p) with
          | none => rw [hP] at hPB; exact Option.noConfusion hPB
          | some lp =>
            cases hB : encList (encTrav f sp.heap) post with
            | none => rw [hP, hB] at hPB; exact Option.noConfusion hPB
            | some B =>
              rw [hP, hB] at hPB
              simp only [Option.some.injEq] at hPB
              -- the child fuel is positive
              obtain ⟨f', rfl⟩ : ∃ f', f = f' + 1 := by
                cases f with
                | zero => exact absurd hP (by simp [encTrav])
                | succ f' => exact ⟨f', rfl⟩
              have hlp : lp = [p] := by
                simp only [encTrav] at hP
                cases hlkp : lookup sp.heap p with
                | none =>
                  rw [hlkp] at hP
                  cases hP
                  rfl
                | some o =>
                  cases o with
                  | node fs2 p2 b2 =>
                    rw [isNodeVal, hlkp] at hpnn
                    exact Bool.noConfusion hpnn
                  | seq es =>
                    rw [hlkp] at hP
                    cases hP
                    rfl
                  | box t =>
                    rw [hlkp] at hP
                    cases hP
                    rfl
              -- from here: build the working heap and transfer the hypotheses
              subst hlp
              subst hPB
              subst hel
              have hrlt : sp.rootId < sp.nextId := lookup_lt_of_wf hwf hroot
              have hpl : p ∈ sp.rootId :: (A ++ ([p] ++ B)) :=
                List.mem_cons_of_mem _
                  (List.mem_append_right A
                    (List.mem_append_left B (List.mem_singleton_self p)))
              have hplt : p < sp.nextId := hbound p hpl
              have hlbase_root :
                  lookup (sp.heap ++ [(sp.nextId, Obj.seq [])]) sp.rootId =
                    some (.node fs none br) := by
                rw [lookup_append_single_ne (by omega), hroot]
              have hl1root : lookup (procH1 sp) sp.rootId =
                  some (Obj.node
                    (pre ++ ("processors", Value.ref sp.nextId) :: post)
                    none br) := by
                rw [procH1, setField, lookup_mapAt, if_pos rfl, hlbase_root,
                  Option.map_some']
                simp only [fieldSetFn]
                rw [hsplit,
                  map_update_split (Value.ref p) (Value.ref sp.nextId)
                    hpre hpost]
              have hl1e : lookup (procH1 sp) sp.nextId = some (Obj.seq []) := by
                rw [procH1, setField, lookup_mapAt, if_neg (by omega),
                  lookup_append_single_self hwf]
              have hl1other : ∀ x, x ≠ sp.rootId → x ≠ sp.nextId →
                  lookup (procH1 sp) x = lookup sp.heap x := by
                intro x hx1 hx2
                rw [procH1, setField, lookup_mapAt,
                  if_neg (fun he2 => hx1 he2.symm), lookup_append_single_ne hx2]
              have hkeys1 : KeysNodup (procH1 sp) := by
                rw [procH1, setField]
                exact KeysNodup_mapAt
                  (KeysNodup_append_single hkeys hwf (Obj.seq [])) _ _
              have hfkeys1 : FieldKeysNodup (procH1 sp) := by
                rw [procH1]
                exact FieldKeysNodup_setField
                  (FieldKeysNodup_append_nonNode hfkeys sp.nextId
                    (Obj.seq []) rfl) _ _ _
              -- heap agreement on the original encounter tail
              have hagP : ∀ x, x ∈ A ++ ([p] ++ B) →
                  lookup (procH1 sp) x = lookup sp.heap x := by
                intro x hx
                have hxr : x ≠ sp.rootId :=
                  fun he2 => (List.nodup_cons.1 hnd).1 (he2 ▸ hx)
                have hxe : x < sp.nextId :=
                  hbound x (List.mem_cons_of_mem _ hx)
                exact hl1other x hxr (by omega)
              have hagA : ∀ x ∈ A, lookup (procH1 sp) x = lookup sp.heap x :=
                fun x hx => hagP x (List.mem_append_left _ hx)
              have hagB : ∀ x ∈ B, lookup (procH1 sp) x = lookup sp.heap x :=
                fun x hx => hagP x
                  (List.mem_append_right A (List.mem_append_right [p] hx))
              -- encounter lists over the working heap
              have hrecE : ∀ (v : Value) (l2 : List Nat),
                  encTrav (f' + 1) sp.heap v = some l2 →
                  (∀ x ∈ l2, x ∈ A ++ ([p] ++ B)) →
                  encTrav (f' + 1) (procH1 sp) v = some l2 :=
                fun v l2 hv hP2 =>
                  encTrav_congr (f' + 1) sp.heap (procH1 sp) v l2 hv
                    (fun x hx => hagP x (hP2 x hx))
              have hA1 : encList (encTrav (f' + 1) (procH1 sp)) pre = some A :=
                encList_congr _ _ _ hrecE pre A hA
                  (fun x hx => List.mem_append_left _ hx)
              have hB1 : encList (encTrav (f' + 1) (procH1 sp)) post = some B :=
                encList_congr _ _ _ hrecE post B hB
                  (fun x hx =>
                    List.mem_append_right A (List.mem_append_right [p] hx))
              have hP1 : encTrav (f' + 1) (procH1 sp) (Value.ref sp.nextId) =
                  some [sp.nextId] := by
                simp only [encTrav, hl1e]
              have henc1 : encTrav (f' + 1 + 1) (procH1 sp)
                  (.ref sp.rootId) =
                  some (sp.rootId :: (A ++ ([sp.nextId] ++ B))) := by
                have hunf : encTrav (f' + 1 + 1) (procH1 sp)
                    (Value.ref sp.rootId) =
                    (match lookup (procH1 sp) sp.rootId with
                     | some (Obj.node fs2 _ _) =>
                       (encList (encTrav (f' + 1) (procH1 sp)) fs2).map
                         (fun l2 => sp.rootId :: l2)
                     | _ => some [sp.rootId]) := rfl
                rw [hunf]
                simp only [hl1root]
                rw [encList_append, hA1]
                simp only [encList, hP1, hB1, Option.map_some']
              -- the new encounter list is duplicate-free
              have htail := (List.nodup_cons.1 hnd).2
              have hrootnm := (List.nodup_cons.1 hnd).1
              rw [List.singleton_append] at htail hrootnm
              have htail2 := List.nodup_middle.1 htail
              have hABnd : (A ++ B).Nodup := (List.nodup_cons.1 htail2).2
              have henm : sp.nextId ∉ A ++ B := by
                intro hm
                have hlt : sp.nextId < sp.nextId := by
                  rcases List.mem_append.1 hm with hm | hm
                  · exact hbound _ (List.mem_cons_of_mem _
                      (List.mem_append_left _ hm))
                  · exact hbound _ (List.mem_cons_of_mem _
                      (List.mem_append_right A
                        (List.mem_append_right [p] hm)))
                omega
              have hnewtail : (A ++ ([sp.nextId] ++ B)).Nodup := by
                rw [List.singleton_append]
                exact List.nodup_middle.2 (List.nodup_cons.2 ⟨henm, hABnd⟩)
              have hrnm1 : sp.rootId ∉ A ++ ([sp.nextId] ++ B) := by
                rw [List.singleton_append]
                intro hm
                rcases List.mem_append.1 hm with hm | hm
                · exact hrootnm (List.mem_append_left _ hm)
                · rcases List.mem_cons.1 hm with hm | hm
                  · omega
                  · exact hrootnm
                      (List.mem_append_right _ (List.mem_cons_of_mem _ hm))
              have hnd1 : (sp.rootId :: (A ++ ([sp.nextId] ++ B))).Nodup :=
                List.nodup_cons.2 ⟨hrnm1, hnewtail⟩
              -- the parent invariant over the working heap
              have hparB : (match lookup sp.heap sp.rootId with
                  | some (Obj.node fs2 _ _) =>
                    parOKFields (parOK (f' + 1) sp.heap) sp.heap
                      sp.rootId fs2
                  | _ => some true) = some true := hpar
              simp only [hroot] at hparB
              rw [hsplit] at hparB
              obtain ⟨hparpre, hparmid0⟩ :=
                parOKFields_append_true_of _ _ _ _ pre hparB
              rw [← List.singleton_append] at hparmid0
              obtain ⟨hpdrop, hparpost⟩ :=
                parOKFields_append_true_of _ _ _ _
                  [("processors", Value.ref p)] hparmid0
              have hih : ∀ (v : Value) (l2 : List Nat),
                  encTrav (f' + 1) sp.heap v = some l2 →
                  (∀ x ∈ l2, lookup (procH1 sp) x = lookup sp.heap x) →
                  parOK (f' + 1) (procH1 sp) v = parOK (f' + 1) sp.heap v :=
                fun v l2 hv hag =>
                  parOK_congr (f' + 1) sp.heap (procH1 sp) v l2 hv hag
              have hparpre1 : parOKFields (parOK (f' + 1) (procH1 sp))
                  (procH1 sp) sp.rootId pre = some true :=
                (parOKFields_congr (f' + 1) sp.heap (procH1 sp) hih
                  sp.rootId pre A hA hagA).trans hparpre
              have hparpost1 : parOKFields (parOK (f' + 1) (procH1 sp))
                  (procH1 sp) sp.rootId post = some true :=
                (parOKFields_congr (f' + 1) sp.heap (procH1 sp) hih
                  sp.rootId post B hB hagB).trans hparpost
              have hpok1 : parOK (f' + 1) (procH1 sp)
                  (Value.ref sp.nextId) = some true := by
                simp only [parOK, hl1e]
              have hparmid1 : parOKFields (parOK (f' + 1) (procH1 sp))
                  (procH1 sp) sp.rootId
                  (("processors", Value.ref sp.nextId) :: post) = some true := by
                simp only [parOKFields, hl1e, hpok1, hparpost1]
                rfl
              have hpar1 : parOK (f' + 1 + 1) (procH1 sp)
                  (Value.ref sp.rootId) = some true := by
                have hunf2 : parOK (f' + 1 + 1) (procH1 sp)
                    (Value.ref sp.rootId) =
                    (match lookup (procH1 sp) sp.rootId with
                     | some (Obj.node fs2 _ _) =>
                       parOKFields (parOK (f' + 1) (procH1 sp)) (procH1 sp)
                         sp.rootId fs2
                     | _ => some true) := rfl
                rw [hunf2]
                simp only [hl1root]
                exact parOKFields_append_true_mk _ _ _
                  (("processors", Value.ref sp.nextId) :: post) pre
                  hparpre1 hparmid1
              -- run the traversal
              obtain ⟨se, vi, hrun, hse⟩ :=
                refs2copies_noAlias (f' + 1 + 1)
                  (St.mk (procH1 sp) (sp.nextId + 1) [] [])
                  (Value.ref sp.rootId)
                  (sp.rootId :: (A ++ ([sp.nextId] ++ B)))
                  hkeys1 hfkeys1 henc1 hnd1
                  (fun x _ hx => List.not_mem_nil x hx) hpar1
              have hinv : isNodeVal (procH1 sp) (.ref sp.rootId) = true := by
                simp only [isNodeVal, hl1root]
              have hpcr : parentClearRoot (procH1 sp) (.ref sp.rootId) =
                  setParent (procH1 sp) sp.rootId none := by
                simp only [parentClearRoot, hinv, if_true]
              refine ⟨SpecPack.mk
                (setField (setParent (procH1 sp) sp.rootId none)
                  sp.rootId "processors" (Value.ref p))
                (sp.nextId + 1) sp.rootId, ?_, rfl, rfl, rfl, hpl, ?_⟩
              · show (match getField sp.heap sp.rootId "processors" with
                  | none => none
                  | some ps =>
                    match refs2copies_fast (f' + 1 + 1)
                        (St.mk (procH1 sp) (sp.nextId + 1) [] [])
                        (Value.ref sp.rootId) with
                    | none => none
                    | some (_, st2) =>
                      some (SpecPack.mk
                        (setField st2.heap sp.rootId "processors" ps)
                        st2.nextId sp.rootId)) = _
                simp only [hps]
                simp only [hrun]
                rw [hpcr]
              · intro i hi
                by_cases hir : i = sp.rootId
                · subst hir
                  rw [setField, lookup_mapAt, if_pos rfl, setParent,
                    lookup_mapAt, if_pos rfl, hl1root]
                  simp only [Option.map_some', parentSetFn, fieldSetFn]
                  rw [map_update_split (Value.ref sp.nextId) (Value.ref p)
                    hpre hpost, ← hsplit, hroot]
                · rw [setField, lookup_mapAt,
                    if_neg (fun he2 => hir he2.symm), setParent, lookup_mapAt,
                    if_neg (fun he2 => hir he2.symm),
                    hl1other i hir (by omega)]

/-- C5: on a specification whose tree contains no aliased Node identity
(the traversal meets every identity at most once), whose parent links
and `spec` back-references already satisfy the invariant, and whose
root is detached, `process` succeeds and leaves every pre-existing
object exactly as it was — same fields, same `parent_node`, nothing
copied.  The only residue is the empty placeholder list allocated for
the `processors` swap at the fresh identity `sp.nextId`. -/
theorem process_noAlias (fuel : Nat) (sp : SpecPack) (l : List Nat)
    (fs : List (String × Value)) (br : Bool) (p : Nat)
    (hwf : HeapWF sp.heap sp.nextId)
    (hkeys : KeysNodup sp.heap)
    (hfkeys : FieldKeysNodup sp.heap)
    (hroot : lookup sp.heap sp.rootId = some (.node fs none br))
    (he : encTrav fuel sp.heap (.ref sp.rootId) = some l)
    (hnd : l.Nodup)
    (hbound : ∀ x ∈ l, x < sp.nextId)
    (hpar : parOK fuel sp.heap (.ref sp.rootId) = some true)
    (hps : getField sp.heap sp.rootId "processors" = some (.ref p))
    (hpnn : isNodeVal sp.heap (.ref p) = false) :
    ∃ out, process fuel sp = some out ∧
      out.rootId = sp.rootId ∧
      out.nextId = sp.nextId + 1 ∧
      ∀ i, i < sp.nextId → lookup out.heap i = lookup sp.heap i := by
  obtain ⟨out, h1, h2, h3, _, _, h6⟩ :=
    process_noAlias_core fuel sp l fs br p hwf hkeys hfkeys hroot he hnd
      hbound hpar hps hpnn
  exact ⟨out, h1, h2, h3, h6⟩

/-- A concrete no-aliasing specification: root 0 with a `processors`
list at 1 and one child node at 2, parent links and `spec` flags
already correct. -/
def c5Heap : HeapL :=
  [(0, .node [("processors", .ref 1), ("a", .ref 2)] none false),
   (1, .seq []),
   (2, .node [("v", .scalar 5)] (some 0) true)]

def c5Spec : SpecPack := ⟨c5Heap, 3, 0⟩

theorem process_noAlias_witness :
    ∃ out, process 3 c5Spec = some out ∧ out.rootId = c5Spec.rootId ∧
      out.nextId = c5Spec.nextId + 1 ∧
      ∀ i, i < c5Spec.nextId → lookup out.heap i = lookup c5Spec.heap i :=
  process_noAlias 3 c5Spec [0, 1, 2]
    [("processors", Value.ref 1), ("a", Value.ref 2)] false 1
    (by decide) (by rw [KeysNodup]; decide)
    (FieldKeysNodup_of_all (by decide)) rfl
    rfl (by decide) (by decide) rfl rfl rfl


/-- A specification whose first `process` run leaves an aliased Node
identity behind: node 2 sits both in the root field `a` and inside the
plain (non-Node) sequence at 3, which the traversal never enters. -/
def c6Heap : HeapL :=
  [(0, .node [("processors", .ref 1), ("a", .ref 2), ("s", .ref 3)] none false),
   (1, .seq []),
   (2, .node [("v", .scalar 7)] (some 0) true),
   (3, .seq [.ref 2])]

def c6Spec : SpecPack := ⟨c6Heap, 4, 0⟩

/-- The first run's output on `c6Spec`: every original entry untouched,
one orphaned placeholder list at 4. -/
def c6Out : SpecPack := ⟨c6Heap ++ [(4, .seq [])], 5, 0⟩

/-- C6, counterexample to the claim's justification: the output of the
first run is *not* free of aliased Node identities — node 2 remains
reachable both through the root field `a` and inside the non-Node
sequence at 3 (the traversal never descends into non-Node containers) —
although the second run still copies nothing: it returns every
pre-existing object unchanged and allocates only its own placeholder. -/
theorem process_output_alias_cex :
    process 5 c6Spec = some c6Out ∧
    getField c6Out.heap 0 "a" = some (.ref 2) ∧
    lookup c6Out.heap 3 = some (.seq [.ref 2]) ∧
    isNodeVal c6Out.heap (.ref 2) = true ∧
    process 5 c6Out = some ⟨c6Out.heap ++ [(5, .seq [])], 6, 0⟩ := by
  decide



/-! ## Agreement up to non-owning links, and bounded heaps -/

/-- Two objects agree up to the non-owning `parent_node` / `spec`
back-references: same kind and, for nodes, the same field list. -/
def objFieldsAgree : Obj → Obj → Prop
  | .node fs _ _, .node fs' _ _ => fs' = fs
  | o, o' => o' = o

/-- `objFieldsAgree` lifted to lookup results. -/
def optFA : Option Obj → Option Obj → Prop
  | some (.node fs _ _), some (.node fs' _ _) => fs' = fs
  | a, b => b = a

theorem optFA_refl (a : Option Obj) : optFA a a := by
  match a with
  | some (.node fs p b) => exact rfl
  | some (.seq es) => exact rfl
  | some (.box t) => exact rfl
  | none => exact rfl

theorem optFA_none {b : Option Obj} (h : optFA none b) : b = none := h

theorem optFA_node {fs : List (String × Value)} {p : Option Nat} {bb : Bool}
    {b : Option Obj} (h : optFA (some (.node fs p bb)) b) :
    ∃ p' b', b = some (.node fs p' b') := by
  cases b with
  | none => exact Option.noConfusion h
  | some o =>
    cases o with
    | node fs' p' b' =>
      have hf : fs' = fs := h
      exact ⟨p', b', by rw [hf]⟩
    | seq es => exact Obj.noConfusion (Option.some.inj h)
    | box t => exact Obj.noConfusion (Option.some.inj h)

theorem optFA_other {o : Obj} {b : Option Obj} (h : optFA (some o) b)
    (hnn : isNodeObj o = false) : b = some o := by
  cases o with
  | node fs p bb => simp [isNodeObj] at hnn
  | seq es => exact h
  | box t => exact h

theorem optFA_trans {a b c : Option Obj} (hab : optFA a b) (hbc : optFA b c) :
    optFA a c := by
  cases a with
  | none =>
    rw [optFA_none hab] at hbc
    exact hbc
  | some o =>
    cases o with
    | node fs p bb =>
      obtain ⟨p1, b1, hb⟩ := optFA_node hab
      subst hb
      obtain ⟨p2, b2, hc⟩ := optFA_node hbc
      subst hc
      exact rfl
    | seq es =>
      rw [optFA_other hab rfl] at hbc
      exact hbc
    | box t =>
      rw [optFA_other hab rfl] at hbc
      exact hbc

theorem isNodeVal_of_optFA {h h' : HeapL} {i : Nat}
    (ha : optFA (lookup h i) (lookup h' i)) :
    isNodeVal h' (.ref i) = isNodeVal h (.ref i) := by
  rw [isNodeVal, isNodeVal]
  cases hl : lookup h i with
  | none =>
    rw [hl] at ha
    rw [optFA_none ha]
  | some o =>
    rw [hl] at ha
    cases o with
    | node fs p b =>
      obtain ⟨p', b', hb⟩ := optFA_node ha
      rw [hb]
    | seq es => rw [optFA_other ha rfl]
    | box t => rw [optFA_other ha rfl]

/-- The encounter traversal reads only field lists, so it is invariant
under heap changes that keep every encountered object's fields. -/
theorem encTrav_congrFA : ∀ (fuel : Nat) (h h' : HeapL) (v : Value)
    (l : List Nat), encTrav fuel h v = some l →
    (∀ x ∈ l, optFA (lookup h x) (lookup h' x)) → encTrav fuel h' v = some l := by
  intro fuel
  induction fuel with
  | zero => intro h h' v l he; exact absurd he (by simp [encTrav])
  | succ fuel ih =>
    intro h h' v l he hag
    cases v with
    | scalar k => simpa [encTrav] using he
    | ref i =>
      simp only [encTrav] at he ⊢
      cases hl : lookup h i with
      | none =>
        simp only [hl] at he
        cases he
        have h2 := hag i (by simp)
        rw [hl] at h2
        rw [optFA_none h2]
      | some o =>
        simp only [hl] at he
        cases o with
        | node fs p b =>
          cases hel : encList (encTrav fuel h) fs with
          | none =>
            simp only [hel, Option.map_none'] at he
            exact Option.noConfusion he
          | some l' =>
            simp only [hel, Option.map_some'] at he
            cases he
            have h2 := hag i (by simp)
            rw [hl] at h2
            obtain ⟨p', b', hb⟩ := optFA_node h2
            have hel' : encList (encTrav fuel h') fs = some l' :=
              encList_congr (encTrav fuel h) (encTrav fuel h')
                (fun x => optFA (lookup h x) (lookup h' x))
                (fun v l hv hPl => ih h h' v l hv hPl) fs l' hel
                (fun y hy => hag y (by simp [hy]))
            simp [hb, hel']
        | seq es =>
          simp only [hl] at he
          cases he
          have h2 := hag i (by simp)
          rw [hl] at h2
          rw [optFA_other h2 rfl]
        | box t =>
          simp only [hl] at he
          cases he
          have h2 := hag i (by simp)
          rw [hl] at h2
          rw [optFA_other h2 rfl]

/-! ## Bounded heaps: every owning reference stays below `nextId`. -/

/-- All owning references of every object stay below `n` (Python
references always point at live objects, whose ids the model keeps
below `nextId`). -/
def HeapBounded (h : HeapL) (n : Nat) : Prop :=
  ∀ i o, lookup h i = some o → ∀ j ∈ refsOfObj o, j < n

/-- A value's reference (if any) stays below `n`. -/
def valBounded (n : Nat) : Value → Prop
  | .scalar _ => True
  | .ref i => i < n

theorem valBounded_mono {n m : Nat} (hnm : n ≤ m) {v : Value}
    (hv : valBounded n v) : valBounded m v := by
  cases v with
  | scalar k => trivial
  | ref i => exact lt_of_lt_of_le hv hnm

theorem HeapBounded_mono {h : HeapL} {n m : Nat} (hb : HeapBounded h n)
    (hnm : n ≤ m) : HeapBounded h m :=
  fun i o ho j hj => lt_of_lt_of_le (hb i o ho j hj) hnm

theorem refsOfObj_parentSetFn (p : Option Nat) (o : Obj) :
    refsOfObj (parentSetFn p o) = refsOfObj o := by
  cases o <;> rfl

theorem refsOfObj_specSetFn (o : Obj) :
    refsOfObj (specSetFn o) = refsOfObj o := by
  cases o <;> rfl

theorem HeapBounded_mapAt_keepRefs {h : HeapL} {n : Nat}
    (hb : HeapBounded h n) (i : Nat) (g : Obj → Obj)
    (hg : ∀ o, refsOfObj (g o) = refsOfObj o) :
    HeapBounded (mapAt h i g) n := by
  intro j o ho x hx
  rw [lookup_mapAt] at ho
  by_cases hij : i = j
  · rw [if_pos hij] at ho
    cases hl : lookup h j with
    | none => rw [hl] at ho; exact Option.noConfusion ho
    | some o0 =>
      rw [hl, Option.map_some', Option.some.injEq] at ho
      subst ho
      rw [hg o0] at hx
      exact hb j o0 hl x hx
  · rw [if_neg hij] at ho
    exact hb j o ho x hx

theorem mem_refsOfVals : ∀ (vs : List Value) (j : Nat),
    j ∈ refsOfVals vs ↔ .ref j ∈ vs := by
  intro vs
  induction vs with
  | nil => intro j; simp [refsOfVals]
  | cons v rest ih =>
    intro j
    cases v with
    | scalar k =>
      rw [show refsOfVals (Value.scalar k :: rest) = refsOfVals rest from rfl]
      simp [ih]
    | ref a =>
      rw [show refsOfVals (Value.ref a :: rest) = a :: refsOfVals rest from rfl]
      simp [ih, Value.ref.injEq, eq_comm]

theorem HeapBounded_setField {h : HeapL} {n : Nat} (hb : HeapBounded h n)
    (i : Nat) (key : String) {v : Value} (hv : valBounded n v) :
    HeapBounded (setField h i key v) n := by
  intro j o ho x hx
  rw [setField, lookup_mapAt] at ho
  by_cases hij : i = j
  · rw [if_pos hij] at ho
    cases hl : lookup h j with
    | none => rw [hl] at ho; exact Option.noConfusion ho
    | some o0 =>
      rw [hl, Option.map_some', Option.some.injEq] at ho
      subst ho
      cases o0 with
      | node fs p b =>
        rw [show refsOfObj (fieldSetFn key v (Obj.node fs p b)) =
          refsOfVals ((fs.map (fun f => if f.1 = key then (key, v) else f)).map
            (fun f => f.2)) from rfl, mem_refsOfVals] at hx
        rcases List.mem_map.1 hx with ⟨f2, hf2, he2⟩
        rcases List.mem_map.1 hf2 with ⟨f, hf, he⟩
        by_cases hk : f.1 = key
        · rw [if_pos hk] at he
          subst he
          have hvx : v = Value.ref x := he2
          rw [hvx] at hv
          exact hv
        · rw [if_neg hk] at he
          subst he
          refine hb j (Obj.node fs p b) hl x ?_
          rw [show refsOfObj (Obj.node fs p b) =
            refsOfVals (fs.map (fun f => f.2)) from rfl, mem_refsOfVals]
          rw [← he2]
          exact List.mem_map_of_mem _ hf
      | seq es => exact hb j (.seq es) hl x hx
      | box t => exact hb j (.box t) hl x hx
  · rw [if_neg hij] at ho
    exact hb j o ho x hx

theorem HeapBounded_setParentVal {h : HeapL} {n : Nat} (hb : HeapBounded h n)
    (v : Value) (p : Option Nat) : HeapBounded (setParentVal h v p) n := by
  cases v with
  | scalar k => exact hb
  | ref i => exact HeapBounded_mapAt_keepRefs hb i _ (refsOfObj_parentSetFn p)

theorem HeapBounded_setSpecFlag {h : HeapL} {n : Nat} (hb : HeapBounded h n)
    (v : Value) : HeapBounded (setSpecFlag h v) n := by
  cases v with
  | scalar k => exact hb
  | ref i => exact HeapBounded_mapAt_keepRefs hb i _ refsOfObj_specSetFn

theorem remapVal_ref {reach : List Nat} {base : Nat} {v : Value} {j : Nat}
    (h : remapVal reach base v = .ref j) :
    (∃ r ∈ reach, j = base + reach.indexOf r) ∨ v = .ref j := by
  cases v with
  | scalar k => exact absurd h (by simp [remapVal])
  | ref a =>
    simp only [remapVal] at h
    by_cases ha : a ∈ reach
    · rw [if_pos ha] at h
      exact Or.inl ⟨a, ha, (Value.ref.inj h).symm⟩
    · rw [if_neg ha] at h
      exact Or.inr h

theorem refsOfObj_remapObj {reach : List Nat} {base : Nat} {o : Obj} {j : Nat}
    (hj : j ∈ refsOfObj (remapObj reach base o)) :
    (∃ r ∈ reach, j = base + reach.indexOf r) ∨ j ∈ refsOfObj o := by
  cases o with
  | node fs p b =>
    rw [show refsOfObj (remapObj reach base (.node fs p b)) =
      refsOfVals ((fs.map (fun f => (f.1, remapVal reach base f.2))).map
        (fun f => f.2)) from rfl, mem_refsOfVals] at hj
    rcases List.mem_map.1 hj with ⟨f2, hf2, he2⟩
    rcases List.mem_map.1 hf2 with ⟨f, hf, he⟩
    subst he
    have h3 : remapVal reach base f.2 = .ref j := he2
    rcases remapVal_ref h3 with h4 | h4
    · exact Or.inl h4
    · refine Or.inr ?_
      rw [show refsOfObj (Obj.node fs p b) =
        refsOfVals (fs.map (fun f => f.2)) from rfl, mem_refsOfVals, ← h4]
      exact List.mem_map_of_mem _ hf
  | seq es =>
    rw [show refsOfObj (remapObj reach base (.seq es)) =
      refsOfVals (es.map (remapVal reach base)) from rfl, mem_refsOfVals] at hj
    rcases List.mem_map.1 hj with ⟨v, hv, he⟩
    rcases remapVal_ref he with h4 | h4
    · exact Or.inl h4
    · refine Or.inr ?_
      rw [show refsOfObj (Obj.seq es) = refsOfVals es from rfl,
        mem_refsOfVals, ← h4]
      exact hv
  | box t =>
    exact absurd hj (by simp [remapObj, refsOfObj, refsOfVals])

theorem allocList_keys_nodup (os : List Obj) (base : Nat) :
    ((allocList base os).map Prod.fst).Nodup := by
  induction os generalizing base with
  | nil => simp [allocList]
  | cons o os ih =>
    rw [allocList, List.map_cons, List.nodup_cons]
    refine ⟨?_, ih (base + 1)⟩
    intro hm
    rcases List.mem_map.1 hm with ⟨p, hp, he⟩
    have := allocList_mem_bounds os (base + 1) p hp
    omega

theorem KeysNodup_append_alloc {h : HeapL} {n : Nat} (hk : KeysNodup h)
    (hwf : HeapWF h n) (os : List Obj) : KeysNodup (h ++ allocList n os) := by
  rw [KeysNodup, List.map_append, List.nodup_append]
  refine ⟨hk, allocList_keys_nodup os n, ?_⟩
  intro x hx hx2
  rcases List.mem_map.1 hx with ⟨p, hp, he⟩
  rcases List.mem_map.1 hx2 with ⟨q, hq, he2⟩
  have h1 := hwf p hp
  have h2 := allocList_mem_bounds os n q hq
  omega

theorem lookup_mem {h : HeapL} {i : Nat} {o : Obj} (hl : lookup h i = some o) :
    (i, o) ∈ h := by
  rw [lookup] at hl
  cases hf : h.find? (fun p => p.1 = i) with
  | none => rw [hf] at hl; exact Option.noConfusion hl
  | some q =>
    rw [hf, Option.map_some', Option.some.injEq] at hl
    have hmem := List.mem_of_find?_eq_some hf
    have hpred := List.find?_some hf
    simp only [decide_eq_true_eq] at hpred
    have hq : q = (i, o) := by
      cases q
      simp only at hpred hl
      simp [hpred, hl]
    exact hq ▸ hmem

theorem allocList_mem_snd {os : List Obj} {base : Nat} {p : Nat × Obj}
    (hp : p ∈ allocList base os) : p.2 ∈ os := by
  induction os generalizing base with
  | nil => exact absurd hp (by simp [allocList])
  | cons o os ih =>
    rw [allocList, List.mem_cons] at hp
    rcases hp with rfl | hp
    · simp
    · exact List.mem_cons_of_mem _ (ih hp)

theorem FieldKeysNodup_append_alloc {h : HeapL} (hf : FieldKeysNodup h)
    (base : Nat) (os : List Obj)
    (hos : ∀ o ∈ os, ∀ fs p b, o = Obj.node fs p b → (fs.map Prod.fst).Nodup) :
    FieldKeysNodup (h ++ allocList base os) := by
  intro i fs p b hl
  rw [lookup_append] at hl
  cases ho : lookup h i with
  | some o2 =>
    rw [ho] at hl
    cases hl
    exact hf i fs p b ho
  | none =>
    rw [ho, Option.none_or] at hl
    have hm := allocList_mem_snd (lookup_mem hl)
    exact hos _ hm fs p b rfl

theorem HeapBounded_append_alloc {h : HeapL} {n m : Nat}
    (hb : HeapBounded h n) (hnm : n ≤ m) (base : Nat) (os : List Obj)
    (hos : ∀ o ∈ os, ∀ j ∈ refsOfObj o, j < m) :
    HeapBounded (h ++ allocList base os) m := by
  intro i o hl j hj
  rw [lookup_append] at hl
  cases ho : lookup h i with
  | some o2 =>
    rw [ho] at hl
    cases hl
    exact lt_of_lt_of_le (hb i o ho j hj) hnm
  | none =>
    rw [ho, Option.none_or] at hl
    exact hos _ (allocList_mem_snd (lookup_mem hl)) j hj

/-- `deepcopy` preserves key uniqueness, field-key uniqueness and
reference boundedness, with the state's bookkeeping as characterised in
`deepcopy_ref`. -/
theorem deepcopy_sane (st : St) (a : Nat)
    (hwf : HeapWF st.heap st.nextId) (hk : KeysNodup st.heap)
    (hf : FieldKeysNodup st.heap) (hb : HeapBounded st.heap st.nextId) :
    KeysNodup (deepcopyVal st (.ref a)).2.heap ∧
    FieldKeysNodup (deepcopyVal st (.ref a)).2.heap ∧
    HeapBounded (deepcopyVal st (.ref a)).2.heap
      (deepcopyVal st (.ref a)).2.nextId := by
  refine ⟨KeysNodup_append_alloc hk hwf _, ?_, ?_⟩
  · refine FieldKeysNodup_append_alloc hf _ _ ?_
    intro o ho fs p b he
    rcases List.mem_map.1 ho with ⟨r, hr, he2⟩
    subst he
    cases hlr : lookup st.heap r with
    | none =>
      rw [hlr] at he2
      exact absurd he2.symm (by simp [remapObj])
    | some o0 =>
      rw [hlr] at he2
      cases o0 with
      | node fs0 p0 b0 =>
        simp only [Option.getD_some, remapObj, Obj.node.injEq] at he2
        rw [← he2.1]
        have hkeys : (fs0.map (fun f =>
            (f.1, remapVal (reachSet st.heap [a]) st.nextId f.2))).map
            Prod.fst = fs0.map Prod.fst := by
          rw [List.map_map]
          exact List.map_congr_left (fun f _ => rfl)
        rw [hkeys]
        exact hf r fs0 p0 b0 hlr
      | seq es => exact absurd he2.symm (by simp [remapObj])
      | box t => exact absurd he2.symm (by simp [remapObj])
  · show HeapBounded (st.heap ++ allocList st.nextId _)
      (st.nextId + (reachSet st.heap [a]).length)
    refine HeapBounded_append_alloc hb (by omega) _ _ ?_
    intro o ho j hj
    rcases List.mem_map.1 ho with ⟨r, hr, he2⟩
    subst he2
    rcases refsOfObj_remapObj hj with ⟨r2, hr2, he3⟩ | h4
    · have := List.indexOf_lt_length.2 hr2
      omega
    · cases hlr : lookup st.heap r with
      | none =>
        rw [hlr] at h4
        exact absurd h4 (by simp [refsOfObj, refsOfVals])
      | some o0 =>
        rw [hlr] at h4
        have := hb r o0 hlr j h4
        omega

theorem KeysNodup_setParentVal {h : HeapL} (hk : KeysNodup h) (v : Value)
    (p : Option Nat) : KeysNodup (setParentVal h v p) := by
  cases v with
  | scalar k => exact hk
  | ref i => exact KeysNodup_mapAt hk i _

theorem KeysNodup_setSpecFlag {h : HeapL} (hk : KeysNodup h) (v : Value) :
    KeysNodup (setSpecFlag h v) := by
  cases v with
  | scalar k => exact hk
  | ref i => exact KeysNodup_mapAt hk i _

theorem KeysNodup_setField {h : HeapL} (hk : KeysNodup h) (i : Nat)
    (k : String) (v : Value) : KeysNodup (setField h i k v) :=
  KeysNodup_mapAt hk i _

theorem FieldKeysNodup_spec {h : HeapL} (hf : FieldKeysNodup h) (i : Nat) :
    FieldKeysNodup (mapAt h i specSetFn) := by
  intro j fs q b hl
  rw [lookup_mapAt] at hl
  by_cases hij : i = j
  · rw [if_pos hij] at hl
    cases ho : lookup h j with
    | none => rw [ho] at hl; exact Option.noConfusion hl
    | some o =>
      rw [ho, Option.map_some'] at hl
      cases o with
      | node fs0 p0 b0 =>
        simp only [specSetFn, Option.some.injEq, Obj.node.injEq] at hl
        obtain ⟨h1, _, _⟩ := hl
        exact h1 ▸ hf j fs0 p0 b0 ho
      | seq es => simp [specSetFn] at hl
      | box t => simp [specSetFn] at hl
  · rw [if_neg hij] at hl
    exact hf j fs q b hl

theorem FieldKeysNodup_setParentVal {h : HeapL} (hf : FieldKeysNodup h)
    (v : Value) (p : Option Nat) : FieldKeysNodup (setParentVal h v p) := by
  cases v with
  | scalar k => exact hf
  | ref i => exact FieldKeysNodup_parent hf i p

theorem FieldKeysNodup_setSpecFlag {h : HeapL} (hf : FieldKeysNodup h)
    (v : Value) : FieldKeysNodup (setSpecFlag h v) := by
  cases v with
  | scalar k => exact hf
  | ref i => exact FieldKeysNodup_spec hf i

/-- The sanity bundle threaded through the traversal: well-formed,
duplicate-free heap with bounded references and bounded `seen_ids`. -/
def SaneSt (st : St) : Prop :=
  HeapWF st.heap st.nextId ∧ KeysNodup st.heap ∧ FieldKeysNodup st.heap ∧
  HeapBounded st.heap st.nextId ∧ (∀ x ∈ st.seen, x < st.nextId)

theorem fieldVals_bounded {h : HeapL} {n : Nat} (hb : HeapBounded h n)
    {i : Nat} {fs : List (String × Value)} {p : Option Nat} {b : Bool}
    (hl : lookup h i = some (.node fs p b)) :
    ∀ f ∈ fs, valBounded n f.2 := by
  intro f hf
  cases hv : f.2 with
  | scalar k => trivial
  | ref j =>
    refine hb i _ hl j ?_
    rw [show refsOfObj (Obj.node fs p b) =
      refsOfVals (fs.map (fun f => f.2)) from rfl, mem_refsOfVals, ← hv]
    exact List.mem_map_of_mem _ hf

/-- The in-loop write (`n[i] = v` plus the conditional parent/spec
assignment) preserves the sanity bundle. -/
theorem SaneSt_fieldWrite (stA : St) (nid : Nat) (k : String) (v : Value)
    (hs : SaneSt stA) (hv : valBounded stA.nextId v) :
    SaneSt { stA with heap :=
      (if isNodeVal (setField stA.heap nid k v) v then
        setSpecFlag (setParentVal (setField stA.heap nid k v) v (some nid)) v
      else setField stA.heap nid k v) } := by
  obtain ⟨hwf, hk, hf, hb, hsb⟩ := hs
  by_cases hc : isNodeVal (setField stA.heap nid k v) v = true
  · rw [if_pos hc]
    exact ⟨HeapWF_setSpecFlag (HeapWF_setParentVal
        (HeapWF_setField hwf _ _ _) _ _) _,
      KeysNodup_setSpecFlag (KeysNodup_setParentVal
        (KeysNodup_setField hk _ _ _) _ _) _,
      FieldKeysNodup_setSpecFlag (FieldKeysNodup_setParentVal
        (FieldKeysNodup_setField hf _ _ _) _ _) _,
      HeapBounded_setSpecFlag (HeapBounded_setParentVal
        (HeapBounded_setField hb _ _ hv) _ _) _,
      hsb⟩
  · rw [if_neg hc]
    exact ⟨HeapWF_setField hwf _ _ _, KeysNodup_setField hk _ _ _,
      FieldKeysNodup_setField hf _ _ _, HeapBounded_setField hb _ _ hv, hsb⟩

/-- The field loop preserves the sanity bundle. -/
theorem fields_sane (recv : St → Value → Option (Value × St))
    (hrec : ∀ st v res, recv st v = some res → SaneSt st →
      valBounded st.nextId v → SaneSt res.2 ∧ valBounded res.2.nextId res.1)
    (hmono : ∀ st v res, recv st v = some res → st.nextId ≤ res.2.nextId)
    (nid : Nat) :
    ∀ (fs : List (String × Value)) (st st' : St),
      refs2copiesFields recv nid st fs = some st' → SaneSt st →
      (∀ f ∈ fs, valBounded st.nextId f.2) → SaneSt st' := by
  intro fs
  induction fs with
  | nil =>
    intro st st' heq hs _
    rw [show refs2copiesFields recv nid st [] = some st from rfl] at heq
    cases heq
    exact hs
  | cons kx rest ih =>
    intro st st' heq hs hfv
    obtain ⟨k, x⟩ := kx
    rw [show refs2copiesFields recv nid st ((k, x) :: rest) =
      (match recv st x with
       | none => none
       | some (v, stA) =>
         refs2copiesFields recv nid
           { stA with heap :=
              if isNodeVal (setField stA.heap nid k v) v then
                setSpecFlag (setParentVal (setField stA.heap nid k v) v (some nid)) v
              else setField stA.heap nid k v } rest) from rfl] at heq
    cases hr : recv st x with
    | none => rw [hr] at heq; cases heq
    | some res =>
      obtain ⟨v, stA⟩ := res
      rw [hr] at heq
      obtain ⟨hsA, hvA⟩ := hrec st x (v, stA) hr hs
        (hfv (k, x) (List.mem_cons_self _ _))
      have hm := hmono st x (v, stA) hr
      refine ih _ _ heq (SaneSt_fieldWrite stA nid k v hsA hvA) ?_
      intro f hf
      exact valBounded_mono hm (hfv f (List.mem_cons_of_mem _ hf))

/-- The traversal preserves the sanity bundle and returns a bounded
value. -/
theorem refs2copies_sane : ∀ (fuel : Nat) (st : St) (v : Value)
    (res : Value × St), refs2copies_fast fuel st v = some res →
    SaneSt st → valBounded st.nextId v →
    SaneSt res.2 ∧ valBounded res.2.nextId res.1 := by
  intro fuel
  induction fuel with
  | zero =>
    intro st v res heq
    exact absurd heq (by simp [refs2copies_fast])
  | succ fuel ih =>
    intro st v res heq hs hv
    cases v with
    | scalar k =>
      rw [show refs2copies_fast (fuel+1) st (.scalar k) =
        some (.scalar k, { st with visited := st.visited ++ [Value.scalar k] })
        from rfl] at heq
      cases heq
      exact ⟨hs, trivial⟩
    | ref i =>
      obtain ⟨hwf, hk, hf, hb, hsb⟩ := hs
      simp only [refs2copies_fast] at heq
      by_cases hn : isNodeVal st.heap (.ref i) = true
      all_goals
        simp only [hn, Bool.false_eq_true, if_true, if_false, idSeen,
          idAdd, setParentVal] at heq
      case pos =>
        by_cases hm : i ∈ st.seen
        all_goals simp only [hm, decide_True, decide_False,
          Bool.false_eq_true, if_true, if_false, idAdd] at heq
        case pos =>
          cases hD : deepcopyVal ⟨setParent st.heap i none, st.nextId,
              st.seen, st.visited ++ [Value.ref i]⟩ (.ref i) with
          | mk v1 stC =>
            rw [hD] at heq
            have hs2 : SaneSt ⟨setParent st.heap i none, st.nextId,
                st.seen, st.visited ++ [Value.ref i]⟩ :=
              ⟨HeapWF_setParent hwf _ _, KeysNodup_mapAt hk _ _,
               FieldKeysNodup_parent hf _ _,
               HeapBounded_mapAt_keepRefs hb _ _ (refsOfObj_parentSetFn none),
               hsb⟩
            obtain ⟨hwf2, hk2, hf2, hb2, hsb2⟩ := hs2
            have hDs := deepcopy_sane ⟨setParent st.heap i none, st.nextId,
              st.seen, st.visited ++ [Value.ref i]⟩ i hwf2 hk2 hf2 hb2
            rw [hD] at hDs
            have hDr := deepcopy_ref ⟨setParent st.heap i none, st.nextId,
              st.seen, st.visited ++ [Value.ref i]⟩ i hwf2
            rw [hD] at hDr
            have hv1 : v1 = .ref (st.nextId +
                (reachSet (setParent st.heap i none) [i]).indexOf i) := hDr.1
            have hnid : stC.nextId = st.nextId +
                (reachSet (setParent st.heap i none) [i]).length :=
              hDr.2.2.2.2.1
            have hseenC : stC.seen = st.seen := hDr.2.2.2.2.2.1
            have hwfC : HeapWF stC.heap stC.nextId := hDr.2.2.2.2.2.2.2
            have hkC : KeysNodup stC.heap := hDs.1
            have hfC : FieldKeysNodup stC.heap := hDs.2.1
            have hbC : HeapBounded stC.heap stC.nextId := hDs.2.2
            have hsC : SaneSt stC := by
              refine ⟨hwfC, hkC, hfC, hbC, ?_⟩
              rw [hseenC]
              intro x hx
              have h9 : x < st.nextId := hsb2 x hx
              rw [hnid]
              omega
            have hmemA : i ∈ reachSet (setParent st.heap i none) [i] :=
              mem_reachSet_self _ _ (by simp)
            have hidxA := List.indexOf_lt_length.2 hmemA
            have hv1b : valBounded stC.nextId v1 := by
              rw [hv1]
              show st.nextId + _ < stC.nextId
              rw [hnid]
              omega
            cases v1 with
            | scalar k =>
              simp only at heq
              cases heq
              refine ⟨⟨hsC.1, hsC.2.1, hsC.2.2.1, hsC.2.2.2.1, hsC.2.2.2.2⟩,
                trivial⟩
            | ref c =>
              simp only at heq
              have hcb : c < stC.nextId := hv1b
              cases hlk : lookup stC.heap c with
              | none =>
                simp only [hlk] at heq
                cases heq
                refine ⟨⟨hsC.1, hsC.2.1, hsC.2.2.1, hsC.2.2.2.1, ?_⟩, hcb⟩
                intro x hx
                rcases List.mem_cons.1 hx with rfl | hx
                · exact hcb
                · exact hsC.2.2.2.2 x hx
              | some o =>
                simp only [hlk] at heq
                cases o with
                | node fs p b =>
                  cases hloop : refs2copiesFields (refs2copies_fast fuel) c
                      ⟨stC.heap, stC.nextId, c :: stC.seen, stC.visited⟩ fs with
                  | none =>
                    simp only [hloop] at heq
                    exact Option.noConfusion heq
                  | some st5 =>
                    simp only [hloop] at heq
                    cases heq
                    have hs4 : SaneSt ⟨stC.heap, stC.nextId, c :: stC.seen,
                        stC.visited⟩ := by
                      refine ⟨hsC.1, hsC.2.1, hsC.2.2.1, hsC.2.2.2.1, ?_⟩
                      intro x hx
                      rcases List.mem_cons.1 hx with rfl | hx
                      · exact hcb
                      · exact hsC.2.2.2.2 x hx
                    have hs5 := fields_sane (refs2copies_fast fuel)
                      (fun s v r hq hsx hvx => ih s v r hq hsx hvx)
                      (fun s v r hq => (refs2copies_stepOK fuel s v r hq).2.1)
                      c fs _ _ hloop hs4
                      (fieldVals_bounded hsC.2.2.2.1 hlk)
                    have hle5 := (fields_stepOK (refs2copies_fast fuel)
                      (fun s v r hq => refs2copies_stepOK fuel s v r hq)
                      c fs _ _ hloop).2.1
                    obtain ⟨hwf5, hk5, hf5, hb5, hsb5⟩ := hs5
                    refine ⟨⟨HeapWF_setParent hwf5 _ _, KeysNodup_mapAt hk5 _ _,
                      FieldKeysNodup_parent hf5 _ _,
                      HeapBounded_mapAt_keepRefs hb5 _ _
                        (refsOfObj_parentSetFn none), hsb5⟩, ?_⟩
                    show c < st5.nextId
                    exact lt_of_lt_of_le hcb hle5
                | seq es =>
                  cases heq
                  refine ⟨⟨hsC.1, hsC.2.1, hsC.2.2.1, hsC.2.2.2.1, ?_⟩, hcb⟩
                  intro x hx
                  rcases List.mem_cons.1 hx with rfl | hx
                  · exact hcb
                  · exact hsC.2.2.2.2 x hx
                | box t =>
                  cases heq
                  refine ⟨⟨hsC.1, hsC.2.1, hsC.2.2.1, hsC.2.2.2.1, ?_⟩, hcb⟩
                  intro x hx
                  rcases List.mem_cons.1 hx with rfl | hx
                  · exact hcb
                  · exact hsC.2.2.2.2 x hx
        case neg =>
          have hs2 : SaneSt ⟨setParent st.heap i none, st.nextId,
              i :: st.seen, st.visited ++ [Value.ref i]⟩ :=
            ⟨HeapWF_setParent hwf _ _, KeysNodup_mapAt hk _ _,
             FieldKeysNodup_parent hf _ _,
             HeapBounded_mapAt_keepRefs hb _ _ (refsOfObj_parentSetFn none),
             by
               intro x hx
               rcases List.mem_cons.1 hx with rfl | hx
               · exact hv
               · exact hsb x hx⟩
          cases hlk : lookup (setParent st.heap i none) i with
          | none =>
            simp only [hlk] at heq
            cases heq
            exact ⟨hs2, hv⟩
          | some o =>
            simp only [hlk] at heq
            cases o with
            | node fs p b =>
              cases hloop : refs2copiesFields (refs2copies_fast fuel) i
                  ⟨setParent st.heap i none, st.nextId, i :: st.seen,
                   st.visited ++ [Value.ref i]⟩ fs with
              | none =>
                simp only [hloop] at heq
                exact Option.noConfusion heq
              | some st5 =>
                simp only [hloop] at heq
                cases heq
                have hs5 := fields_sane (refs2copies_fast fuel)
                  (fun s v r hq hsx hvx => ih s v r hq hsx hvx)
                  (fun s v r hq => (refs2copies_stepOK fuel s v r hq).2.1)
                  i fs _ _ hloop hs2
                  (fieldVals_bounded hs2.2.2.2.1 hlk)
                have hle5 := (fields_stepOK (refs2copies_fast fuel)
                  (fun s v r hq => refs2copies_stepOK fuel s v r hq)
                  i fs _ _ hloop).2.1
                obtain ⟨hwf5, hk5, hf5, hb5, hsb5⟩ := hs5
                refine ⟨⟨HeapWF_setParent hwf5 _ _, KeysNodup_mapAt hk5 _ _,
                  FieldKeysNodup_parent hf5 _ _,
                  HeapBounded_mapAt_keepRefs hb5 _ _
                    (refsOfObj_parentSetFn none), hsb5⟩, ?_⟩
              
                show i < st5.nextId
                exact lt_of_lt_of_le hv hle5
            | seq es =>
              cases heq
              exact ⟨hs2, hv⟩
            | box t =>
              cases heq
              exact ⟨hs2, hv⟩
      case neg =>
        by_cases hm : i ∈ st.seen
        all_goals simp only [hm, decide_True, decide_False,
          Bool.false_eq_true, if_true, if_false, idAdd] at heq
        case pos =>
          cases hD : deepcopyVal ⟨st.heap, st.nextId,
              st.seen, st.visited ++ [Value.ref i]⟩ (.ref i) with
          | mk v1 stC =>
            rw [hD] at heq
            have hDs := deepcopy_sane ⟨st.heap, st.nextId,
              st.seen, st.visited ++ [Value.ref i]⟩ i hwf hk hf hb
            rw [hD] at hDs
            have hDr := deepcopy_ref ⟨st.heap, st.nextId,
              st.seen, st.visited ++ [Value.ref i]⟩ i hwf
            rw [hD] at hDr
            have hv1 : v1 = .ref (st.nextId +
                (reachSet st.heap [i]).indexOf i) := hDr.1
            have hnid : stC.nextId = st.nextId +
                (reachSet st.heap [i]).length := hDr.2.2.2.2.1
            have hseenC : stC.seen = st.seen := hDr.2.2.2.2.2.1
            have hwfC : HeapWF stC.heap stC.nextId := hDr.2.2.2.2.2.2.2
            have hkC : KeysNodup stC.heap := hDs.1
            have hfC : FieldKeysNodup stC.heap := hDs.2.1
            have hbC : HeapBounded stC.heap stC.nextId := hDs.2.2
            have hsC : SaneSt stC := by
              refine ⟨hwfC, hkC, hfC, hbC, ?_⟩
              rw [hseenC]
              intro x hx
              have h9 : x < st.nextId := hsb x hx
              rw [hnid]
              omega
            have hmemA : i ∈ reachSet st.heap [i] :=
              mem_reachSet_self _ _ (by simp)
            have hidxA := List.indexOf_lt_length.2 hmemA
            have hv1b : valBounded stC.nextId v1 := by
              rw [hv1]
              show st.nextId + _ < stC.nextId
              rw [hnid]
              omega
            cases v1 with
            | scalar k =>
              simp only at heq
              cases heq
              exact ⟨hsC, trivial⟩
            | ref c =>
              simp only at heq
              have hcb : c < stC.nextId := hv1b
              cases hlk : lookup stC.heap c with
              | none =>
                simp only [hlk] at heq
                cases heq
                refine ⟨⟨hsC.1, hsC.2.1, hsC.2.2.1, hsC.2.2.2.1, ?_⟩, hcb⟩
                intro x hx
                rcases List.mem_cons.1 hx with rfl | hx
                · exact hcb
                · exact hsC.2.2.2.2 x hx
              | some o =>
                simp only [hlk] at heq
                cases o with
                | node fs p b =>
                  cases hloop : refs2copiesFields (refs2copies_fast fuel) c
                      ⟨stC.heap, stC.nextId, c :: stC.seen, stC.visited⟩ fs with
                  | none =>
                    simp only [hloop] at heq
                    exact Option.noConfusion heq
                  | some st5 =>
                    simp only [hloop] at heq
                    cases heq
                    have hs4 : SaneSt ⟨stC.heap, stC.nextId, c :: stC.seen,
                        stC.visited⟩ := by
                      refine ⟨hsC.1, hsC.2.1, hsC.2.2.1, hsC.2.2.2.1, ?_⟩
                      intro x hx
                      rcases List.mem_cons.1 hx with rfl | hx
                      · exact hcb
                      · exact hsC.2.2.2.2 x hx
                    have hs5 := fields_sane (refs2copies_fast fuel)
                      (fun s v r hq hsx hvx => ih s v r hq hsx hvx)
                      (fun s v r hq => (refs2copies_stepOK fuel s v r hq).2.1)
                      c fs _ _ hloop hs4
                      (fieldVals_bounded hsC.2.2.2.1 hlk)
                    have hle5 := (fields_stepOK (refs2copies_fast fuel)
                      (fun s v r hq => refs2copies_stepOK fuel s v r hq)
                      c fs _ _ hloop).2.1
                    obtain ⟨hwf5, hk5, hf5, hb5, hsb5⟩ := hs5
                    refine ⟨⟨HeapWF_setParent hwf5 _ _, KeysNodup_mapAt hk5 _ _,
                      FieldKeysNodup_parent hf5 _ _,
                      HeapBounded_mapAt_keepRefs hb5 _ _
                        (refsOfObj_parentSetFn none), hsb5⟩, ?_⟩
                    show c < st5.nextId
                    exact lt_of_lt_of_le hcb hle5
                | seq es =>
                  cases heq
                  refine ⟨⟨hsC.1, hsC.2.1, hsC.2.2.1, hsC.2.2.2.1, ?_⟩, hcb⟩
                  intro x hx
                  rcases List.mem_cons.1 hx with rfl | hx
                  · exact hcb
                  · exact hsC.2.2.2.2 x hx
                | box t =>
                  cases heq
                  refine ⟨⟨hsC.1, hsC.2.1, hsC.2.2.1, hsC.2.2.2.1, ?_⟩, hcb⟩
                  intro x hx
                  rcases List.mem_cons.1 hx with rfl | hx
                  · exact hcb
                  · exact hsC.2.2.2.2 x hx
        case neg =>
          have hs2 : SaneSt ⟨st.heap, st.nextId, i :: st.seen,
              st.visited ++ [Value.ref i]⟩ :=
            ⟨hwf, hk, hf, hb, by
              intro x hx
              rcases List.mem_cons.1 hx with rfl | hx
              · exact hv
              · exact hsb x hx⟩
          cases hlk : lookup st.heap i with
          | none =>
            simp only [hlk] at heq
            cases heq
            exact ⟨hs2, hv⟩
          | some o =>
            simp only [hlk] at heq
            cases o with
            | node fs p b =>
              cases hloop : refs2copiesFields (refs2copies_fast fuel) i
                  ⟨st.heap, st.nextId, i :: st.seen,
                   st.visited ++ [Value.ref i]⟩ fs with
              | none =>
                simp only [hloop] at heq
                exact Option.noConfusion heq
              | some st5 =>
                simp only [hloop] at heq
                cases heq
                have hs5 := fields_sane (refs2copies_fast fuel)
                  (fun s v r hq hsx hvx => ih s v r hq hsx hvx)
                  (fun s v r hq => (refs2copies_stepOK fuel s v r hq).2.1)
                  i fs _ _ hloop hs2
                  (fieldVals_bounded hs2.2.2.2.1 hlk)
                have hle5 := (fields_stepOK (refs2copies_fast fuel)
                  (fun s v r hq => refs2copies_stepOK fuel s v r hq)
                  i fs _ _ hloop).2.1
                obtain ⟨hwf5, hk5, hf5, hb5, hsb5⟩ := hs5
                refine ⟨⟨HeapWF_setParent hwf5 _ _, KeysNodup_mapAt hk5 _ _,
                  FieldKeysNodup_parent hf5 _ _,
                  HeapBounded_mapAt_keepRefs hb5 _ _
                    (refsOfObj_parentSetFn none), hsb5⟩, ?_⟩
                show i < st5.nextId
                exact lt_of_lt_of_le hv hle5
            | seq es =>
              cases heq
              exact ⟨hs2, hv⟩
            | box t =>
              cases heq
              exact ⟨hs2, hv⟩

theorem optFA_parentSet (h : HeapL) (i : Nat) (p : Option Nat) (j : Nat) :
    optFA (lookup h j) (lookup (mapAt h i (parentSetFn p)) j) := by
  rw [lookup_mapAt]
  by_cases hij : i = j
  · rw [if_pos hij]
    cases hl : lookup h j with
    | none => exact rfl
    | some o =>
      rw [Option.map_some']
      cases o with
      | node fs q b => exact rfl
      | seq es => exact rfl
      | box t => exact rfl
  · rw [if_neg hij]
    exact optFA_refl _

theorem optFA_specSet (h : HeapL) (i : Nat) (j : Nat) :
    optFA (lookup h j) (lookup (mapAt h i specSetFn) j) := by
  rw [lookup_mapAt]
  by_cases hij : i = j
  · rw [if_pos hij]
    cases hl : lookup h j with
    | none => exact rfl
    | some o =>
      rw [Option.map_some']
      cases o with
      | node fs q b => exact rfl
      | seq es => exact rfl
      | box t => exact rfl
  · rw [if_neg hij]
    exact optFA_refl _

theorem optFA_setParentVal (h : HeapL) (v : Value) (p : Option Nat) (j : Nat) :
    optFA (lookup h j) (lookup (setParentVal h v p) j) := by
  cases v with
  | scalar k => exact optFA_refl _
  | ref i => exact optFA_parentSet h i p j

theorem optFA_setSpecFlag (h : HeapL) (v : Value) (j : Nat) :
    optFA (lookup h j) (lookup (setSpecFlag h v) j) := by
  cases v with
  | scalar k => exact optFA_refl _
  | ref i => exact optFA_specSet h i j

theorem lookup_setField_ne (h : HeapL) {i j : Nat} (hij : i ≠ j)
    (k : String) (v : Value) : lookup (setField h i k v) j = lookup h j := by
  rw [setField, lookup_mapAt, if_neg hij]

theorem lookup_append_alloc_lt {j base : Nat} (h : HeapL) (os : List Obj)
    (hj : j < base) : lookup (h ++ allocList base os) j = lookup h j := by
  rw [lookup_append]
  cases hl : lookup h j with
  | some o => rfl
  | none => rw [Option.none_or, lookup_allocList_none hj]

/-- Keys on both sides of a split entry differ from the entry's key
when the whole key list is duplicate-free. -/
theorem keys_split_ne {done rest : List (String × Value)} {key : String}
    {x : Value}
    (hnd : ((done ++ (key, x) :: rest).map Prod.fst).Nodup) :
    (∀ g ∈ done, g.1 ≠ key) ∧ (∀ g ∈ rest, g.1 ≠ key) := by
  rw [List.map_append, List.map_cons] at hnd
  rw [List.nodup_append] at hnd
  obtain ⟨h1, h2, h3⟩ := hnd
  rw [List.nodup_cons] at h2
  constructor
  · intro g hg he
    refine h3 (List.mem_map_of_mem _ hg) ?_
    rw [he]
    exact List.mem_cons_self _ _
  · intro g hg he
    exact h2.1 (List.mem_map.2 ⟨g, hg, he⟩)

/-- Core post-conditions of the field loop: the processed entries' new
values carry the original keys, their encounter lists concatenate to
exactly the identities newly added to `seen_ids` (each met once, all
fresh), every identity off that list other than the container keeps its
kind and fields, and the container's fields become the rewritten tail. -/
theorem fields_post (fuel : Nat)
    (ihmain : ∀ (st : St) (v : Value) (res : Value × St),
      refs2copies_fast fuel st v = some res → SaneSt st →
      valBounded st.nextId v →
      ∃ l, encTrav fuel res.2.heap res.1 = some l ∧ l.Nodup ∧
        (∀ x ∈ l, x ∉ st.seen) ∧
        (∀ x, x ∈ res.2.seen ↔ x ∈ st.seen ∨ x ∈ l) ∧
        (∀ x ∈ l, x < res.2.nextId) ∧
        (∀ j, j ∉ l → j < st.nextId →
          optFA (lookup st.heap j) (lookup res.2.heap j)))
    (nid : Nat) :
    ∀ (fs : List (String × Value)) (st st' : St),
      refs2copiesFields (refs2copies_fast fuel) nid st fs = some st' →
      SaneSt st →
      (∀ f ∈ fs, valBounded st.nextId f.2) →
      nid ∈ st.seen →
      ∃ lcat fsN,
        st.nextId ≤ st'.nextId ∧
        (∀ x, x ∈ st'.seen ↔ x ∈ st.seen ∨ x ∈ lcat) ∧
        lcat.Nodup ∧
        (∀ x ∈ lcat, x ∉ st.seen) ∧
        (∀ x ∈ lcat, x < st'.nextId) ∧
        fsN.map Prod.fst = fs.map Prod.fst ∧
        encList (encTrav fuel st'.heap) fsN = some lcat ∧
        (∀ j, j ∉ lcat → j ≠ nid → j < st.nextId →
          optFA (lookup st.heap j) (lookup st'.heap j)) ∧
        (∀ done pnn bnn,
          lookup st.heap nid = some (.node (done ++ fs) pnn bnn) →
          ∃ pn2 bn2, lookup st'.heap nid = some (.node (done ++ fsN) pn2 bn2)) := by
  intro fs
  induction fs with
  | nil =>
    intro st st' heq hs hfv hnids
    rw [show refs2copiesFields (refs2copies_fast fuel) nid st [] = some st
      from rfl] at heq
    cases heq
    refine ⟨[], [], le_refl _, fun x => by simp, List.nodup_nil,
      fun x hx => absurd hx (List.not_mem_nil x),
      fun x hx => absurd hx (List.not_mem_nil x), rfl, rfl,
      fun j _ _ _ => optFA_refl _, ?_⟩
    intro done pnn bnn hl
    exact ⟨pnn, bnn, hl⟩
  | cons kx rest ih =>
    intro st st' heq hs hfv hnids
    obtain ⟨k, x⟩ := kx
    rw [show refs2copiesFields (refs2copies_fast fuel) nid st ((k, x) :: rest) =
      (match refs2copies_fast fuel st x with
       | none => none
       | some (v, stA) =>
         refs2copiesFields (refs2copies_fast fuel) nid
           { stA with heap :=
              if isNodeVal (setField stA.heap nid k v) v then
                setSpecFlag (setParentVal (setField stA.heap nid k v) v (some nid)) v
              else setField stA.heap nid k v } rest) from rfl] at heq
    cases hr : refs2copies_fast fuel st x with
    | none => rw [hr] at heq; cases heq
    | some res =>
      obtain ⟨v, stA⟩ := res
      rw [hr] at heq
      obtain ⟨hwf0, hk0, hf0, hb0, hsb0⟩ := hs
      obtain ⟨lv, hencv, hndv, hdisv, hcharv, hbndv, hframev⟩ :=
        ihmain st x (v, stA) hr ⟨hwf0, hk0, hf0, hb0, hsb0⟩
          (hfv (k, x) (List.mem_cons_self _ _))
      obtain ⟨hsA, hvA⟩ := refs2copies_sane fuel st x (v, stA) hr
        ⟨hwf0, hk0, hf0, hb0, hsb0⟩ (hfv (k, x) (List.mem_cons_self _ _))
      have hmonoA : st.nextId ≤ stA.nextId :=
        (refs2copies_stepOK fuel st x (v, stA) hr).2.1
      -- the child's value is not a reference to the container
      have hvnid : ∀ c, v = .ref c → c ≠ nid := by
        intro c hvc he
        subst he
        subst hvc
        exact hdisv c (enc_head_mem hencv) hnids
      -- facts about the written state
      have hsW := SaneSt_fieldWrite stA nid k v hsA hvA
      have hW1 : ∀ j, j ≠ nid →
          optFA (lookup stA.heap j)
            (lookup (if isNodeVal (setField stA.heap nid k v) v then
              setSpecFlag (setParentVal (setField stA.heap nid k v) v (some nid)) v
             else setField stA.heap nid k v) j) := by
        intro j hj
        by_cases hc : isNodeVal (setField stA.heap nid k v) v = true
        · rw [if_pos hc]
          refine optFA_trans (optFA_trans ?_
            (optFA_setParentVal _ v (some nid) j)) (optFA_setSpecFlag _ v j)
          rw [lookup_setField_ne stA.heap (fun he => hj he.symm) k v]
          exact optFA_refl _
        · rw [if_neg hc]
          rw [lookup_setField_ne stA.heap (fun he => hj he.symm) k v]
          exact optFA_refl _
      -- apply the induction hypothesis to the remaining fields
      obtain ⟨lcatR, fsNR, hleR, hcharR, hndR, hdisR, hbndR, hkeysR, hencR,
          hframeR, hnodeR⟩ :=
        ih _ _ heq hsW
          (fun f hf => valBounded_mono hmonoA (hfv f (List.mem_cons_of_mem _ hf)))
          (show nid ∈ stA.seen from (hcharv nid).2 (Or.inl hnids))
      -- normalise record-update projections
      have hleR' : stA.nextId ≤ st'.nextId := hleR
      have hcharR' : ∀ y, y ∈ st'.seen ↔ y ∈ stA.seen ∨ y ∈ lcatR := hcharR
      have hdisR' : ∀ y ∈ lcatR, y ∉ stA.seen := hdisR
      have hframeR' : ∀ j, j ∉ lcatR → j ≠ nid → j < stA.nextId →
          optFA (lookup (if isNodeVal (setField stA.heap nid k v) v then
              setSpecFlag (setParentVal (setField stA.heap nid k v) v (some nid)) v
            else setField stA.heap nid k v) j) (lookup st'.heap j) := hframeR
      -- transport the child's encounter list to the final heap
      have hencv' : encTrav fuel st'.heap v = some lv := by
        refine encTrav_congrFA fuel stA.heap st'.heap v lv hencv ?_
        intro y hy
        have hynid : y ≠ nid := by
          intro he
          subst he
          exact hdisv y hy hnids
        have hyA : y ∈ stA.seen := (hcharv y).2 (Or.inr hy)
        refine optFA_trans (hW1 y hynid) (hframeR' y ?_ hynid (hbndv y hy))
        intro hyR
        exact hdisR' y hyR hyA
      refine ⟨lv ++ lcatR, (k, v) :: fsNR, le_trans hmonoA hleR', ?_, ?_, ?_,
        ?_, ?_, ?_, ?_, ?_⟩
      · intro y
        rw [hcharR' y, hcharv y, List.mem_append]
        exact or_assoc
      · rw [List.nodup_append]
        refine ⟨hndv, hndR, ?_⟩
        intro y hy hyR
        exact hdisR' y hyR ((hcharv y).2 (Or.inr hy))
      · intro y hy
        rcases List.mem_append.1 hy with hy | hy
        · exact hdisv y hy
        · intro hyS
          exact hdisR' y hy ((hcharv y).2 (Or.inl hyS))
      · intro y hy
        rcases List.mem_append.1 hy with hy | hy
        · exact lt_of_lt_of_le (hbndv y hy) hleR'
        · exact hbndR y hy
      · rw [List.map_cons, List.map_cons, hkeysR]
      · simp only [encList, hencv', hencR]
      · intro j hj hjnid hjlt
        have hjv : j ∉ lv := fun hm => hj (List.mem_append_left _ hm)
        have hjR : j ∉ lcatR := fun hm => hj (List.mem_append_right _ hm)
        exact optFA_trans (hframev j hjv hjlt)
          (optFA_trans (hW1 j hjnid)
            (hframeR' j hjR hjnid (lt_of_lt_of_le hjlt hmonoA)))
      · intro done pnn bnn hlnid
        -- the container keeps its fields across the child visit
        have hnidlt : nid < st.nextId := hsb0 nid hnids
        have hnidlv : nid ∉ lv := fun hm => hdisv nid hm hnids
        have hfa := hframev nid hnidlv hnidlt
        rw [hlnid] at hfa
        obtain ⟨pA, bA, hlA⟩ := optFA_node hfa
        -- key uniqueness at the container
        have hknd := hf0 nid _ pnn bnn hlnid
        obtain ⟨hpre, hpost⟩ := keys_split_ne hknd
        -- the write rewrites exactly the processed entry
        have hWnid : lookup (if isNodeVal (setField stA.heap nid k v) v then
            setSpecFlag (setParentVal (setField stA.heap nid k v) v (some nid)) v
          else setField stA.heap nid k v) nid =
            some (.node (done ++ (k, v) :: rest) pA bA) := by
          have hsf : lookup (setField stA.heap nid k v) nid =
              some (.node (done ++ (k, v) :: rest) pA bA) := by
            rw [setField, lookup_mapAt, if_pos rfl, hlA, Option.map_some']
            simp only [fieldSetFn]
            rw [map_update_split x v hpre hpost]
          by_cases hc : isNodeVal (setField stA.heap nid k v) v = true
          · rw [if_pos hc]
            cases v with
            | scalar k2 => exact hsf
            | ref c =>
              have hcnid : c ≠ nid := hvnid c rfl
              rw [show setSpecFlag (setParentVal
                  (setField stA.heap nid k (Value.ref c)) (.ref c) (some nid))
                  (.ref c) =
                mapAt (mapAt (setField stA.heap nid k (Value.ref c)) c
                  (parentSetFn (some nid))) c specSetFn from rfl]
              rw [lookup_mapAt, if_neg hcnid, lookup_mapAt, if_neg hcnid]
              exact hsf
          · rw [if_neg hc]
            exact hsf
        obtain ⟨pn2, bn2, hfin⟩ := hnodeR (done ++ [(k, v)]) pA bA
          (by rw [List.append_assoc, List.singleton_append]; exact hWnid)
        refine ⟨pn2, bn2, ?_⟩
        rw [List.append_assoc, List.singleton_append] at hfin
        exact hfin

/-- Core post-conditions of a successful visit: the returned value's
encounter traversal on the output heap exists at the same fuel, meets
no identity twice, lists exactly the identities newly added to
`seen_ids` (all fresh relative to the entry `seen_ids` and below the
output `nextId`), and every identity off that list keeps its kind and
fields. -/
theorem refs2copies_post : ∀ (fuel : Nat) (st : St) (v : Value)
    (res : Value × St), refs2copies_fast fuel st v = some res →
    SaneSt st → valBounded st.nextId v →
    ∃ l, encTrav fuel res.2.heap res.1 = some l ∧ l.Nodup ∧
      (∀ x ∈ l, x ∉ st.seen) ∧
      (∀ x, x ∈ res.2.seen ↔ x ∈ st.seen ∨ x ∈ l) ∧
      (∀ x ∈ l, x < res.2.nextId) ∧
      (∀ j, j ∉ l → j < st.nextId →
        optFA (lookup st.heap j) (lookup res.2.heap j)) := by
  intro fuel
  induction fuel with
  | zero =>
    intro st v res heq
    exact absurd heq (by simp [refs2copies_fast])
  | succ fuel ih =>
    intro st v res heq hs hv
    cases v with
    | scalar k =>
      rw [show refs2copies_fast (fuel+1) st (.scalar k) =
        some (.scalar k, { st with visited := st.visited ++ [Value.scalar k] })
        from rfl] at heq
      cases heq
      refine ⟨[], by simp [encTrav], List.nodup_nil,
        fun x hx => absurd hx (List.not_mem_nil x), fun x => by simp,
        fun x hx => absurd hx (List.not_mem_nil x),
        fun j _ _ => optFA_refl _⟩
    | ref i =>
      obtain ⟨hwf, hk, hf, hb, hsb⟩ := hs
      simp only [refs2copies_fast] at heq
      by_cases hn : isNodeVal st.heap (.ref i) = true
      all_goals
        simp only [hn, Bool.false_eq_true, if_true, if_false, idSeen,
          idAdd, setParentVal] at heq
      case pos =>
        by_cases hm : i ∈ st.seen
        all_goals simp only [hm, decide_True, decide_False,
          Bool.false_eq_true, if_true, if_false, idAdd] at heq
        case pos =>
          cases hD : deepcopyVal ⟨setParent st.heap i none, st.nextId,
              st.seen, st.visited ++ [Value.ref i]⟩ (.ref i) with
          | mk v1 stC =>
            rw [hD] at heq
            have hs2 : SaneSt ⟨setParent st.heap i none, st.nextId,
                st.seen, st.visited ++ [Value.ref i]⟩ :=
              ⟨HeapWF_setParent hwf _ _, KeysNodup_mapAt hk _ _,
               FieldKeysNodup_parent hf _ _,
               HeapBounded_mapAt_keepRefs hb _ _ (refsOfObj_parentSetFn none),
               hsb⟩
            obtain ⟨hwf2, hk2, hf2, hb2, hsb2⟩ := hs2
            have hDs := deepcopy_sane ⟨setParent st.heap i none, st.nextId,
              st.seen, st.visited ++ [Value.ref i]⟩ i hwf2 hk2 hf2 hb2
            rw [hD] at hDs
            have hDr := deepcopy_ref ⟨setParent st.heap i none, st.nextId,
              st.seen, st.visited ++ [Value.ref i]⟩ i hwf2
            rw [hD] at hDr
            have hv1 : v1 = .ref (st.nextId +
                (reachSet (setParent st.heap i none) [i]).indexOf i) := hDr.1
            have hnid : stC.nextId = st.nextId +
                (reachSet (setParent st.heap i none) [i]).length :=
              hDr.2.2.2.2.1
            have hseenC : stC.seen = st.seen := hDr.2.2.2.2.2.1
            have hDpres : ∀ j, j < st.nextId →
                lookup stC.heap j = lookup (setParent st.heap i none) j :=
              fun j hj => hDr.2.2.1 j hj
            have hwfC : HeapWF stC.heap stC.nextId := hDr.2.2.2.2.2.2.2
            have hkC : KeysNodup stC.heap := hDs.1
            have hfC : FieldKeysNodup stC.heap := hDs.2.1
            have hbC : HeapBounded stC.heap stC.nextId := hDs.2.2
            have hmemA : i ∈ reachSet (setParent st.heap i none) [i] :=
              mem_reachSet_self _ _ (by simp)
            have hidxA := List.indexOf_lt_length.2 hmemA
            cases v1 with
            | scalar k2 => exact absurd hv1 (by simp)
            | ref c =>
              have hc : c = st.nextId +
                  (reachSet (setParent st.heap i none) [i]).indexOf i :=
                Value.ref.inj hv1
              have hcge : st.nextId ≤ c := by omega
              have hclt : c < stC.nextId := by
                rw [hnid]
                omega
              have hsbC : ∀ x ∈ stC.seen, x < stC.nextId := by
                rw [hseenC, hnid]
                intro x hx
                have := hsb x hx
                omega
              simp only at heq
              cases hlk : lookup stC.heap c with
              | none =>
                simp only [hlk] at heq
                cases heq
                refine ⟨[c], ?_, by simp, ?_, ?_, ?_, ?_⟩
                · show encTrav (fuel+1) stC.heap (.ref c) = some [c]
                  simp only [encTrav, hlk]
                · intro y hy hyS
                  rw [List.mem_singleton] at hy
                  subst hy
                  have := hsb y hyS
                  omega
                · intro y
                  show y ∈ c :: stC.seen ↔ _
                  rw [List.mem_cons, hseenC, List.mem_singleton]
                  exact Or.comm
                · intro y hy
                  rw [List.mem_singleton] at hy
                  subst hy
                  exact hclt
                · intro j hj hjlt
                  show optFA (lookup st.heap j) (lookup stC.heap j)
                  rw [hDpres j hjlt]
                  exact optFA_parentSet st.heap i none j
              | some o =>
                simp only [hlk] at heq
                cases o with
                | node fs p b =>
                  cases hloop : refs2copiesFields (refs2copies_fast fuel) c
                      ⟨stC.heap, stC.nextId, c :: stC.seen, stC.visited⟩ fs with
                  | none =>
                    simp only [hloop] at heq
                    exact Option.noConfusion heq
                  | some st5 =>
                    simp only [hloop] at heq
                    cases heq
                    have hs4 : SaneSt ⟨stC.heap, stC.nextId, c :: stC.seen,
                        stC.visited⟩ := by
                      refine ⟨hwfC, hkC, hfC, hbC, ?_⟩
                      intro y hy
                      rcases List.mem_cons.1 hy with rfl | hy
                      · exact hclt
                      · exact hsbC y hy
                    obtain ⟨lcat, fsN, hleR, hcharR, hndR, hdisR, hbndR,
                        hkeysR, hencR, hframeR, hnodeR⟩ :=
                      fields_post fuel ih c fs _ st5 hloop hs4
                        (fieldVals_bounded hbC hlk)
                        (List.mem_cons_self _ _)
                    have hleR' : stC.nextId ≤ st5.nextId := hleR
                    have hcharR' : ∀ y, y ∈ st5.seen ↔
                        y ∈ c :: stC.seen ∨ y ∈ lcat := hcharR
                    have hdisR' : ∀ y ∈ lcat, y ∉ c :: stC.seen := hdisR
                    have hframeR' : ∀ j, j ∉ lcat → j ≠ c → j < stC.nextId →
                        optFA (lookup stC.heap j) (lookup st5.heap j) := hframeR
                    obtain ⟨pn2, bn2, hfin⟩ := hnodeR [] p b
                      (show lookup stC.heap c = some (.node ([] ++ fs) p b)
                        from hlk)
                    have hfin' : lookup st5.heap c =
                        some (.node fsN pn2 bn2) := hfin
                    have hl6 : lookup (setParent st5.heap c none) c =
                        some (.node fsN none bn2) := by
                      rw [setParent, lookup_mapAt, if_pos rfl, hfin',
                        Option.map_some']
                      simp only [parentSetFn]
                    have hencN : encList (encTrav fuel
                        (setParent st5.heap c none)) fsN = some lcat :=
                      encList_congr (encTrav fuel st5.heap)
                        (encTrav fuel (setParent st5.heap c none))
                        (fun _ => True)
                        (fun v2 l2 hv2 _ => encTrav_congrFA fuel st5.heap _
                          v2 l2 hv2
                          (fun y _ => optFA_parentSet st5.heap c none y))
                        fsN lcat hencR (fun _ _ => trivial)
                    refine ⟨c :: lcat, ?_, ?_, ?_, ?_, ?_, ?_⟩
                    · show encTrav (fuel+1) (setParent st5.heap c none)
                        (.ref c) = some (c :: lcat)
                      have hunf : encTrav (fuel+1)
                          (setParent st5.heap c none) (Value.ref c) =
                          (match lookup (setParent st5.heap c none) c with
                           | some (Obj.node fs2 _ _) =>
                             (encList (encTrav fuel
                               (setParent st5.heap c none)) fs2).map
                               (fun l2 => c :: l2)
                           | _ => some [c]) := rfl
                      rw [hunf]
                      simp only [hl6, hencN, Option.map_some']
                    · rw [List.nodup_cons]
                      refine ⟨?_, hndR⟩
                      intro hcm
                      exact hdisR' c hcm (List.mem_cons_self _ _)
                    · intro y hy
                      rcases List.mem_cons.1 hy with rfl | hy
                      · intro hyS
                        have := hsb y hyS
                        omega
                      · intro hyS
                        refine hdisR' y hy ?_
                        rw [hseenC]
                        exact List.mem_cons_of_mem _ hyS
                    · intro y
                      show y ∈ st5.seen ↔ _
                      rw [hcharR' y, List.mem_cons, hseenC, List.mem_cons]
                      tauto
                    · intro y hy
                      rcases List.mem_cons.1 hy with rfl | hy
                      · show y < st5.nextId
                        exact lt_of_lt_of_le hclt hleR'
                      · exact hbndR y hy
                    · intro j hj hjlt
                      have hjc : j ≠ c := by omega
                      have hjl : j ∉ lcat :=
                        fun hm2 => hj (List.mem_cons_of_mem _ hm2)
                      show optFA (lookup st.heap j)
                        (lookup (setParent st5.heap c none) j)
                      refine optFA_trans ?_ (optFA_parentSet st5.heap c none j)
                      refine optFA_trans ?_ (hframeR' j hjl hjc (by omega))
                      rw [hDpres j hjlt]
                      exact optFA_parentSet st.heap i none j
                | seq es =>
                  cases heq
                  refine ⟨[c], ?_, by simp, ?_, ?_, ?_, ?_⟩
                  · show encTrav (fuel+1) stC.heap (.ref c) = some [c]
                    simp only [encTrav, hlk]
                  · intro y hy hyS
                    rw [List.mem_singleton] at hy
                    subst hy
                    have := hsb y hyS
                    omega
                  · intro y
                    show y ∈ c :: stC.seen ↔ _
                    rw [List.mem_cons, hseenC, List.mem_singleton]
                    exact Or.comm
                  · intro y hy
                    rw [List.mem_singleton] at hy
                    subst hy
                    exact hclt
                  · intro j hj hjlt
                    show optFA (lookup st.heap j) (lookup stC.heap j)
                    rw [hDpres j hjlt]
                    exact optFA_parentSet st.heap i none j
                | box t =>
                  cases heq
                  refine ⟨[c], ?_, by simp, ?_, ?_, ?_, ?_⟩
                  · show encTrav (fuel+1) stC.heap (.ref c) = some [c]
                    simp only [encTrav, hlk]
                  · intro y hy hyS
                    rw [List.mem_singleton] at hy
                    subst hy
                    have := hsb y hyS
                    omega
                  · intro y
                    show y ∈ c :: stC.seen ↔ _
                    rw [List.mem_cons, hseenC, List.mem_singleton]
                    exact Or.comm
                  · intro y hy
                    rw [List.mem_singleton] at hy
                    subst hy
                    exact hclt
                  · intro j hj hjlt
                    show optFA (lookup st.heap j) (lookup stC.heap j)
                    rw [hDpres j hjlt]
                    exact optFA_parentSet st.heap i none j
        case neg =>
          cases hlk : lookup (setParent st.heap i none) i with
          | none =>
            simp only [hlk] at heq
            cases heq
            refine ⟨[i], ?_, by simp, ?_, ?_, ?_, ?_⟩
            · show encTrav (fuel+1) (setParent st.heap i none) (.ref i) =
                some [i]
              simp only [encTrav, hlk]
            · intro y hy hyS
              rw [List.mem_singleton] at hy
              subst hy
              exact hm hyS
            · intro y
              show y ∈ i :: st.seen ↔ _
              rw [List.mem_cons, List.mem_singleton]
              exact Or.comm
            · intro y hy
              rw [List.mem_singleton] at hy
              subst hy
              exact hv
            · intro j hj hjlt
              exact optFA_parentSet st.heap i none j
          | some o =>
            simp only [hlk] at heq
            cases o with
            | node fs p b =>
              cases hloop : refs2copiesFields (refs2copies_fast fuel) i
                  ⟨setParent st.heap i none, st.nextId, i :: st.seen,
                   st.visited ++ [Value.ref i]⟩ fs with
              | none =>
                simp only [hloop] at heq
                exact Option.noConfusion heq
              | some st5 =>
                simp only [hloop] at heq
                cases heq
                have hs4 : SaneSt ⟨setParent st.heap i none, st.nextId,
                    i :: st.seen, st.visited ++ [Value.ref i]⟩ := by
                  refine ⟨HeapWF_setParent hwf _ _, KeysNodup_mapAt hk _ _,
                    FieldKeysNodup_parent hf _ _,
                    HeapBounded_mapAt_keepRefs hb _ _
                      (refsOfObj_parentSetFn none), ?_⟩
                  intro y hy
                  rcases List.mem_cons.1 hy with rfl | hy
                  · exact hv
                  · exact hsb y hy
                obtain ⟨lcat, fsN, hleR, hcharR, hndR, hdisR, hbndR,
                    hkeysR, hencR, hframeR, hnodeR⟩ :=
                  fields_post fuel ih i fs _ st5 hloop hs4
                    (fieldVals_bounded hs4.2.2.2.1 hlk)
                    (List.mem_cons_self _ _)
                have hleR' : st.nextId ≤ st5.nextId := hleR
                have hcharR' : ∀ y, y ∈ st5.seen ↔
                    y ∈ i :: st.seen ∨ y ∈ lcat := hcharR
                have hdisR' : ∀ y ∈ lcat, y ∉ i :: st.seen := hdisR
                have hframeR' : ∀ j, j ∉ lcat → j ≠ i → j < st.nextId →
                    optFA (lookup (setParent st.heap i none) j)
                      (lookup st5.heap j) := hframeR
                obtain ⟨pn2, bn2, hfin⟩ := hnodeR [] p b
                  (show lookup (setParent st.heap i none) i =
                    some (.node ([] ++ fs) p b) from hlk)
                have hfin' : lookup st5.heap i =
                    some (.node fsN pn2 bn2) := hfin
                have hl6 : lookup (setParent st5.heap i none) i =
                    some (.node fsN none bn2) := by
                  rw [setParent, lookup_mapAt, if_pos rfl, hfin',
                    Option.map_some']
                  simp only [parentSetFn]
                have hencN : encList (encTrav fuel
                    (setParent st5.heap i none)) fsN = some lcat :=
                  encList_congr (encTrav fuel st5.heap)
                    (encTrav fuel (setParent st5.heap i none))
                    (fun _ => True)
                    (fun v2 l2 hv2 _ => encTrav_congrFA fuel st5.heap _
                      v2 l2 hv2
                      (fun y _ => optFA_parentSet st5.heap i none y))
                    fsN lcat hencR (fun _ _ => trivial)
                refine ⟨i :: lcat, ?_, ?_, ?_, ?_, ?_, ?_⟩
                · show encTrav (fuel+1) (setParent st5.heap i none)
                    (.ref i) = some (i :: lcat)
                  have hunf : encTrav (fuel+1)
                      (setParent st5.heap i none) (Value.ref i) =
                      (match lookup (setParent st5.heap i none) i with
                       | some (Obj.node fs2 _ _) =>
                         (encList (encTrav fuel
                           (setParent st5.heap i none)) fs2).map
                           (fun l2 => i :: l2)
                       | _ => some [i]) := rfl
                  rw [hunf]
                  simp only [hl6, hencN, Option.map_some']
                · rw [List.nodup_cons]
                  refine ⟨?_, hndR⟩
                  intro him
                  exact hdisR' i him (List.mem_cons_self _ _)
                · intro y hy
                  rcases List.mem_cons.1 hy with rfl | hy
                  · exact hm
                  · intro hyS
                    exact hdisR' y hy (List.mem_cons_of_mem _ hyS)
                · intro y
                  show y ∈ st5.seen ↔ _
                  rw [hcharR' y, List.mem_cons, List.mem_cons]
                  tauto
                · intro y hy
                  rcases List.mem_cons.1 hy with rfl | hy
                  · show y < st5.nextId
                    exact lt_of_lt_of_le hv hleR'
                  · exact hbndR y hy
                · intro j hj hjlt
                  have hji : j ≠ i :=
                    fun he => hj (he ▸ List.mem_cons_self _ _)
                  have hjl : j ∉ lcat :=
                    fun hm2 => hj (List.mem_cons_of_mem _ hm2)
                  show optFA (lookup st.heap j)
                    (lookup (setParent st5.heap i none) j)
                  refine optFA_trans ?_ (optFA_parentSet st5.heap i none j)
                  refine optFA_trans (optFA_parentSet st.heap i none j)
                    (hframeR' j hjl hji hjlt)
            | seq es =>
              cases heq
              refine ⟨[i], ?_, by simp, ?_, ?_, ?_, ?_⟩
              · show encTrav (fuel+1) (setParent st.heap i none) (.ref i) =
                  some [i]
                simp only [encTrav, hlk]
              · intro y hy hyS
                rw [List.mem_singleton] at hy
                subst hy
                exact hm hyS
              · intro y
                show y ∈ i :: st.seen ↔ _
                rw [List.mem_cons, List.mem_singleton]
                exact Or.comm
              · intro y hy
                rw [List.mem_singleton] at hy
                subst hy
                exact hv
              · intro j hj hjlt
                exact optFA_parentSet st.heap i none j
            | box t =>
              cases heq
              refine ⟨[i], ?_, by simp, ?_, ?_, ?_, ?_⟩
              · show encTrav (fuel+1) (setParent st.heap i none) (.ref i) =
                  some [i]
                simp only [encTrav, hlk]
              · intro y hy hyS
                rw [List.mem_singleton] at hy
                subst hy
                exact hm hyS
              · intro y
                show y ∈ i :: st.seen ↔ _
                rw [List.mem_cons, List.mem_singleton]
                exact Or.comm
              · intro y hy
                rw [List.mem_singleton] at hy
                subst hy
                exact hv
              · intro j hj hjlt
                exact optFA_parentSet st.heap i none j
      case neg =>
        by_cases hm : i ∈ st.seen
        all_goals simp only [hm, decide_True, decide_False,
          Bool.false_eq_true, if_true, if_false, idAdd] at heq
        case pos =>
          cases hD : deepcopyVal ⟨st.heap, st.nextId,
              st.seen, st.visited ++ [Value.ref i]⟩ (.ref i) with
          | mk v1 stC =>
            rw [hD] at heq
            have hDs := deepcopy_sane ⟨st.heap, st.nextId,
              st.seen, st.visited ++ [Value.ref i]⟩ i hwf hk hf hb
            rw [hD] at hDs
            have hDr := deepcopy_ref ⟨st.heap, st.nextId,
              st.seen, st.visited ++ [Value.ref i]⟩ i hwf
            rw [hD] at hDr
            have hv1 : v1 = .ref (st.nextId +
                (reachSet st.heap [i]).indexOf i) := hDr.1
            have hnid : stC.nextId = st.nextId +
                (reachSet st.heap [i]).length := hDr.2.2.2.2.1
            have hseenC : stC.seen = st.seen := hDr.2.2.2.2.2.1
            have hDpres : ∀ j, j < st.nextId →
                lookup stC.heap j = lookup st.heap j :=
              fun j hj => hDr.2.2.1 j hj
            have hDlook : lookup stC.heap
                (st.nextId + (reachSet st.heap [i]).indexOf i) =
                some (remapObj (reachSet st.heap [i]) st.nextId
                  ((lookup st.heap i).getD (.box 0))) := hDr.2.2.2.1
            have hmemA : i ∈ reachSet st.heap [i] :=
              mem_reachSet_self _ _ (by simp)
            have hidxA := List.indexOf_lt_length.2 hmemA
            cases v1 with
            | scalar k2 => exact absurd hv1 (by simp)
            | ref c =>
              have hc : c = st.nextId +
                  (reachSet st.heap [i]).indexOf i := Value.ref.inj hv1
              have hcge : st.nextId ≤ c := by omega
              have hclt : c < stC.nextId := by
                rw [hnid]
                omega
              simp only at heq
              cases hlk : lookup stC.heap c with
              | none =>
                simp only [hlk] at heq
                cases heq
                refine ⟨[c], ?_, by simp, ?_, ?_, ?_, ?_⟩
                · show encTrav (fuel+1) stC.heap (.ref c) = some [c]
                  simp only [encTrav, hlk]
                · intro y hy hyS
                  rw [List.mem_singleton] at hy
                  subst hy
                  have := hsb y hyS
                  omega
                · intro y
                  show y ∈ c :: stC.seen ↔ _
                  rw [List.mem_cons, hseenC, List.mem_singleton]
                  exact Or.comm
                · intro y hy
                  rw [List.mem_singleton] at hy
                  subst hy
                  exact hclt
                · intro j hj hjlt
                  show optFA (lookup st.heap j) (lookup stC.heap j)
                  rw [hDpres j hjlt]
                  exact optFA_refl _
              | some o =>
                simp only [hlk] at heq
                cases o with
                | node fs p b =>
                  exfalso
                  rw [hc] at hlk
                  rw [hDlook] at hlk
                  cases hli : lookup st.heap i with
                  | none =>
                    rw [hli] at hlk
                    exact Obj.noConfusion (Option.some.inj hlk)
                  | some o2 =>
                    rw [hli] at hlk
                    cases o2 with
                    | node fs3 p3 b3 =>
                      rw [isNodeVal, hli] at hn
                      exact hn rfl
                    | seq es => exact Obj.noConfusion (Option.some.inj hlk)
                    | box t => exact Obj.noConfusion (Option.some.inj hlk)
                | seq es =>
                  cases heq
                  refine ⟨[c], ?_, by simp, ?_, ?_, ?_, ?_⟩
                  · show encTrav (fuel+1) stC.heap (.ref c) = some [c]
                    simp only [encTrav, hlk]
                  · intro y hy hyS
                    rw [List.mem_singleton] at hy
                    subst hy
                    have := hsb y hyS
                    omega
                  · intro y
                    show y ∈ c :: stC.seen ↔ _
                    rw [List.mem_cons, hseenC, List.mem_singleton]
                    exact Or.comm
                  · intro y hy
                    rw [List.mem_singleton] at hy
                    subst hy
                    exact hclt
                  · intro j hj hjlt
                    show optFA (lookup st.heap j) (lookup stC.heap j)
                    rw [hDpres j hjlt]
                    exact optFA_refl _
                | box t =>
                  cases heq
                  refine ⟨[c], ?_, by simp, ?_, ?_, ?_, ?_⟩
                  · show encTrav (fuel+1) stC.heap (.ref c) = some [c]
                    simp only [encTrav, hlk]
                  · intro y hy hyS
                    rw [List.mem_singleton] at hy
                    subst hy
                    have := hsb y hyS
                    omega
                  · intro y
                    show y ∈ c :: stC.seen ↔ _
                    rw [List.mem_cons, hseenC, List.mem_singleton]
                    exact Or.comm
                  · intro y hy
                    rw [List.mem_singleton] at hy
                    subst hy
                    exact hclt
                  · intro j hj hjlt
                    show optFA (lookup st.heap j) (lookup stC.heap j)
                    rw [hDpres j hjlt]
                    exact optFA_refl _
        case neg =>
          cases hlk : lookup st.heap i with
          | none =>
            simp only [hlk] at heq
            cases heq
            refine ⟨[i], ?_, by simp, ?_, ?_, ?_, ?_⟩
            · show encTrav (fuel+1) st.heap (.ref i) = some [i]
              simp only [encTrav, hlk]
            · intro y hy hyS
              rw [List.mem_singleton] at hy
              subst hy
              exact hm hyS
            · intro y
              show y ∈ i :: st.seen ↔ _
              rw [List.mem_cons, List.mem_singleton]
              exact Or.comm
            · intro y hy
              rw [List.mem_singleton] at hy
              subst hy
              exact hv
            · intro j hj hjlt
              exact optFA_refl _
          | some o =>
            simp only [hlk] at heq
            cases o with
            | node fs p b =>
              exfalso
              rw [isNodeVal, hlk] at hn
              exact hn rfl
            | seq es =>
              cases heq
              refine ⟨[i], ?_, by simp, ?_, ?_, ?_, ?_⟩
              · show encTrav (fuel+1) st.heap (.ref i) = some [i]
                simp only [encTrav, hlk]
              · intro y hy hyS
                rw [List.mem_singleton] at hy
                subst hy
                exact hm hyS
              · intro y
                show y ∈ i :: st.seen ↔ _
                rw [List.mem_cons, List.mem_singleton]
                exact Or.comm
              · intro y hy
                rw [List.mem_singleton] at hy
                subst hy
                exact hv
              · intro j hj hjlt
                exact optFA_refl _
            | box t =>
              cases heq
              refine ⟨[i], ?_, by simp, ?_, ?_, ?_, ?_⟩
              · show encTrav (fuel+1) st.heap (.ref i) = some [i]
                simp only [encTrav, hlk]
              · intro y hy hyS
                rw [List.mem_singleton] at hy
                subst hy
                exact hm hyS
              · intro y
                show y ∈ i :: st.seen ↔ _
                rw [List.mem_cons, List.mem_singleton]
                exact Or.comm
              · intro y hy
                rw [List.mem_singleton] at hy
                subst hy
                exact hv
              · intro j hj hjlt
                exact optFA_refl _

/-- Field loop of a copy-free re-run: when the traversal (computed on
the reference heap `h0`, with which the working heap agrees up to
parent/spec links) meets no identity twice and none already seen, the
loop returns every value unchanged, allocates nothing, and keeps the
heap in agreement with `h0`. -/
theorem fieldsLoop_nocopy (fuel : Nat) (h0 : HeapL)
    (hfk : FieldKeysNodup h0)
    (ihmain : ∀ (st : St) (v : Value) (l : List Nat),
      (∀ j, optFA (lookup h0 j) (lookup st.heap j)) →
      encTrav fuel h0 v = some l → l.Nodup →
      (∀ x ∈ l, x ∉ st.seen) →
      ∃ h' se vi, refs2copies_fast fuel st v =
        some (v, ⟨h', st.nextId, se, vi⟩) ∧
        (∀ j, optFA (lookup h0 j) (lookup h' j)) ∧
        (∀ x, x ∈ se ↔ x ∈ st.seen ∨ x ∈ l)) (nid : Nat) :
    ∀ (fs : List (String × Value)) (st : St) (l : List Nat)
      (fs0 : List (String × Value)) (p0 : Option Nat) (b0 : Bool),
      (∀ j, optFA (lookup h0 j) (lookup st.heap j)) →
      encList (encTrav fuel h0) fs = some l → l.Nodup →
      (∀ x ∈ l, x ∉ st.seen) →
      nid ∈ st.seen →
      lookup h0 nid = some (.node fs0 p0 b0) →
      (∀ f ∈ fs, f ∈ fs0) →
      ∃ h' se vi, refs2copiesFields (refs2copies_fast fuel) nid st fs =
        some ⟨h', st.nextId, se, vi⟩ ∧
        (∀ j, optFA (lookup h0 j) (lookup h' j)) ∧
        (∀ x, x ∈ se ↔ x ∈ st.seen ∨ x ∈ l) := by
  intro fs
  induction fs with
  | nil =>
    intro st l fs0 p0 b0 hAgr he _ _ _ _ _
    simp only [encList] at he
    cases he
    exact ⟨st.heap, st.seen, st.visited, rfl, hAgr, fun x => by simp⟩
  | cons kx rest ih =>
    intro st l fs0 p0 b0 hAgr he hnd hdis hnids hnid0 hsub
    obtain ⟨key, x⟩ := kx
    simp only [encList] at he
    cases h1 : encTrav fuel h0 x with
    | none =>
      simp only [h1] at he
      exact Option.noConfusion he
    | some lx =>
      cases h2 : encList (encTrav fuel h0) rest with
      | none =>
        simp only [h1, h2] at he
        exact Option.noConfusion he
      | some lr =>
        simp only [h1, h2] at he
        cases he
        have hdisx : ∀ y ∈ lx, y ∉ st.seen :=
          fun y hy => hdis y (List.mem_append_left _ hy)
        have hndx : lx.Nodup := (List.nodup_append.1 hnd).1
        obtain ⟨hx', sex, vix, hrunx, hAgrx, hsex⟩ :=
          ihmain st x lx hAgr h1 hndx hdisx
        -- the child's root identity differs from `nid`
        have hrootne : ∀ a : Nat, x = .ref a → a ≠ nid := by
          intro a hxa han
          apply hdisx a (enc_head_mem (hxa ▸ h1))
          rw [han]
          exact hnids
        -- the container keeps the reference fields after the write
        have hAnid := hAgrx nid
        rw [hnid0] at hAnid
        obtain ⟨pA, bA, hlA⟩ := optFA_node hAnid
        have hfnd := hfk nid fs0 p0 b0 hnid0
        have hsetf : lookup (setField hx' nid key x) nid =
            some (.node fs0 pA bA) := by
          rw [setField, lookup_mapAt, if_pos rfl, hlA, Option.map_some',
            fieldSetFn_self hfnd (hsub (key, x) (by simp)) pA bA]
        have hAgrW1 : ∀ j, optFA (lookup h0 j)
            (lookup (setField hx' nid key x) j) := by
          intro j
          by_cases hj : nid = j
          · subst hj
            rw [hsetf, hnid0]
            exact rfl
          · rw [setField, lookup_mapAt, if_neg hj]
            exact hAgrx j
        have hAgrW2 : ∀ j, optFA (lookup h0 j)
            (lookup (if isNodeVal (setField hx' nid key x) x then
              setSpecFlag (setParentVal (setField hx' nid key x) x (some nid)) x
             else setField hx' nid key x) j) := by
          intro j
          by_cases hc : isNodeVal (setField hx' nid key x) x = true
          · rw [if_pos hc]
            exact optFA_trans (optFA_trans (hAgrW1 j)
              (optFA_setParentVal _ x (some nid) j)) (optFA_setSpecFlag _ x j)
          · rw [if_neg hc]
            exact hAgrW1 j
        -- recurse on the remaining fields
        have hdisr : ∀ y ∈ lr, y ∉ sex := by
          intro y hy hse
          rcases (hsex y).1 hse with hys | hyl
          · exact hdis y (List.mem_append_right _ hy) hys
          · exact (List.disjoint_of_nodup_append hnd) hyl hy
        obtain ⟨h2', se2, vi2, hrun2, hAgr2, hse2⟩ := ih
          ⟨(if isNodeVal (setField hx' nid key x) x then
              setSpecFlag (setParentVal (setField hx' nid key x) x (some nid)) x
            else setField hx' nid key x), st.nextId, sex, vix⟩
          lr fs0 p0 b0 hAgrW2 h2 (List.nodup_append.1 hnd).2.1 hdisr
          ((hsex nid).2 (Or.inl hnids)) hnid0
          (fun f hf => hsub f (by simp [hf]))
        refine ⟨h2', se2, vi2, ?_, hAgr2, ?_⟩
        · show (match refs2copies_fast fuel st x with
            | none => none
            | some (v, st') =>
              refs2copiesFields (refs2copies_fast fuel) nid
                { st' with heap :=
                  if isNodeVal (setField st'.heap nid key v) v then
                    setSpecFlag (setParentVal
                      (setField st'.heap nid key v) v (some nid)) v
                  else setField st'.heap nid key v } rest) =
            some ⟨h2', st.nextId, se2, vi2⟩
          rw [hrunx]
          exact hrun2
        · intro y
          rw [hse2 y]
          constructor
          · intro hc
            rcases hc with hc | hc
            · rcases (hsex y).1 hc with hc | hc
              · exact Or.inl hc
              · exact Or.inr (List.mem_append_left _ hc)
            · exact Or.inr (List.mem_append_right _ hc)
          · intro hc
            rcases hc with hc | hc
            · exact Or.inl ((hsex y).2 (Or.inl hc))
            · rcases List.mem_append.1 hc with hc | hc
              · exact Or.inl ((hsex y).2 (Or.inr hc))
              · exact Or.inr hc

/-- A copy-free run: when the traversal computed on the reference heap
`h0` meets no identity twice and none already seen, and the working
heap agrees with `h0` up to parent/spec links, `refs2copies_fast`
returns the value unchanged, allocates nothing, and only rewrites
parent/spec links. -/
theorem refs2copies_nocopy : ∀ (fuel : Nat) (h0 : HeapL), FieldKeysNodup h0 →
    ∀ (st : St) (v : Value) (l : List Nat),
    (∀ j, optFA (lookup h0 j) (lookup st.heap j)) →
    encTrav fuel h0 v = some l → l.Nodup →
    (∀ x ∈ l, x ∉ st.seen) →
    ∃ h' se vi, refs2copies_fast fuel st v =
      some (v, ⟨h', st.nextId, se, vi⟩) ∧
      (∀ j, optFA (lookup h0 j) (lookup h' j)) ∧
      (∀ x, x ∈ se ↔ x ∈ st.seen ∨ x ∈ l) := by
  intro fuel
  induction fuel with
  | zero =>
    intro h0 hfk st v l hAgr he
    exact absurd he (by simp [encTrav])
  | succ fuel ih =>
    intro h0 hfk st v l hAgr he hnd hdis
    cases v with
    | scalar k =>
      simp only [encTrav] at he
      cases he
      exact ⟨st.heap, st.seen, st.visited ++ [Value.scalar k], rfl, hAgr,
        fun x => by simp⟩
    | ref i =>
      simp only [encTrav] at he
      cases hl : lookup h0 i with
      | none =>
        simp only [hl] at he
        cases he
        have hnn : isNodeVal st.heap (.ref i) = false := by
          rw [isNodeVal_of_optFA (hAgr i), isNodeVal, hl]
        have hm : i ∉ st.seen := hdis i (by simp)
        refine ⟨st.heap, i :: st.seen, st.visited ++ [Value.ref i], ?_, hAgr,
          fun x => by simp [Or.comm]⟩
        rw [refs2copies_visit_any_nonNode_unseen fuel st i hnn hm]
      | some o =>
        cases o with
        | seq es =>
          simp only [hl] at he
          cases he
          have hnn : isNodeVal st.heap (.ref i) = false := by
            rw [isNodeVal_of_optFA (hAgr i), isNodeVal, hl]
          have hm : i ∉ st.seen := hdis i (by simp)
          refine ⟨st.heap, i :: st.seen, st.visited ++ [Value.ref i], ?_,
            hAgr, fun x => by simp [Or.comm]⟩
          rw [refs2copies_visit_any_nonNode_unseen fuel st i hnn hm]
        | box t =>
          simp only [hl] at he
          cases he
          have hnn : isNodeVal st.heap (.ref i) = false := by
            rw [isNodeVal_of_optFA (hAgr i), isNodeVal, hl]
          have hm : i ∉ st.seen := hdis i (by simp)
          refine ⟨st.heap, i :: st.seen, st.visited ++ [Value.ref i], ?_,
            hAgr, fun x => by simp [Or.comm]⟩
          rw [refs2copies_visit_any_nonNode_unseen fuel st i hnn hm]
        | node fs0 p0 b0 =>
          cases hel : encList (encTrav fuel h0) fs0 with
          | none =>
            simp only [hl, hel, Option.map_none'] at he
            exact Option.noConfusion he
          | some l' =>
            simp only [hl, hel, Option.map_some'] at he
            cases he
            have hAi := hAgr i
            rw [hl] at hAi
            obtain ⟨pS, bS, hlS⟩ := optFA_node hAi
            have hm : i ∉ st.seen := hdis i (by simp)
            have hndl : l'.Nodup := (List.nodup_cons.1 hnd).2
            have hinotl : i ∉ l' := (List.nodup_cons.1 hnd).1
            have hAgr4 : ∀ j, optFA (lookup h0 j)
                (lookup (setParent st.heap i none) j) :=
              fun j => optFA_trans (hAgr j) (optFA_parentSet st.heap i none j)
            have hdis4 : ∀ x ∈ l', x ∉ i :: st.seen := by
              intro x hx hmem
              rcases List.mem_cons.1 hmem with hx2 | hx2
              · exact hinotl (hx2 ▸ hx)
              · exact hdis x (by simp [hx]) hx2
            obtain ⟨h', se, vi, hrun, hAgr', hse⟩ :=
              fieldsLoop_nocopy fuel h0 hfk
                (fun s2 v2 l2 ha2 he2 hn2 hd2 => ih h0 hfk s2 v2 l2 ha2 he2 hn2 hd2)
                i fs0
                ⟨setParent st.heap i none, st.nextId, i :: st.seen,
                 st.visited ++ [.ref i]⟩ l' fs0 p0 b0 hAgr4 hel hndl hdis4
                (by simp) hl (fun f hf => hf)
            refine ⟨setParent h' i none, se, vi, ?_, ?_, ?_⟩
            · rw [refs2copies_visit_node_unseen fuel st i fs0 pS bS hlS hm]
              rw [hrun]
            · exact fun j => optFA_trans (hAgr' j) (optFA_parentSet h' i none j)
            · intro y
              rw [hse y]
              constructor
              · intro hc
                rcases hc with hc | hc
                · rcases List.mem_cons.1 hc with hc | hc
                  · exact Or.inr (hc ▸ List.mem_cons_self _ _)
                  · exact Or.inl hc
                · exact Or.inr (List.mem_cons_of_mem _ hc)
              · intro hc
                rcases hc with hc | hc
                · exact Or.inl (List.mem_cons_of_mem _ hc)
                · rcases List.mem_cons.1 hc with hc | hc
                  · exact Or.inl (hc ▸ List.mem_cons_self _ _)
                  · exact Or.inr hc

/-- A visit of an identity not yet in `seen_ids` returns the value
itself (no copy is substituted). -/
theorem refs2copies_ret_unseen (fuel : Nat) (st : St) (i : Nat)
    (res : Value × St) (heq : refs2copies_fast (fuel+1) st (.ref i) = some res)
    (hm : i ∉ st.seen) : res.1 = .ref i := by
  cases hn : isNodeVal st.heap (.ref i) with
  | false =>
    rw [refs2copies_visit_any_nonNode_unseen fuel st i hn hm] at heq
    cases heq
    rfl
  | true =>
    obtain ⟨fs, p, b, hl⟩ : ∃ fs p b, lookup st.heap i =
        some (.node fs p b) := by
      rw [isNodeVal] at hn
      cases hl : lookup st.heap i with
      | none => rw [hl] at hn; exact Bool.noConfusion hn
      | some o =>
        cases o with
        | node fs p b => exact ⟨fs, p, b, rfl⟩
        | seq es => rw [hl] at hn; exact Bool.noConfusion hn
        | box t => rw [hl] at hn; exact Bool.noConfusion hn
    rw [refs2copies_visit_node_unseen fuel st i fs p b hl hm] at heq
    cases hloop : refs2copiesFields (refs2copies_fast fuel) i
        ⟨setParent st.heap i none, st.nextId, i :: st.seen,
         st.visited ++ [.ref i]⟩ fs with
    | none => rw [hloop] at heq; exact Option.noConfusion heq
    | some st5 =>
      rw [hloop] at heq
      cases heq
      rfl

theorem optFA_to_objFA {o : Obj} {x : Option Obj} (h : optFA (some o) x) :
    ∃ o', x = some o' ∧ objFieldsAgree o o' := by
  cases o with
  | node fs p b =>
    obtain ⟨p', b', hx⟩ := optFA_node h
    exact ⟨.node fs p' b', hx, rfl⟩
  | seq es => exact ⟨.seq es, optFA_other h rfl, rfl⟩
  | box t => exact ⟨.box t, optFA_other h rfl, rfl⟩

theorem find?_key_mem {fs : List (String × Value)} {key : String}
    (hk : key ∈ fs.map Prod.fst) :
    ∃ w, fs.find? (fun f => f.1 = key) = some (key, w) := by
  induction fs with
  | nil => simp at hk
  | cons f rest ih =>
    by_cases hf : f.1 = key
    · refine ⟨f.2, ?_⟩
      rw [List.find?_cons]
      simp only [hf, decide_True]
      rw [← hf]
    · rw [List.map_cons, List.mem_cons] at hk
      rcases hk with hk | hk
      · exact absurd hk.symm hf
      · obtain ⟨w, hw⟩ := ih hk
        refine ⟨w, ?_⟩
        rw [List.find?_cons]
        simp only [hf, decide_False]
        exact hw

theorem find?_split_self {pre post : List (String × Value)} {key : String}
    (v : Value) (hpre : ∀ g ∈ pre, g.1 ≠ key) :
    (pre ++ (key, v) :: post).find? (fun f => f.1 = key) = some (key, v) := by
  induction pre with
  | nil =>
    rw [List.nil_append, List.find?_cons]
    simp
  | cons g rest ih =>
    rw [List.cons_append, List.find?_cons]
    simp only [hpre g (List.mem_cons_self _ _), decide_False]
    exact ih (fun g2 hg2 => hpre g2 (List.mem_cons_of_mem _ hg2))

/-- C6 (amended): a second `process` run on the output of ANY successful
first run splits and copies nothing: it succeeds, allocates only its
own `processors` placeholder, and every object present after the first
run keeps its kind and all of its fields — only the non-owning
`parent_node` / `spec` links may be rewritten.  This holds because the
second traversal, like the first, swaps `processors` out for a fresh
placeholder and then meets each identity at most once — not because the
first run's output is alias-free (`process_output_alias_cex`). -/
theorem process_second_run_nocopy (fuel : Nat) (sp out : SpecPack)
    (hwf : HeapWF sp.heap sp.nextId)
    (hkeys : KeysNodup sp.heap)
    (hfkeys : FieldKeysNodup sp.heap)
    (hbnd : HeapBounded sp.heap sp.nextId)
    (hrun1 : process fuel sp = some out) :
    ∃ out2, process fuel out = some out2 ∧
      out2.rootId = out.rootId ∧
      out2.nextId = out.nextId + 1 ∧
      ∀ i o, lookup out.heap i = some o →
        ∃ o', lookup out2.heap i = some o' ∧ objFieldsAgree o o' := by
  have hrun1' : (match getField sp.heap sp.rootId "processors" with
      | none => none
      | some ps =>
        match refs2copies_fast fuel
            (St.mk (procH1 sp) (sp.nextId + 1) [] [])
            (Value.ref sp.rootId) with
        | none => none
        | some (_, st2) =>
          some (SpecPack.mk (setField st2.heap sp.rootId "processors" ps)
            st2.nextId sp.rootId)) = some out := hrun1
  cases hps : getField sp.heap sp.rootId "processors" with
  | none =>
    rw [hps] at hrun1'
    exact Option.noConfusion hrun1'
  | some ps =>
    rw [hps] at hrun1'
    cases hv1 : refs2copies_fast fuel
        (St.mk (procH1 sp) (sp.nextId + 1) [] []) (Value.ref sp.rootId) with
    | none =>
      rw [hv1] at hrun1'
      exact Option.noConfusion hrun1'
    | some r1 =>
      obtain ⟨vout, st'⟩ := r1
      rw [hv1] at hrun1'
      simp only [Option.some.injEq] at hrun1'
      subst hrun1'
      obtain ⟨f, rfl⟩ : ∃ f, fuel = f + 1 := by
        cases fuel with
        | zero => exact absurd hv1 (by simp [refs2copies_fast])
        | succ f => exact ⟨f, rfl⟩
      -- the root node and its `processors` key
      obtain ⟨fs, pr, br, hlroot, hkmem⟩ := getField_some_key hps
      have hrlt : sp.rootId < sp.nextId := lookup_lt_of_wf hwf hlroot
      -- the saved processors value is a bounded field value
      have hpsb : valBounded sp.nextId ps := by
        simp only [getField, hlroot] at hps
        cases hfd : fs.find? (fun f => f.1 = "processors") with
        | none =>
          simp only [hfd, Option.map_none'] at hps
          exact Option.noConfusion hps
        | some fv =>
          simp only [hfd, Option.map_some', Option.some.injEq] at hps
          have hmem := List.mem_of_find?_eq_some hfd
          have hfb := fieldVals_bounded hbnd hlroot fv hmem
          rw [hps] at hfb
          exact hfb
      -- sanity of the working state
      have hwfH : HeapWF (procH1 sp) (sp.nextId + 1) := by
        rw [procH1]
        refine HeapWF_setField (HeapWF_append (HeapWF_mono hwf (by omega))
          ?_) _ _ _
        intro q hq
        rw [List.mem_singleton] at hq
        subst hq
        exact Nat.lt_succ_self _
      have hkH : KeysNodup (procH1 sp) := by
        rw [procH1, setField]
        exact KeysNodup_mapAt (KeysNodup_append_single hkeys hwf (Obj.seq []))
          _ _
      have hfH : FieldKeysNodup (procH1 sp) := by
        rw [procH1]
        exact FieldKeysNodup_setField
          (FieldKeysNodup_append_nonNode hfkeys sp.nextId (Obj.seq []) rfl)
          _ _ _
      have hbH : HeapBounded (procH1 sp) (sp.nextId + 1) := by
        rw [procH1]
        refine HeapBounded_setField ?_ _ _ (Nat.lt_succ_self _)
        rw [show sp.heap ++ [(sp.nextId, Obj.seq [])] =
          sp.heap ++ allocList sp.nextId [Obj.seq []] from rfl]
        refine HeapBounded_append_alloc hbnd (by omega) _ _ ?_
        intro o ho j hj
        rw [List.mem_singleton] at ho
        subst ho
        exact absurd hj (by simp [refsOfObj, refsOfVals])
      have hs0 : SaneSt (St.mk (procH1 sp) (sp.nextId + 1) [] []) :=
        ⟨hwfH, hkH, hfH, hbH, fun x hx => absurd hx (List.not_mem_nil x)⟩
      have hv0b : valBounded (St.mk (procH1 sp) (sp.nextId + 1) [] []).nextId
          (Value.ref sp.rootId) := by
        show sp.rootId < sp.nextId + 1
        omega
      -- the first run returns the root itself
      have hvout : vout = .ref sp.rootId :=
        refs2copies_ret_unseen f _ sp.rootId (vout, st') hv1
          (List.not_mem_nil _)
      subst hvout
      -- first-run post-conditions
      obtain ⟨l1, henc1, hnd1, _, hchar1, hbnd1, hframe1⟩ :=
        refs2copies_post (f+1) _ _ _ hv1 hs0 hv0b
      obtain ⟨hsS, _⟩ := refs2copies_sane (f+1) _ _ _ hv1 hs0 hv0b
      obtain ⟨hwfS, hkS, hfS, hbS, hsbS⟩ := hsS
      have hmono1 : sp.nextId + 1 ≤ st'.nextId :=
        (refs2copies_stepOK (f+1) _ _ _ hv1).2.1
      have henc1a : encTrav (f+1) st'.heap (.ref sp.rootId) = some l1 := henc1
      have hnd1a : l1.Nodup := hnd1
      have hbnd1a : ∀ x ∈ l1, x < st'.nextId := hbnd1
      -- the root keeps node kind and keys through the first run
      have hlH : lookup (procH1 sp) sp.rootId =
          some (.node (fs.map (fun g =>
            if g.1 = "processors" then ("processors", Value.ref sp.nextId)
            else g)) pr br) := by
        rw [procH1, setField, lookup_mapAt, if_pos rfl,
          lookup_append_single_ne (by omega), hlroot, Option.map_some']
        simp only [fieldSetFn]
      have hfp1 : framePres (procH1 sp) st'.heap :=
        (refs2copies_stepOK (f+1) _ _ _ hv1).1
      obtain ⟨fsF, pF, bF, hlF, hkeysF⟩ := hfp1 sp.rootId _ hlH
      have hkeysF2 : fsF.map Prod.fst = fs.map Prod.fst := by
        rw [hkeysF, fieldSet_keys]
      obtain ⟨w, hfnd⟩ := find?_key_mem
        (show "processors" ∈ fsF.map Prod.fst by rw [hkeysF2]; exact hkmem)
      obtain ⟨preF, postF, hFsplit, hpreF⟩ := find?_split hfnd
      have hndF : (fsF.map Prod.fst).Nodup := hfS sp.rootId fsF pF bF hlF
      have hpostF : ∀ g ∈ postF, g.1 ≠ "processors" :=
        (keys_split_ne (hFsplit ▸ hndF)).2
      -- decompose the first-run encounter list at the root
      have henc1b : (match lookup st'.heap sp.rootId with
          | some (Obj.node fs2 _ _) =>
            (encList (encTrav f st'.heap) fs2).map
              (fun l2 => sp.rootId :: l2)
          | _ => some [sp.rootId]) = some l1 := henc1a
      simp only [hlF] at henc1b
      cases hencF : encList (encTrav f st'.heap) fsF with
      | none =>
        rw [hencF, Option.map_none'] at henc1b
        exact Option.noConfusion henc1b
      | some lT =>
        rw [hencF, Option.map_some', Option.some.injEq] at henc1b
        subst henc1b
        rw [hFsplit, encList_append] at hencF
        cases hA : encList (encTrav f st'.heap) preF with
        | none => rw [hA] at hencF; exact Option.noConfusion hencF
        | some A =>
          rw [hA] at hencF
          cases hWB : encList (encTrav f st'.heap)
              (("processors", w) :: postF) with
          | none => rw [hWB] at hencF; exact Option.noConfusion hencF
          | some WB =>
            rw [hWB] at hencF
            simp only [Option.some.injEq] at hencF
            simp only [encList] at hWB
            cases hw : encTrav f st'.heap w with
            | none => rw [hw] at hWB; exact Option.noConfusion hWB
            | some lw =>
              cases hB : encList (encTrav f st'.heap) postF with
              | none => rw [hw, hB] at hWB; exact Option.noConfusion hWB
              | some B =>
                rw [hw, hB] at hWB
                simp only [Option.some.injEq] at hWB
                obtain ⟨f', rfl⟩ : ∃ f', f = f' + 1 := by
                  cases f with
                  | zero => exact absurd hw (by simp [encTrav])
                  | succ f' => exact ⟨f', rfl⟩
                subst hWB
                subst hencF
                -- facts about the first run's output heap
                have hlor : lookup (setField st'.heap sp.rootId "processors" ps)
                    sp.rootId =
                    some (.node (preF ++ ("processors", ps) :: postF) pF bF) := by
                  rw [setField, lookup_mapAt, if_pos rfl, hlF, Option.map_some']
                  simp only [fieldSetFn]
                  rw [hFsplit, map_update_split w ps hpreF hpostF]
                have hloe : ∀ j, j ≠ sp.rootId →
                    lookup (setField st'.heap sp.rootId "processors" ps) j =
                      lookup st'.heap j := by
                  intro j hj
                  rw [setField, lookup_mapAt, if_neg (fun he => hj he.symm)]
                have hwfO : HeapWF (setField st'.heap sp.rootId "processors" ps)
                    st'.nextId := HeapWF_setField hwfS _ _ _
                have hfO : FieldKeysNodup
                    (setField st'.heap sp.rootId "processors" ps) :=
                  FieldKeysNodup_setField hfS _ _ _
                -- the second run's working heap
                have hl2root : lookup (procH1 (SpecPack.mk
                    (setField st'.heap sp.rootId "processors" ps)
                    st'.nextId sp.rootId)) sp.rootId =
                    some (.node (preF ++ ("processors", Value.ref st'.nextId)
                      :: postF) pF bF) := by
                  show lookup (setField
                    ((setField st'.heap sp.rootId "processors" ps) ++
                      [(st'.nextId, Obj.seq [])]) sp.rootId "processors"
                    (.ref st'.nextId)) sp.rootId = _
                  rw [setField, lookup_mapAt, if_pos rfl,
                    lookup_append_single_ne (by omega), hlor, Option.map_some']
                  simp only [fieldSetFn]
                  rw [map_update_split ps (Value.ref st'.nextId) hpreF hpostF]
                have hl2e : lookup (procH1 (SpecPack.mk
                    (setField st'.heap sp.rootId "processors" ps)
                    st'.nextId sp.rootId)) st'.nextId = some (Obj.seq []) := by
                  show lookup (setField
                    ((setField st'.heap sp.rootId "processors" ps) ++
                      [(st'.nextId, Obj.seq [])]) sp.rootId "processors"
                    (.ref st'.nextId)) st'.nextId = _
                  rw [setField, lookup_mapAt, if_neg (by omega),
                    lookup_append_single_self hwfO]
                have hl2other : ∀ j, j ≠ sp.rootId → j ≠ st'.nextId →
                    lookup (procH1 (SpecPack.mk
                      (setField st'.heap sp.rootId "processors" ps)
                      st'.nextId sp.rootId)) j = lookup st'.heap j := by
                  intro j hj hj2
                  show lookup (setField
                    ((setField st'.heap sp.rootId "processors" ps) ++
                      [(st'.nextId, Obj.seq [])]) sp.rootId "processors"
                    (.ref st'.nextId)) j = _
                  rw [setField, lookup_mapAt, if_neg (fun he => hj he.symm),
                    lookup_append_single_ne hj2, hloe j hj]
                have hfH2 : FieldKeysNodup (procH1 (SpecPack.mk
                    (setField st'.heap sp.rootId "processors" ps)
                    st'.nextId sp.rootId)) := by
                  show FieldKeysNodup (setField
                    ((setField st'.heap sp.rootId "processors" ps) ++
                      [(st'.nextId, Obj.seq [])]) sp.rootId "processors"
                    (.ref st'.nextId))
                  exact FieldKeysNodup_setField
                    (FieldKeysNodup_append_nonNode hfO st'.nextId
                      (Obj.seq []) rfl) _ _ _
                -- transport the sibling encounter lists
                have hrootT : sp.rootId ∉ A ++ (lw ++ B) :=
                  (List.nodup_cons.1 hnd1a).1
                have hndT : (A ++ (lw ++ B)).Nodup :=
                  (List.nodup_cons.1 hnd1a).2
                have hagT : ∀ x, x ∈ A ++ (lw ++ B) →
                    lookup (procH1 (SpecPack.mk
                      (setField st'.heap sp.rootId "processors" ps)
                      st'.nextId sp.rootId)) x = lookup st'.heap x := by
                  intro x hx
                  refine hl2other x (fun he => hrootT (he ▸ hx)) ?_
                  have := hbnd1a x (List.mem_cons_of_mem _ hx)
                  omega
                have hrecE : ∀ (v2 : Value) (l2 : List Nat),
                    encTrav (f' + 1) st'.heap v2 = some l2 →
                    (∀ x ∈ l2, x ∈ A ++ (lw ++ B)) →
                    encTrav (f' + 1) (procH1 (SpecPack.mk
                      (setField st'.heap sp.rootId "processors" ps)
                      st'.nextId sp.rootId)) v2 = some l2 :=
                  fun v2 l2 hv2 hP => encTrav_congr (f' + 1) st'.heap _ v2 l2
                    hv2 (fun x hx => hagT x (hP x hx))
                have hA2 : encList (encTrav (f' + 1) (procH1 (SpecPack.mk
                    (setField st'.heap sp.rootId "processors" ps)
                    st'.nextId sp.rootId))) preF = some A :=
                  encList_congr _ _ _ hrecE preF A hA
                    (fun x hx => List.mem_append_left _ hx)
                have hB2 : encList (encTrav (f' + 1) (procH1 (SpecPack.mk
                    (setField st'.heap sp.rootId "processors" ps)
                    st'.nextId sp.rootId))) postF = some B :=
                  encList_congr _ _ _ hrecE postF B hB
                    (fun x hx => List.mem_append_right _
                      (List.mem_append_right _ hx))
                have hP2 : encTrav (f' + 1) (procH1 (SpecPack.mk
                    (setField st'.heap sp.rootId "processors" ps)
                    st'.nextId sp.rootId)) (Value.ref st'.nextId) =
                    some [st'.nextId] := by
                  simp only [encTrav, hl2e]
                have houter : encTrav (f' + 1 + 1) (procH1 (SpecPack.mk
                    (setField st'.heap sp.rootId "processors" ps)
                    st'.nextId sp.rootId)) (.ref sp.rootId) =
                    some (sp.rootId :: (A ++ ([st'.nextId] ++ B))) := by
                  have hunf : encTrav (f' + 1 + 1) (procH1 (SpecPack.mk
                      (setField st'.heap sp.rootId "processors" ps)
                      st'.nextId sp.rootId)) (Value.ref sp.rootId) =
                      (match lookup (procH1 (SpecPack.mk
                        (setField st'.heap sp.rootId "processors" ps)
                        st'.nextId sp.rootId)) sp.rootId with
                       | some (Obj.node fs2 _ _) =>
                         (encList (encTrav (f' + 1) (procH1 (SpecPack.mk
                           (setField st'.heap sp.rootId "processors" ps)
                           st'.nextId sp.rootId))) fs2).map
                           (fun l2 => sp.rootId :: l2)
                       | _ => some [sp.rootId]) := rfl
                  rw [hunf]
                  simp only [hl2root]
                  rw [encList_append, hA2]
                  simp only [encList, hP2, hB2, Option.map_some']
                -- the second-run encounter list is duplicate-free
                have hndAB : (A ++ B).Nodup :=
                  List.Nodup.sublist
                    (List.Sublist.append_left (List.sublist_append_right lw B) A)
                    hndT
                have heAB : st'.nextId ∉ A ++ B := by
                  intro hm
                  have hlt : st'.nextId < st'.nextId := by
                    rcases List.mem_append.1 hm with hm | hm
                    · exact hbnd1a _ (List.mem_cons_of_mem _
                        (List.mem_append_left _ hm))
                    · exact hbnd1a _ (List.mem_cons_of_mem _
                        (List.mem_append_right _ (List.mem_append_right _ hm)))
                  omega
                have hnewTail : (A ++ ([st'.nextId] ++ B)).Nodup := by
                  rw [List.singleton_append]
                  exact List.nodup_middle.2 (List.nodup_cons.2 ⟨heAB, hndAB⟩)
                have hrootNew : sp.rootId ∉ A ++ ([st'.nextId] ++ B) := by
                  rw [List.singleton_append]
                  intro hm
                  rcases List.mem_append.1 hm with hm | hm
                  · exact hrootT (List.mem_append_left _ hm)
                  · rcases List.mem_cons.1 hm with hm | hm
                    · omega
                    · exact hrootT (List.mem_append_right _
                        (List.mem_append_right _ hm))
                have hndL2 : (sp.rootId :: (A ++ ([st'.nextId] ++ B))).Nodup :=
                  List.nodup_cons.2 ⟨hrootNew, hnewTail⟩
                -- run the copy-free traversal
                obtain ⟨h2', se2, vi2, hrun2, hAgr2, hse2⟩ :=
                  refs2copies_nocopy (f' + 1 + 1)
                    (procH1 (SpecPack.mk
                      (setField st'.heap sp.rootId "processors" ps)
                      st'.nextId sp.rootId)) hfH2
                    (St.mk (procH1 (SpecPack.mk
                      (setField st'.heap sp.rootId "processors" ps)
                      st'.nextId sp.rootId)) (st'.nextId + 1) [] [])
                    (.ref sp.rootId)
                    (sp.rootId :: (A ++ ([st'.nextId] ++ B)))
                    (fun j => optFA_refl _) houter hndL2
                    (fun x _ hx => List.not_mem_nil x hx)
                -- the second run's `processors` read
                have hps2 : getField (setField st'.heap sp.rootId
                    "processors" ps) sp.rootId "processors" = some ps := by
                  have hunf : getField (setField st'.heap sp.rootId
                      "processors" ps) sp.rootId "processors" =
                      (match lookup (setField st'.heap sp.rootId
                        "processors" ps) sp.rootId with
                       | some (Obj.node fs2 _ _) =>
                         (fs2.find? (fun g => g.1 = "processors")).map
                           (fun g => g.2)
                       | _ => none) := rfl
                  rw [hunf]
                  simp only [hlor]
                  rw [find?_split_self ps hpreF]
                  rfl
                refine ⟨SpecPack.mk (setField h2' sp.rootId "processors" ps)
                  (st'.nextId + 1) sp.rootId, ?_, rfl, rfl, ?_⟩
                · show (match getField (setField st'.heap sp.rootId
                      "processors" ps) sp.rootId "processors" with
                    | none => none
                    | some ps2 =>
                      match refs2copies_fast (f' + 1 + 1)
                          (St.mk (procH1 (SpecPack.mk
                            (setField st'.heap sp.rootId "processors" ps)
                            st'.nextId sp.rootId)) (st'.nextId + 1) [] [])
                          (Value.ref sp.rootId) with
                      | none => none
                      | some (_, st2) =>
                        some (SpecPack.mk
                          (setField st2.heap sp.rootId "processors" ps2)
                          st2.nextId sp.rootId)) = _
                  simp only [hps2]
                  simp only [hrun2]
                · intro i o ho
                  by_cases hir : i = sp.rootId
                  · subst hir
                    rw [hlor] at ho
                    cases ho
                    have hA2i := hAgr2 sp.rootId
                    rw [hl2root] at hA2i
                    obtain ⟨pX, bX, hlX⟩ := optFA_node hA2i
                    refine ⟨.node (preF ++ ("processors", ps) :: postF) pX bX,
                      ?_, rfl⟩
                    show lookup (setField h2' sp.rootId "processors" ps)
                      sp.rootId = _
                    rw [setField, lookup_mapAt, if_pos rfl, hlX,
                      Option.map_some']
                    simp only [fieldSetFn]
                    rw [map_update_split (Value.ref st'.nextId) ps hpreF hpostF]
                  · by_cases hie : i = st'.nextId
                    · subst hie
                      rw [lookup_eq_none_of_ge hwfO (le_refl _)] at ho
                      exact Option.noConfusion ho
                    · have hA2i := hAgr2 i
                      rw [hl2other i hir hie, ← hloe i hir, ho] at hA2i
                      obtain ⟨o', ho2, hfa⟩ := optFA_to_objFA hA2i
                      refine ⟨o', ?_, hfa⟩
                      show lookup (setField h2' sp.rootId "processors" ps) i =
                        some o'
                      rw [setField, lookup_mapAt,
                        if_neg (fun he => hir he.symm)]
                      exact ho2

/-- Check decidably that an object's owning references stay below `n`
(for concrete heaps). -/
def objBoundedBy (n : Nat) (o : Obj) : Bool :=
  decide (∀ j ∈ refsOfObj o, j < n)

theorem HeapBounded_of_all {h : HeapL} {n : Nat}
    (hall : ∀ q ∈ h, objBoundedBy n q.2 = true) : HeapBounded h n := by
  intro i o ho j hj
  rw [lookup] at ho
  cases hf : h.find? (fun q => q.1 = i) with
  | none => rw [hf] at ho; exact Option.noConfusion ho
  | some q =>
    rw [hf, Option.map_some', Option.some.injEq] at ho
    have hq := hall q (List.mem_of_find?_eq_some hf)
    rw [ho] at hq
    simp only [objBoundedBy, decide_eq_true_eq] at hq
    exact hq j hj

theorem process_second_run_nocopy_witness :
    ∃ out2, process 10 c1Out = some out2 ∧
      out2.rootId = c1Out.rootId ∧ out2.nextId = c1Out.nextId + 1 ∧
      ∀ i o, lookup c1Out.heap i = some o →
        ∃ o', lookup out2.heap i = some o' ∧ objFieldsAgree o o' :=
  process_second_run_nocopy 10 c1Spec c1Out (by decide)
    (by rw [KeysNodup]; decide) (FieldKeysNodup_of_all (by decide))
    (HeapBounded_of_all (by decide)) (by decide)
end TLFE
